import Mathlib

/-!
# ctxsave: transcript cleaning and multi-level summarisation

A shallow embedding of the Go packages `internal/compress` (summarizer.go,
tokens.go) and `internal/capture` (cursor.go) of ctxsave, with theorems about
the embedded functions.

## Modelling conventions

* A Go `string` is an immutable byte sequence.  It is embedded as `Str`, a list
  of byte values (natural numbers; real bytes are below 256).  `len(s)` is
  `s.length`, `s[:n]` is `s.take n`, `s[n:]` is `s.drop n`, `a + b` is `a ++ b`.
* String literals of the source are written `lit "..."`, the UTF-8 encoding of
  the literal.
* `strings.ToLower` is embedded as `ToLower`: the string is decoded rune by
  rune as `strings.Map` does (a byte that starts no valid UTF-8 encoding is the
  rune U+FFFD of width 1), every rune is lower-cased by `unicodeToLower` and
  encoded again.  `unicodeToLower` is `unicode.ToLower`: the letters `A`..`Z`
  below 128, and above it the simple lower-case mapping of the Unicode
  character database, given as a table of ranges (`lowerRanges`, 1407 code
  points, Unicode 14.0.0).
* `strings.TrimSpace` removes leading and trailing Unicode white space; its
  embedding `TrimSpace` removes the UTF-8 encodings of exactly the runes for
  which `unicode.IsSpace` holds.
* `int` values that are lengths or counters are natural numbers.
* A `float64` value is embedded as the rational number it denotes, and float64
  division as exact division followed by rounding to the nearest double.
-/

namespace Ctxsave

/-! ## Strings -/

/-- A Go string: its bytes. -/
abbrev Str := List Nat

/-- UTF-8 encoding of one code point. -/
def encodeRune (c : Nat) : List Nat :=
  if c < 128 then [c]
  else if c < 2048 then [192 + c / 64, 128 + c % 64]
  else if c < 65536 then [224 + c / 4096, 128 + (c / 64) % 64, 128 + c % 64]
  else [240 + c / 262144, 128 + (c / 4096) % 64, 128 + (c / 64) % 64, 128 + c % 64]

/-- The bytes of a string literal of the source. -/
def lit (s : String) : Str :=
  s.data.flatMap (fun c => encodeRune c.toNat)

/-- Go `strings.HasPrefix(s, p)`. -/
def HasPrefix : Str → Str → Bool
  | _, [] => true
  | [], _ :: _ => false
  | a :: s, b :: p => a == b && HasPrefix s p

/-- Go `strings.HasSuffix(s, p)`. -/
def HasSuffix (s p : Str) : Bool :=
  HasPrefix s.reverse p.reverse

/-- Go `strings.Contains(s, p)`. -/
def Contains : Str → Str → Bool
  | [], p => HasPrefix [] p
  | a :: s, p => HasPrefix (a :: s) p || Contains s p

/-- Go `strings.TrimPrefix(s, p)`. -/
def TrimPrefix (s p : Str) : Str :=
  if HasPrefix s p then s.drop p.length else s

/-- Lower-casing of one byte: `A`..`Z` to `a`..`z`. -/
def lowerByte (b : Nat) : Nat :=
  if 65 ≤ b ∧ b ≤ 90 then b + 32 else b

/-- Go `utf8.RuneError`, U+FFFD. -/
def RuneError : Nat := 65533

/-- The tables `first` and `acceptRanges` of package utf8 for a leading byte
above 127: the length of the encoding and the range of its second byte; `none`
for a byte that starts no encoding. -/
def leadInfo (b : Nat) : Option (Nat × Nat × Nat) :=
  if 194 ≤ b ∧ b ≤ 223 then some (2, 128, 191)
  else if b = 224 then some (3, 160, 191)
  else if 225 ≤ b ∧ b ≤ 236 then some (3, 128, 191)
  else if b = 237 then some (3, 128, 159)
  else if 238 ≤ b ∧ b ≤ 239 then some (3, 128, 191)
  else if b = 240 then some (4, 144, 191)
  else if 241 ≤ b ∧ b ≤ 243 then some (4, 128, 191)
  else if b = 244 then some (4, 128, 143)
  else none

/-- The bytes after the leading byte belong to an encoding: the second byte
lies in the accepted range and the others are continuation bytes. -/
def validTail (lo hi : Nat) : Str → Bool
  | [] => false
  | s1 :: rest => decide (lo ≤ s1 ∧ s1 ≤ hi) && rest.all (fun b => decide (128 ≤ b ∧ b ≤ 191))

/-- The code point of an encoding of `sz` bytes with leading byte `s0`. -/
def runeValue (s0 sz : Nat) (tail : Str) : Nat :=
  tail.foldl (fun acc b => acc * 64 + b % 64)
    (if sz = 2 then s0 % 32 else if sz = 3 then s0 % 16 else s0 % 8)

/-- Go `utf8.DecodeRuneInString`: the first rune of the string and its width
in bytes; `(RuneError, 1)` for a byte that starts no valid encoding and
`(RuneError, 0)` for the empty string. -/
def decodeRune : Str → Nat × Nat
  | [] => (RuneError, 0)
  | s0 :: t =>
    if s0 < 128 then (s0, 1)
    else
      match leadInfo s0 with
      | none => (RuneError, 1)
      | some (sz, lo, hi) =>
        if (t.take (sz - 1)).length = sz - 1 ∧ validTail lo hi (t.take (sz - 1)) then
          (runeValue s0 sz (t.take (sz - 1)), sz)
        else (RuneError, 1)

/-- The simple lower-case mappings of the Unicode character database above
U+007F.  An item `(lo, hi, step, to)` maps the code points `lo`, `lo + step`,
..., `hi` to `to`, `to + step`, ... -/
def lowerRanges : List (Nat × Nat × Nat × Nat) :=
  [(192, 214, 1, 224), (216, 222, 1, 248), (256, 302, 2, 257), (304, 304, 1, 105),
   (306, 310, 2, 307), (313, 327, 2, 314), (330, 374, 2, 331), (376, 376, 1, 255),
   (377, 381, 2, 378), (385, 385, 1, 595), (386, 388, 2, 387), (390, 390, 1, 596),
   (391, 391, 1, 392), (393, 394, 1, 598), (395, 395, 1, 396), (398, 398, 1, 477),
   (399, 399, 1, 601), (400, 400, 1, 603), (401, 401, 1, 402), (403, 403, 1, 608),
   (404, 404, 1, 611), (406, 406, 1, 617), (407, 407, 1, 616), (408, 408, 1, 409),
   (412, 412, 1, 623), (413, 413, 1, 626), (415, 415, 1, 629), (416, 420, 2, 417),
   (422, 422, 1, 640), (423, 423, 1, 424), (425, 425, 1, 643), (428, 428, 1, 429),
   (430, 430, 1, 648), (431, 431, 1, 432), (433, 434, 1, 650), (435, 437, 2, 436),
   (439, 439, 1, 658), (440, 440, 1, 441), (444, 444, 1, 445), (452, 452, 1, 454),
   (453, 453, 1, 454), (455, 455, 1, 457), (456, 456, 1, 457), (458, 458, 1, 460),
   (459, 475, 2, 460), (478, 494, 2, 479), (497, 497, 1, 499), (498, 500, 2, 499),
   (502, 502, 1, 405), (503, 503, 1, 447), (504, 542, 2, 505), (544, 544, 1, 414),
   (546, 562, 2, 547), (570, 570, 1, 11365), (571, 571, 1, 572), (573, 573, 1, 410),
   (574, 574, 1, 11366), (577, 577, 1, 578), (579, 579, 1, 384), (580, 580, 1, 649),
   (581, 581, 1, 652), (582, 590, 2, 583), (880, 882, 2, 881), (886, 886, 1, 887),
   (895, 895, 1, 1011), (902, 902, 1, 940), (904, 906, 1, 941), (908, 908, 1, 972),
   (910, 911, 1, 973), (913, 929, 1, 945), (931, 939, 1, 963), (975, 975, 1, 983),
   (984, 1006, 2, 985), (1012, 1012, 1, 952), (1015, 1015, 1, 1016), (1017, 1017, 1, 1010),
   (1018, 1018, 1, 1019), (1021, 1023, 1, 891), (1024, 1039, 1, 1104), (1040, 1071, 1, 1072),
   (1120, 1152, 2, 1121), (1162, 1214, 2, 1163), (1216, 1216, 1, 1231), (1217, 1229, 2, 1218),
   (1232, 1326, 2, 1233), (1329, 1366, 1, 1377), (4256, 4293, 1, 11520), (4295, 4295, 1, 11559),
   (4301, 4301, 1, 11565), (5024, 5103, 1, 43888), (5104, 5109, 1, 5112), (7312, 7354, 1, 4304),
   (7357, 7359, 1, 4349), (7680, 7828, 2, 7681), (7838, 7838, 1, 223), (7840, 7934, 2, 7841),
   (7944, 7951, 1, 7936), (7960, 7965, 1, 7952), (7976, 7983, 1, 7968), (7992, 7999, 1, 7984),
   (8008, 8013, 1, 8000), (8025, 8031, 2, 8017), (8040, 8047, 1, 8032), (8072, 8079, 1, 8064),
   (8088, 8095, 1, 8080), (8104, 8111, 1, 8096), (8120, 8121, 1, 8112), (8122, 8123, 1, 8048),
   (8124, 8124, 1, 8115), (8136, 8139, 1, 8050), (8140, 8140, 1, 8131), (8152, 8153, 1, 8144),
   (8154, 8155, 1, 8054), (8168, 8169, 1, 8160), (8170, 8171, 1, 8058), (8172, 8172, 1, 8165),
   (8184, 8185, 1, 8056), (8186, 8187, 1, 8060), (8188, 8188, 1, 8179), (8486, 8486, 1, 969),
   (8490, 8490, 1, 107), (8491, 8491, 1, 229), (8498, 8498, 1, 8526), (8544, 8559, 1, 8560),
   (8579, 8579, 1, 8580), (9398, 9423, 1, 9424), (11264, 11311, 1, 11312),
   (11360, 11360, 1, 11361), (11362, 11362, 1, 619), (11363, 11363, 1, 7549),
   (11364, 11364, 1, 637), (11367, 11371, 2, 11368), (11373, 11373, 1, 593),
   (11374, 11374, 1, 625), (11375, 11375, 1, 592), (11376, 11376, 1, 594),
   (11378, 11378, 1, 11379), (11381, 11381, 1, 11382), (11390, 11391, 1, 575),
   (11392, 11490, 2, 11393), (11499, 11501, 2, 11500), (11506, 11506, 1, 11507),
   (42560, 42604, 2, 42561), (42624, 42650, 2, 42625), (42786, 42798, 2, 42787),
   (42802, 42862, 2, 42803), (42873, 42875, 2, 42874), (42877, 42877, 1, 7545),
   (42878, 42886, 2, 42879), (42891, 42891, 1, 42892), (42893, 42893, 1, 613),
   (42896, 42898, 2, 42897), (42902, 42920, 2, 42903), (42922, 42922, 1, 614),
   (42923, 42923, 1, 604), (42924, 42924, 1, 609), (42925, 42925, 1, 620), (42926, 42926, 1, 618),
   (42928, 42928, 1, 670), (42929, 42929, 1, 647), (42930, 42930, 1, 669),
   (42931, 42931, 1, 43859), (42932, 42946, 2, 42933), (42948, 42948, 1, 42900),
   (42949, 42949, 1, 642), (42950, 42950, 1, 7566), (42951, 42953, 2, 42952),
   (42960, 42960, 1, 42961), (42966, 42968, 2, 42967), (42997, 42997, 1, 42998),
   (65313, 65338, 1, 65345), (66560, 66599, 1, 66600), (66736, 66771, 1, 66776),
   (66928, 66938, 1, 66967), (66940, 66954, 1, 66979), (66956, 66962, 1, 66995),
   (66964, 66965, 1, 67003), (68736, 68786, 1, 68800), (71840, 71871, 1, 71872),
   (93760, 93791, 1, 93792), (125184, 125217, 1, 125218)]

/-- Go `unicode.ToLower`. -/
def unicodeToLower (r : Nat) : Nat :=
  if r < 128 then lowerByte r
  else
    match lowerRanges.find?
        (fun e => decide (e.1 ≤ r ∧ r ≤ e.2.1 ∧ (r - e.1) % e.2.2.1 = 0)) with
    | some e => e.2.2.2 + (r - e.1)
    | none => r

/-- Go `Builder.WriteRune`: the UTF-8 encoding of a rune, that of U+FFFD for a
surrogate or a value above U+10FFFF. -/
def writeRune (r : Nat) : Str :=
  if (55296 ≤ r ∧ r ≤ 57343) ∨ 1114111 < r then encodeRune RuneError else encodeRune r

/-- What `strings.Map(unicode.ToLower, _)` writes for the first rune of a
string. -/
def lowerRuneAt (s : Str) : Str :=
  writeRune (unicodeToLower (decodeRune s).1)

/-- The rune loop of `strings.Map(unicode.ToLower, _)`: `skip` tells how many
bytes of the rune just written are still to be passed. -/
def lowerFrom : Nat → Str → Str
  | _, [] => []
  | k + 1, _ :: s => lowerFrom k s
  | 0, c :: s => lowerRuneAt (c :: s) ++ lowerFrom ((decodeRune (c :: s)).2 - 1) s

/-- Go `strings.ToLower`.  For a string of ASCII bytes Go lowers the letters
`A`..`Z` byte by byte, which is what the rune loop gives for such a string. -/
def ToLower (s : Str) : Str :=
  lowerFrom 0 s

/-- Offset of the first occurrence of `p` in `s`, if it occurs. -/
def indexOf? : Str → Str → Option Nat
  | [], p => if HasPrefix [] p then some 0 else none
  | a :: s, p =>
    if HasPrefix (a :: s) p then some 0
    else (indexOf? s p).map (fun i => i + 1)

/-- Go `strings.Index(s, p)`: the offset of the first occurrence, or `-1`. -/
def Index (s p : Str) : Int :=
  match indexOf? s p with
  | some i => (i : Int)
  | none => -1

/-- Offset of the first byte `c` in `s`, if it occurs. -/
def indexByte? : Str → Nat → Option Nat
  | [], _ => none
  | a :: s, c => if a = c then some 0 else (indexByte? s c).map (fun i => i + 1)

/-- Go `strings.IndexByte(s, c)`: the offset of the first `c`, or `-1`. -/
def IndexByte (s : Str) (c : Nat) : Int :=
  match indexByte? s c with
  | some i => (i : Int)
  | none => -1

/-- Go slice expression `s[a:b]`, for bounds in range. -/
def slice (s : Str) (a b : Nat) : Str :=
  (s.take b).drop a

/-- Go `strings.Split(s, sep)` for a one-byte separator. -/
def Split (sep : Nat) : Str → List Str
  | [] => [[]]
  | c :: s =>
    if c = sep then [] :: Split sep s
    else
      match Split sep s with
      | [] => [[c]]
      | l :: ls => (c :: l) :: ls

/-- Go `strings.Join(parts, sep)`. -/
def Join (parts : List Str) (sep : Str) : Str :=
  sep.intercalate parts

/-- Go `strings.ReplaceAll(s, old, new)` for a non-empty `old`: the
non-overlapping occurrences of `old`, found from the left, are replaced.  The
counter tells how many bytes of the occurrence just replaced are still to be
skipped. -/
def replaceAllFrom (old new : Str) : Nat → Str → Str
  | _, [] => []
  | k + 1, _ :: s => replaceAllFrom old new k s
  | 0, c :: s =>
    if HasPrefix (c :: s) old then new ++ replaceAllFrom old new (old.length - 1) s
    else c :: replaceAllFrom old new 0 s

def ReplaceAll (s old new : Str) : Str :=
  replaceAllFrom old new 0 s

/-- UTF-8 encodings of the runes for which Go `unicode.IsSpace` holds:
tab, LF, VT, FF, CR, space, U+0085, U+00A0, U+1680, U+2000..U+200A, U+2028,
U+2029, U+202F, U+205F, U+3000. -/
def spaceRunes : List Str :=
  [[9], [10], [11], [12], [13], [32], [194, 133], [194, 160], [225, 154, 128],
   [226, 128, 128], [226, 128, 129], [226, 128, 130], [226, 128, 131],
   [226, 128, 132], [226, 128, 133], [226, 128, 134], [226, 128, 135],
   [226, 128, 136], [226, 128, 137], [226, 128, 138], [226, 128, 168],
   [226, 128, 169], [226, 128, 175], [226, 129, 159], [227, 128, 128]]

/-- The white-space rune at the start of `s`, if there is one. -/
def leadingSpace (s : Str) : Option Str :=
  spaceRunes.find? (HasPrefix s)

/-- The white-space rune at the end of `s`, if there is one. -/
def trailingSpace (s : Str) : Option Str :=
  spaceRunes.find? (HasSuffix s)

/-- Removal of leading white space, at most `n` runes. -/
def trimLeftN : Nat → Str → Str
  | 0, s => s
  | n + 1, s =>
    match leadingSpace s with
    | none => s
    | some w => trimLeftN n (s.drop w.length)

/-- Removal of trailing white space, at most `n` runes. -/
def trimRightN : Nat → Str → Str
  | 0, s => s
  | n + 1, s =>
    match trailingSpace s with
    | none => s
    | some w => trimRightN n (s.take (s.length - w.length))

/-- Go `strings.TrimLeftFunc(s, unicode.IsSpace)`. -/
def TrimLeft (s : Str) : Str := trimLeftN s.length s

/-- Go `strings.TrimRightFunc(s, unicode.IsSpace)`. -/
def TrimRight (s : Str) : Str := trimRightN s.length s

/-- Go `strings.TrimSpace(s)`. -/
def TrimSpace (s : Str) : Str := TrimRight (TrimLeft s)

/-- Go `fmt.Sprintf("%d", n)` for a non-negative `n`. -/
def Itoa (n : Nat) : Str := lit (Nat.repr n)

/-! ## Regular expressions of cursor.go

`Regexp.ReplaceAllString(s, "")` deletes the non-overlapping matches found from
the left.  None of the three expressions matches the empty string.  A match is
described by its length at a position (0 when there is none), given whether
the position is at the start of the text or just after a line feed (the `^` of
multi-line mode). -/

/-- Deletion of all matches: `bol` tells whether the position is at a line
start, `skip` how many bytes of the current match remain to be deleted. -/
def deleteMatches (matchLen : Bool → Str → Nat) : Bool → Nat → Str → Str
  | _, _, [] => []
  | _, k + 1, c :: s => deleteMatches matchLen (c == 10) k s
  | bol, 0, c :: s =>
    match matchLen bol (c :: s) with
    | 0 => c :: deleteMatches matchLen (c == 10) 0 s
    | n + 1 => deleteMatches matchLen (c == 10) n s

/-- Tag names of `xmlTagsRe`. -/
def xmlTagNames : List Str :=
  [lit "attached_files", lit "code_selection", lit "user_query",
   lit "terminal_selection", lit "system_reminder",
   lit "open_and_recently_viewed_files"]

/-- Length of the match of `xmlTagsRe` at the start of `s`:
`<`, an optional `/`, a tag name, any bytes other than `>`, and `>`. -/
def xmlTagsMatchLen (s : Str) : Nat :=
  match s with
  | 60 :: r =>
    let slash := if HasPrefix r [47] then 1 else 0
    let r1 := r.drop slash
    match xmlTagNames.find? (HasPrefix r1) with
    | none => 0
    | some nm =>
      match indexByte? (r1.drop nm.length) 62 with
      | none => 0
      | some k => 1 + slash + nm.length + k + 1
  | _ => 0

/-- The class `\s` of Go regular expressions: tab, LF, FF, CR, space. -/
def isReSpace (b : Nat) : Bool :=
  b == 9 || b == 10 || b == 12 || b == 13 || b == 32

/-- The class `\d`. -/
def isDigit (b : Nat) : Bool :=
  decide (48 ≤ b ∧ b ≤ 57)

/-- Length of the longest prefix whose bytes satisfy `p`. -/
def spanLen (p : Nat → Bool) : Str → Nat
  | [] => 0
  | c :: s => if p c then spanLen p s + 1 else 0

/-- Length of the match of `thinkingPrefixRe` at the start of `s`:
at a line start, `[Thinking]` and the white space after it. -/
def thinkingMatchLen (bol : Bool) (s : Str) : Nat :=
  if bol && HasPrefix s (lit "[Thinking]") then 10 + spanLen isReSpace (s.drop 10)
  else 0

/-- Length of the match of `lineNumberRe` at the start of `s`: at a line
start, white space, an optional `L`, one or more digits, and `|`. -/
def lineNumberMatchLen (bol : Bool) (s : Str) : Nat :=
  if bol then
    let w := spanLen isReSpace s
    let r := s.drop w
    let l := if HasPrefix r [76] then 1 else 0
    let r1 := r.drop l
    let d := spanLen isDigit r1
    if 0 < d && HasPrefix (r1.drop d) [124] then w + l + d + 1 else 0
  else 0

/-- Go `xmlTagsRe.ReplaceAllString(s, "")`. -/
def xmlTagsRe (s : Str) : Str :=
  deleteMatches (fun _ t => xmlTagsMatchLen t) true 0 s

/-- Go `thinkingPrefixRe.ReplaceAllString(s, "")`. -/
def thinkingPrefixRe (s : Str) : Str :=
  deleteMatches thinkingMatchLen true 0 s

/-- Go `lineNumberRe.ReplaceAllString(s, "")`. -/
def lineNumberRe (s : Str) : Str :=
  deleteMatches lineNumberMatchLen true 0 s

/-! ## store/models.go -/

/-- Go `store.EntryType`, the closed set of entry types. -/
inductive EntryType where
  | conversation
  | code_change
  | decision
  | error
  | git_commit
  | git_diff
  | note
  | file
  deriving DecidableEq, Repr

/-- The string value of an entry type. -/
def EntryType.str : EntryType → Str
  | .conversation => lit "conversation"
  | .code_change => lit "code_change"
  | .decision => lit "decision"
  | .error => lit "error"
  | .git_commit => lit "git_commit"
  | .git_diff => lit "git_diff"
  | .note => lit "note"
  | .file => lit "file"

/-- Go `store.Session`, without its creation time. -/
structure Session where
  ID : Str
  Source : Str
  Project : Str
  Label : Str
  deriving DecidableEq, Repr

/-- Go `store.Entry`, without its creation time. -/
structure Entry where
  ID : Nat
  SessionID : Str
  Type_ : EntryType
  Content : Str
  Metadata : Str
  OrderIdx : Nat
  deriving DecidableEq, Repr

/-! ## store/sqlite.go

The database is a record of its tables.  Whether a statement succeeds is
decided by the environment: `outcomes` lists the results of the coming
`db.Exec` calls (`false` is a failure), and every call after the listed ones
succeeds. -/

structure Store where
  sessions : List Session
  entries : List Entry
  processed : List (Str × Str × Nat)
  outcomes : List Bool
  deriving DecidableEq, Repr

/-- A store whose statements never fail. -/
def Store.neverFails (st : Store) : Prop :=
  ∀ b ∈ st.outcomes, b = true

/-- Go `Store.AddEntry`: inserts one row into `entries`; `none` is the error
result, which leaves the table as it was. -/
def Store.AddEntry (st : Store) (sessionID : Str) (entryType : EntryType)
    (content metadata : Str) (orderIdx : Nat) : Store × Option Entry :=
  match st.outcomes with
  | false :: rest => ({ st with outcomes := rest }, none)
  | oc =>
    let e : Entry :=
      { ID := st.entries.length + 1, SessionID := sessionID, Type_ := entryType,
        Content := content, Metadata := metadata, OrderIdx := orderIdx }
    ({ st with entries := st.entries ++ [e], outcomes := oc.tail }, some e)

/-! ## capture/cursor.go -/

/-- Go `transcriptLine`: a role and the (type, text) fragments of the message. -/
structure transcriptLine where
  Role : Str
  Content : List (Str × Str)
  deriving DecidableEq, Repr

/-- Go `parsedEntry`. -/
structure parsedEntry where
  Type_ : EntryType
  Content : Str
  Meta : Str
  deriving DecidableEq, Repr

def decisionKeywords : List Str :=
  [lit "decided", lit "decision", lit "chose", lit "going with", lit "opted for",
   lit "design choice", lit "the fix is", lit "the solution is", lit "root cause",
   lit "the problem is", lit "the issue is", lit "what needs to change"]

/-- Go `truncate`. -/
def truncate (s : Str) (maxLen : Nat) : Str :=
  if s.length ≤ maxLen then s
  else s.take maxLen ++ lit "..."

/-- One round of the loop of `cleanContent` per unit of fuel:
`for strings.Contains(s, "\n\n\n") { s = strings.ReplaceAll(s, "\n\n\n", "\n\n") }`. -/
def collapseLoop : Nat → Str → Str
  | 0, s => s
  | n + 1, s =>
    if Contains s [10, 10, 10] then collapseLoop n (ReplaceAll s [10, 10, 10] [10, 10])
    else s

/-- The blank-line loop of `cleanContent`; every round shortens the string, so
`len(s)` rounds are enough. -/
def collapseBlankLines (s : Str) : Str :=
  collapseLoop s.length s

/-- Go `cleanContent`. -/
def cleanContent (s : Str) : Str :=
  let s := xmlTagsRe s
  let s := thinkingPrefixRe s
  let s := lineNumberRe s
  let s := collapseBlankLines s
  TrimSpace s

/-- Go `extractUserQuery`. -/
def extractUserQuery (s : Str) : Str :=
  let start := Index s (lit "<user_query>")
  let end_ := Index s (lit "</user_query>")
  if start ≥ 0 ∧ end_ > start then
    let query := slice s (start.toNat + (lit "<user_query>").length) end_.toNat
    TrimSpace query
  else
    let s := TrimSpace s
    if s = [] ∨ s = lit "yes" ∨ s = lit "no" ∨ s = lit "ok" then []
    else s

def noisePatterns : List Str :=
  [lit "let me help you find your past chats",
   lit "let me look at the content of these chats",
   lit "let me also check if you have other cursor",
   lit "let me look for chats stored globally",
   lit "let me read the full transcript to extract",
   lit "let me explore your workspace",
   lit "dependencies installed",
   lit "all source files written",
   lit "build succeeded",
   lit "let me tidy deps",
   lit "let me clean up the test",
   lit "the commands seem to be running but not producing",
   lit "the issue is the \x60cd\x60 in my build command",
   lit "let me separate the steps",
   lit "let me rebuild",
   lit "here\x27s a summary of all your past cursor chats",
   lit "i found it. here\x27s what happened with your",
   lit "all done. here\x27s what was rebuilt",
   lit "your lost project",
   lit "ctxsave",
   lit ".ctxsave/",
   lit "ctxsave init",
   lit "ctxsave capture",
   lit "ctxsave generate",
   lit "auto-captured",
   lit "second run correctly skips",
   lit "let me verify the binary",
   lit "fresh init and",
   lit "now let me test",
   lit "it automatically found and captured",
   lit "everything works end-to-end",
   lit "i have the full plan and architecture",
   lit "let me also install the binary",
   lit "now rebuild and test",
   lit "now let me do a full end-to-end test",
   lit "scaffold go project",
   lit "now the capture packages",
   lit "now the compress and generate",
   lit "now the cli commands",
   lit "good, directory structure created",
   lit "the output is still too noisy",
   lit "much better! now it\x27s selecting",
   lit "getting much better",
   lit "the structure is clean now",
   lit "now it\x27s selecting",
   lit "entry count dropped",
   lit "noise filtered",
   lit "token est",
   lit "ctxsave-related",
   lit "meta-conversation about",
   lit "raw level was selected",
   lit "compression level",
   lit "token budget"]

/-- Go `isMetaNoise`. -/
def isMetaNoise (s : Str) : Bool :=
  let lower := ToLower s
  noisePatterns.any (fun p => Contains lower p)

/-- The keyword loop of `classifyAssistantText`. -/
def classifyLoop (text lower : Str) : List Str → EntryType
  | [] => .conversation
  | kw :: rest =>
    if Contains lower kw then
      if text.length > 100 then .decision
      else classifyLoop text lower rest
    else classifyLoop text lower rest

/-- Go `classifyAssistantText`. -/
def classifyAssistantText (text : Str) : EntryType :=
  let lower := ToLower text
  if HasPrefix lower (lit "now ") ∧ text.length < 200 then .conversation
  else classifyLoop text lower decisionKeywords

/-- Go `shortenPath`. -/
def shortenPath (p : Str) : Str :=
  let parts := Split 47 p
  if parts.length ≤ 3 then p
  else lit ".../" ++ Join (parts.drop (parts.length - 3)) (lit "/")

/-- The variables `toolName`, `filePath`, `pattern` of `summarizeToolCall`. -/
structure ToolFields where
  toolName : Str
  filePath : Str
  pattern : Str
  deriving DecidableEq, Repr

/-- One round of the line loop of `summarizeToolCall`. -/
def toolFieldsStep (f : ToolFields) (line : Str) : ToolFields :=
  let line := TrimSpace line
  let f := if f.toolName = [] ∧ line ≠ [] then { f with toolName := line } else f
  let f := if HasPrefix line (lit "path:")
    then { f with filePath := TrimSpace (TrimPrefix line (lit "path:")) } else f
  let f := if HasPrefix line (lit "pattern:")
    then { f with pattern := TrimSpace (TrimPrefix line (lit "pattern:")) } else f
  f

/-- Go `summarizeToolCall`. -/
def summarizeToolCall (text : Str) : Str :=
  let lines := Split 10 (TrimSpace text)
  if lines.length = 0 then []
  else
    let f := lines.foldl toolFieldsStep { toolName := [], filePath := [], pattern := [] }
    if Contains f.toolName (lit "StrReplace") ∧ f.filePath ≠ [] then
      lit "Edited " ++ shortenPath f.filePath
    else if Contains f.toolName (lit "Write") ∧ f.filePath ≠ [] then
      lit "Wrote " ++ shortenPath f.filePath
    else if Contains f.toolName (lit "Read") ∧ f.filePath ≠ [] then
      lit "Read " ++ shortenPath f.filePath
    else if Contains f.toolName (lit "Grep") ∧ f.pattern ≠ [] then
      if f.filePath ≠ [] then
        lit "Searched for \x27" ++ f.pattern ++ lit "\x27 in " ++ shortenPath f.filePath
      else lit "Searched for \x27" ++ f.pattern ++ lit "\x27"
    else if Contains f.toolName (lit "Glob") then lit "Found files matching pattern"
    else if Contains f.toolName (lit "ReadLints") then lit "Checked for lint errors"
    else if f.filePath ≠ [] then f.toolName ++ lit " on " ++ shortenPath f.filePath
    else []

/-- Go `extractText`. -/
def extractText (tl : transcriptLine) : Str :=
  let parts := (tl.Content.filter (fun c => c.1 = lit "text" ∧ c.2 ≠ [])).map (fun c => c.2)
  Join parts (lit "\n")

/-- Go `extractEntries`. -/
def extractEntries (tl : transcriptLine) : List parsedEntry :=
  let text := extractText tl
  if text = [] then []
  else if tl.Role = lit "user" then
    let cleaned := cleanContent text
    let query := extractUserQuery cleaned
    if query = [] then []
    else [{ Type_ := .conversation, Content := truncate query 2000,
            Meta := lit "\x7b\"role\":\"user\"\x7d" }]
  else if tl.Role = lit "assistant" then
    let cleaned := cleanContent text
    if cleaned = [] ∨ isMetaNoise cleaned then []
    else
      [{ Type_ := classifyAssistantText cleaned, Content := truncate cleaned 3000,
         Meta := lit "\x7b\"role\":\"assistant\"\x7d" }]
  else if tl.Role = lit "tool" then
    let lower := ToLower text
    if Contains lower (lit "error") ∨ Contains lower (lit "failed") ∨
        Contains lower (lit "exception") then
      [{ Type_ := .error, Content := truncate (cleanContent text) 500,
         Meta := lit "\x7b\"source\":\"tool_result\"\x7d" }]
    else []
  else []

/-- Errors returned by the capture functions. -/
inductive Err where
  | insertEntry
  | insertSession
  | tokenTooLong
  | readFile
  | generateID
  deriving DecidableEq, Repr

/-- The local type `section` of `parseTextTranscript`: a role and the text
accumulated in its builder. -/
structure Section where
  role : Str
  content : Str
  deriving DecidableEq, Repr

/-- Writing to `current.content`: `current` points to the last section, and is
nil as long as there is none. -/
def writeCurrent : List Section → Str → List Section
  | [], _ => []
  | [sec], t => [{ sec with content := sec.content ++ t }]
  | sec :: rest, t => sec :: writeCurrent rest t

/-- The text that a tool marker line seeds its section with. -/
def markerRest (trimmed marker : Str) : Str :=
  let rest := TrimSpace (TrimPrefix trimmed marker)
  if rest ≠ [] then rest ++ [10] else []

/-- One round of the line loop of `parseTextTranscript`. -/
def scanLine (sections : List Section) (line : Str) : List Section :=
  let trimmed := TrimSpace line
  if trimmed = lit "user:" then
    sections ++ [{ role := lit "user", content := [] }]
  else if trimmed = lit "assistant:" then
    sections ++ [{ role := lit "assistant", content := [] }]
  else if HasPrefix trimmed (lit "[Tool call]") then
    sections ++ [{ role := lit "tool_call", content := markerRest trimmed (lit "[Tool call]") }]
  else if HasPrefix trimmed (lit "[Tool result]") then
    sections ++
      [{ role := lit "tool_result", content := markerRest trimmed (lit "[Tool result]") }]
  else writeCurrent sections (line ++ [10])

/-- The sections found by the line loop of `parseTextTranscript`. -/
def scanSections (data : Str) : List Section :=
  (Split 10 data).foldl scanLine []

/-- The body of the section loop of `parseTextTranscript` up to the store call:
the entry to add, or `none` where the loop continues with the next section. -/
def sectionEntry (sec : Section) : Option parsedEntry :=
  let text := TrimSpace sec.content
  if text = [] then none
  else if sec.role = lit "user" then
    let text := cleanContent text
    let text := extractUserQuery text
    if text = [] then none
    else some { Type_ := .conversation, Content := truncate text 2000,
                Meta := lit "\x7b\"role\":\"user\"\x7d" }
  else if sec.role = lit "assistant" then
    let text := cleanContent text
    if text = [] ∨ isMetaNoise text then none
    else some { Type_ := classifyAssistantText text, Content := truncate text 3000,
                Meta := lit "\x7b\"role\":\"assistant\"\x7d" }
  else if sec.role = lit "tool_call" then
    let summary := summarizeToolCall text
    if summary = [] then none
    else some { Type_ := .code_change, Content := summary,
                Meta := lit "\x7b\"source\":\"tool_call\"\x7d" }
  else if sec.role = lit "tool_result" then
    let lower := ToLower text
    if Contains lower (lit "error") ∨ Contains lower (lit "failed") then
      some { Type_ := .error, Content := cleanContent (truncate text 500),
             Meta := lit "\x7b\"source\":\"tool_result\"\x7d" }
    else none
  else none

/-- The section loop of `parseTextTranscript`, from order index `orderIdx`. -/
def addSections (sessionID : Str) : Store → Nat → List Section → Store × Option Err
  | st, _, [] => (st, none)
  | st, orderIdx, sec :: rest =>
    match sectionEntry sec with
    | none => addSections sessionID st orderIdx rest
    | some pe =>
      match st.AddEntry sessionID pe.Type_ pe.Content pe.Meta orderIdx with
      | (st1, none) => (st1, some .insertEntry)
      | (st1, some _) => addSections sessionID st1 (orderIdx + 1) rest

/-- Go `parseTextTranscript`: the store after the call and the error result. -/
def parseTextTranscript (st : Store) (sessionID : Str) (data : Str) : Store × Option Err :=
  addSections sessionID st 0 (scanSections data)

/-- The largest token of the scanner of `parseJSONL`. -/
def maxTokenSize : Nat := 10 * 1024 * 1024

/-- The `dropCR` of `bufio.ScanLines`. -/
def dropCR (l : Str) : Str :=
  if HasSuffix l [13] ∧ l ≠ [] then l.take (l.length - 1) else l

/-- The lines that `bufio.Scanner` delivers and whether it stops with
`ErrTooLong`: a line is delivered when it is shorter than the buffer limit;
an empty piece after the last line feed is no line. -/
def scanTokens : List Str → List Str × Bool
  | [] => ([], false)
  | [l] =>
    if l = [] then ([], false)
    else if l.length < maxTokenSize then ([dropCR l], false)
    else ([], true)
  | l :: rest =>
    if l.length < maxTokenSize then
      ((dropCR l) :: (scanTokens rest).1, (scanTokens rest).2)
    else ([], true)

/-- The inner loop of `parseJSONL` over the entries of one record. -/
def addParsed (sessionID : Str) : Store → Nat → List parsedEntry → Store × Nat × Option Err
  | st, orderIdx, [] => (st, orderIdx, none)
  | st, orderIdx, pe :: rest =>
    match st.AddEntry sessionID pe.Type_ pe.Content pe.Meta orderIdx with
    | (st1, none) => (st1, orderIdx, some .insertEntry)
    | (st1, some _) => addParsed sessionID st1 (orderIdx + 1) rest

/-- The scanner loop of `parseJSONL`; `unmarshal` is `json.Unmarshal` into a
fresh `transcriptLine`, `none` when it reports an error. -/
def jsonlLoop (unmarshal : Str → Option transcriptLine) (sessionID : Str) :
    Store → Nat → List Str → Store × Option Err
  | st, _, [] => (st, none)
  | st, orderIdx, line :: rest =>
    if line.length = 0 then jsonlLoop unmarshal sessionID st orderIdx rest
    else
      match unmarshal line with
      | none => jsonlLoop unmarshal sessionID st orderIdx rest
      | some tl =>
        match addParsed sessionID st orderIdx (extractEntries tl) with
        | (st1, _, some e) => (st1, some e)
        | (st1, orderIdx1, none) => jsonlLoop unmarshal sessionID st1 orderIdx1 rest

/-- Go `parseJSONL`: the store after the call and the error result. -/
def parseJSONL (unmarshal : Str → Option transcriptLine) (st : Store) (sessionID : Str)
    (data : Str) : Store × Option Err :=
  let tokens := scanTokens (Split 10 data)
  match jsonlLoop unmarshal sessionID st 0 tokens.1 with
  | (st1, some e) => (st1, some e)
  | (st1, none) => (st1, if tokens.2 then some .tokenTooLong else none)

/-! ## tokens.go -/

/-- The model families of tokens.go; `other` stands for every string that is
none of the three named constants. -/
inductive ModelFamily where
  | claude
  | gemini
  | gpt
  | other
  deriving DecidableEq, Repr

/-- Go `charsPerTokenRatio`, as tenths of a character: 3.5 is 35 and 3.8 is 38. -/
def charsPerTokenRatio : ModelFamily → Nat
  | .claude => 35
  | .gemini => 38
  | .gpt => 35
  | .other => 35

/-- Go `EstimateTokens`: `int(float64(len(text)) / ratio)`.  The float64
quotient truncated to an integer is the floor of the exact quotient for every
length a string can have, so the estimate is `10 * len / (10 * ratio)`; the
float64 computation itself is `EstimateTokensFloat`, and the two agree for
every text shorter than 2^48 bytes (`EstimateTokensFloat_eq`). -/
def EstimateTokens (text : Str) (family : ModelFamily) : Nat :=
  (10 * text.length) / charsPerTokenRatio family

/-! ## summarizer.go: levels and best fit -/

def LevelRaw : Str := lit "raw"
def LevelDetailed : Str := lit "detailed"
def LevelCompressed : Str := lit "compressed"
def LevelUltra : Str := lit "ultra"

/-- A Go `map[string]string`: its key/value pairs, keys pairwise distinct. -/
abbrev GoMap := List (Str × Str)

/-- Go map indexing `m[k]`: the value stored under `k`, the empty string when
the key is absent. -/
def GoMap.get : GoMap → Str → Str
  | [], _ => []
  | (k, v) :: m, key => if k = key then v else GoMap.get m key

/-- The loop of `BestFit` over the remaining levels. -/
def bestFitLoop (summaries : GoMap) (budget : Int) (family : ModelFamily) :
    List Str → Option (Str × Str)
  | [] => none
  | lvl :: rest =>
    let text := summaries.get lvl
    let tokens := EstimateTokens text family
    if (tokens : Int) ≤ budget then some (lvl, text)
    else bestFitLoop summaries budget family rest

/-- Go `Summarizer.BestFit`. -/
def BestFit (summaries : GoMap) (budget : Int) (family : ModelFamily) : Str × Str :=
  match bestFitLoop summaries budget family
      [LevelRaw, LevelDetailed, LevelCompressed, LevelUltra] with
  | some r => r
  | none => (LevelUltra, summaries.get LevelUltra)

/-! ## summarizer.go: the four renderings -/

/-- A Go `map[store.EntryType][]Entry`: keys with their entry lists. -/
abbrev Groups := List (EntryType × List Entry)

/-- Go `items, ok := grouped[t]`: `none` when the key is absent. -/
def Groups.get? : Groups → EntryType → Option (List Entry)
  | [], _ => none
  | (k, v) :: m, t => if k = t then some v else Groups.get? m t

/-- Go `m[t] = append(m[t], e)`. -/
def Groups.add : Groups → EntryType → Entry → Groups
  | [], t, e => [(t, [e])]
  | (k, v) :: m, t, e => if k = t then (k, v ++ [e]) :: m else (k, v) :: Groups.add m t e

/-- Go `groupByType`. -/
def groupByType (entries : List Entry) : Groups :=
  entries.foldl (fun m e => m.add e.Type_ e) []

/-- Go `firstLine`. -/
def firstLine (s : Str) : Str :=
  let idx := IndexByte s 10
  if idx < 0 then s else s.take idx.toNat

/-- Go `truncateLine`. -/
def truncateLine (s : Str) (max : Nat) : Str :=
  if s.length ≤ max then s
  else s.take max ++ lit "..."

/-- The filler test of `extractMeaningfulLine` on the lower-cased line. -/
def isFiller (lower : Str) : Bool :=
  HasPrefix lower (lit "now ") || HasPrefix lower (lit "let me ") ||
  HasPrefix lower (lit "good") || HasPrefix lower (lit "here\x27s") ||
  HasPrefix lower (lit "okay")

/-- The line loop of `extractMeaningfulLine`: the value returned from inside
the loop, `none` when the loop runs to its end. -/
def meaningfulLoop : List Str → Option Str
  | [] => none
  | line :: rest =>
    let line := TrimSpace line
    if line = [] then meaningfulLoop rest
    else if line.length < 20 then meaningfulLoop rest
    else if isFiller (ToLower line) then meaningfulLoop rest
    else some (truncateLine line 200)

/-- Go `extractMeaningfulLine`. -/
def extractMeaningfulLine (s : Str) : Str :=
  match meaningfulLoop (Split 10 s) with
  | some r => r
  | none =>
    let fl := firstLine s
    if fl.length > 20 then truncateLine fl 200 else []

/-- Go `filterByMeta`. -/
def filterByMeta (entries : List Entry) (role : Str) : List Entry :=
  let needle := lit "\"role\":\"" ++ role ++ lit "\""
  entries.filter (fun e => Contains e.Metadata needle)

/-- The loop of `filterEdits`, with the keys of `seen` and the slice `edits`. -/
def filterEditsLoop : List Entry → List Str → List Str → List Str
  | [], _, edits => edits
  | e :: rest, seen, edits =>
    let c := e.Content
    if HasPrefix c (lit "Edited ") ∨ HasPrefix c (lit "Wrote ") then
      if c ∉ seen then filterEditsLoop rest (c :: seen) (edits ++ [c])
      else filterEditsLoop rest seen edits
    else filterEditsLoop rest seen edits

/-- Go `filterEdits`. -/
def filterEdits (entries : List Entry) : List Str :=
  filterEditsLoop entries [] []

/-- The loop of `filterReads`. -/
def filterReadsLoop : List Entry → List Str → List Str → List Str
  | [], _, reads => reads
  | e :: rest, seen, reads =>
    let c := e.Content
    if HasPrefix c (lit "Read ") then
      let path := TrimPrefix c (lit "Read ")
      if path ∉ seen then filterReadsLoop rest (path :: seen) (reads ++ [path])
      else filterReadsLoop rest seen reads
    else filterReadsLoop rest seen reads

/-- Go `filterReads`. -/
def filterReads (entries : List Entry) : List Str :=
  filterReadsLoop entries [] []

/-- The loop of `filterSearches`. -/
def filterSearchesLoop : List Entry → List Str → List Str → List Str
  | [], _, searches => searches
  | e :: rest, seen, searches =>
    let c := e.Content
    if HasPrefix c (lit "Searched for ") then
      if c ∉ seen then filterSearchesLoop rest (c :: seen) (searches ++ [c])
      else filterSearchesLoop rest seen searches
    else filterSearchesLoop rest seen searches

/-- Go `filterSearches`. -/
def filterSearches (entries : List Entry) : List Str :=
  filterSearchesLoop entries [] []

def codeIndicators : List Str :=
  [lit "const ", lit "let ", lit "var ", lit "function ", lit "async ", lit "await ",
   lit "if (", lit "if(", lit "\x7d else", lit "=>", lit "===", lit "!==",
   lit ".find(", lit ".filter(", lit ".map(", lit ".push(", lit ".select(",
   lit "new ObjectId(", lit "new mongoose.", lit "req.", lit "res.",
   lit "L1:", lit "L2:", lit "L3:", lit "L4:", lit "L5:", lit "L6:", lit "L7:",
   lit "L8:", lit "L9:",
   lit "return (", lit "return \x7b", lit "return [",
   lit "success:", lit "message:", lit "resType:",
   lit "sfsrtlp0141@",
   lit "**Project:**"]

/-- The characters counted as special by `looksLikeCode`:
braces, parentheses, brackets, `=`, `;`, `:`, `.`, `>`, `<`. -/
def isSpecial (r : Nat) : Bool :=
  r == 123 || r == 125 || r == 40 || r == 41 || r == 91 || r == 93 ||
  r == 61 || r == 59 || r == 58 || r == 46 || r == 62 || r == 60

/-- Go `looksLikeCode`.  The last test, `float64(specials)/float64(len) > 0.20`,
holds exactly when `5 * specials > len` for every length a string can have. -/
def looksLikeCode (s : Str) : Bool :=
  let trimmed := TrimSpace s
  if HasSuffix trimmed (lit ";") ∨ HasSuffix trimmed (lit "\x7b") ∨
      HasSuffix trimmed (lit "\x7d") ∨ HasSuffix trimmed (lit "\x7d,") ∨
      HasSuffix trimmed (lit ");") ∨ HasSuffix trimmed (lit "\x7d);") then true
  else if HasPrefix trimmed (lit "//") ∨ HasPrefix trimmed (lit "/*") ∨
      HasPrefix trimmed (lit "* ") ∨ HasPrefix trimmed (lit "*/") then true
  else if codeIndicators.any (fun ind => Contains s ind) then true
  else if (Contains trimmed (lit ": ") ∧ ¬ Contains trimmed (lit "? ")) ∧
      (let colonIdx := Index trimmed (lit ":")
       (colonIdx > 0 ∧ colonIdx < 30) ∧
        (let before := trimmed.take colonIdx.toNat
         ¬ Contains before (lit " ") ∨ HasPrefix before (lit "["))) then true
  else
    let specials := trimmed.countP isSpecial
    if trimmed.length > 0 ∧ 5 * specials > trimmed.length then true
    else false

/-- The line loop of `cleanQuestionLine`: the value returned from inside the
loop, `none` when the loop runs to its end. -/
def questionLoop : List Str → Option Str
  | [] => none
  | line :: rest =>
    let line := TrimSpace line
    if line = [] ∨ line.length < 15 then questionLoop rest
    else if looksLikeCode line then questionLoop rest
    else
      let line := if HasPrefix line (lit "@")
        then TrimSpace (line.drop (Index line (lit " ") + 1).toNat) else line
      if HasPrefix line (lit "#") then questionLoop rest
      else some line

/-- Go `cleanQuestionLine`. -/
def cleanQuestionLine (s : Str) : Str :=
  match questionLoop (Split 10 s) with
  | some r => r
  | none => []

/-- The loop of `extractEditedFiles`. -/
def editedFilesLoop : List Entry → List Str → List Str → List Str
  | [], _, files => files
  | e :: rest, seen, files =>
    if e.Type_ ≠ .code_change then editedFilesLoop rest seen files
    else
      let c := e.Content
      let path :=
        if HasPrefix c (lit "Edited ") then TrimPrefix c (lit "Edited ")
        else if HasPrefix c (lit "Wrote ") then TrimPrefix c (lit "Wrote ")
        else []
      if path ≠ [] ∧ path ∉ seen then editedFilesLoop rest (path :: seen) (files ++ [path])
      else editedFilesLoop rest seen files

/-- Go `extractEditedFiles`. -/
def extractEditedFiles (entries : List Entry) : List Str :=
  editedFilesLoop entries [] []

/-- The block that `buildRaw` writes for one entry. -/
def rawBlock (e : Entry) : Str :=
  let content := e.Content
  let content := if content.length > 500 then content.take 500 ++ lit "..." else content
  lit "[" ++ e.Type_.str ++ lit "] " ++ content ++ lit "\n\n"

/-- Go `Summarizer.buildRaw`. -/
def buildRaw (entries : List Entry) : Str :=
  entries.foldl (fun sb e => sb ++ rawBlock e) []

/-- A loop that writes one bullet per key not seen before:
`if skip(key) || seen[key] { continue }; seen[key] = true; sb.WriteString(bullet(key))`. -/
def bulletLoop (skip : Str → Bool) (bullet : Str → Str) : List Str → List Str → Str → Str
  | [], _, sb => sb
  | k :: ks, seen, sb =>
    if skip k ∨ k ∈ seen then bulletLoop skip bullet ks seen sb
    else bulletLoop skip bullet ks (k :: seen) (sb ++ bullet k)

/-- Go `fmt.Sprintf("- %s\n", x)`. -/
def bullet (x : Str) : Str :=
  lit "- " ++ x ++ lit "\n"

/-- The decision subsection of `buildDetailed`. -/
def detailedDecisions (grouped : Groups) : Str :=
  match grouped.get? .decision with
  | none => []
  | some items =>
    lit "### Key Decisions & Findings\n" ++
    bulletLoop (fun summary => summary = []) bullet
      (items.map (fun e => extractMeaningfulLine e.Content)) [] [] ++
    lit "\n"

/-- The code-change subsections of `buildDetailed`. -/
def detailedCodeChanges (grouped : Groups) : Str :=
  match grouped.get? .code_change with
  | none => []
  | some items =>
    let edits := filterEdits items
    let reads := filterReads items
    let searches := filterSearches items
    (if edits.length > 0 then
      lit "### Files Modified\n" ++ edits.foldl (fun sb e => sb ++ bullet e) [] ++ lit "\n"
     else []) ++
    (if searches.length > 0 then
      lit "### Key Patterns Searched\n" ++
      bulletLoop (fun _ => false) bullet searches [] [] ++ lit "\n"
     else []) ++
    (if reads.length > 0 then
      lit "### Files Investigated\n" ++
      bulletLoop (fun _ => false) bullet reads [] [] ++ lit "\n"
     else [])

/-- The git subsection of `buildDetailed`. -/
def detailedCommits (grouped : Groups) : Str :=
  match grouped.get? .git_commit with
  | none => []
  | some items =>
    lit "### Git Commits\n" ++
    items.foldl (fun sb e => sb ++ bullet (firstLine e.Content)) [] ++ lit "\n"

/-- The conversation subsection of `buildDetailed`. -/
def detailedQuestions (grouped : Groups) : Str :=
  match grouped.get? .conversation with
  | none => []
  | some items =>
    let userQuestions := filterByMeta items (lit "user")
    if userQuestions.length > 0 then
      lit "### Questions Discussed\n" ++
      bulletLoop (fun line => line = [] ∨ line.length < 15)
        (fun line => bullet (truncateLine line 150))
        (userQuestions.map (fun e => cleanQuestionLine e.Content)) [] [] ++
      lit "\n"
    else []

/-- The note subsection of `buildDetailed`. -/
def detailedNotes (grouped : Groups) : Str :=
  match grouped.get? .note with
  | none => []
  | some items =>
    lit "### Notes\n" ++ items.foldl (fun sb e => sb ++ bullet e.Content) [] ++ lit "\n"

/-- The file subsection of `buildDetailed`. -/
def detailedFiles (grouped : Groups) : Str :=
  match grouped.get? .file with
  | none => []
  | some items =>
    lit "### Files Captured\n" ++
    items.foldl (fun sb e => sb ++ bullet (firstLine e.Content)) [] ++ lit "\n"

/-- The error subsection of `buildDetailed`. -/
def detailedErrors (grouped : Groups) : Str :=
  match grouped.get? .error with
  | none => []
  | some items =>
    lit "### Errors Encountered\n" ++
    bulletLoop (fun _ => false) (fun line => bullet (truncateLine line 150))
      (items.map (fun e => firstLine e.Content)) [] [] ++
    lit "\n"

/-- Go `Summarizer.buildDetailed`. -/
def buildDetailed (entries : List Entry) : Str :=
  let grouped := groupByType entries
  detailedDecisions grouped ++ detailedCodeChanges grouped ++ detailedCommits grouped ++
  detailedQuestions grouped ++ detailedNotes grouped ++ detailedFiles grouped ++
  detailedErrors grouped

/-- The decision loop of `buildCompressed`, with the keys of `seen` and the
slice `ds`; it stops once `ds` has five items. -/
def findingsLoop : List Entry → List Str → List Str → List Str
  | [], _, ds => ds
  | e :: rest, seen, ds =>
    let line := extractMeaningfulLine e.Content
    if line = [] ∨ line ∈ seen then findingsLoop rest seen ds
    else
      let ds := ds ++ [truncateLine line 100]
      if ds.length ≥ 5 then ds
      else findingsLoop rest (line :: seen) ds

/-- The decision part of `buildCompressed`. -/
def compressedFindings (grouped : Groups) : Str :=
  match grouped.get? .decision with
  | none => []
  | some items =>
    lit "**Key Findings:** " ++ Join (findingsLoop items [] []) (lit "; ") ++ lit "\n\n"

/-- The code-change part of `buildCompressed`. -/
def compressedCodeChanges (grouped : Groups) : Str :=
  match grouped.get? .code_change with
  | none => []
  | some items =>
    let edits := filterEdits items
    if edits.length > 0 then
      lit "**Code Changes:** " ++ Itoa edits.length ++ lit " edits — " ++
      Join edits (lit ", ") ++ lit "\n\n"
    else []

/-- The git part of `buildCompressed`. -/
def compressedGit (grouped : Groups) : Str :=
  match grouped.get? .git_commit with
  | none => []
  | some items =>
    lit "**Git:** " ++ Itoa items.length ++ lit " commits" ++
    (match items with
     | first :: _ => lit " — latest: " ++ firstLine first.Content
     | [] => []) ++
    lit "\n\n"

/-- The note part of `buildCompressed`. -/
def compressedNotes (grouped : Groups) : Str :=
  match grouped.get? .note with
  | none => []
  | some items =>
    lit "**Notes:** " ++ Join (items.map (fun e => e.Content)) (lit "; ") ++ lit "\n\n"

/-- Go `Summarizer.buildCompressed`. -/
def buildCompressed (entries : List Entry) : Str :=
  let grouped := groupByType entries
  compressedFindings grouped ++ compressedCodeChanges grouped ++ compressedGit grouped ++
  compressedNotes grouped

/-- The slice `parts` of `buildUltra`. -/
def ultraParts (grouped : Groups) : List Str :=
  (match grouped.get? .decision with
   | some items => [Itoa items.length ++ lit " decisions"]
   | none => []) ++
  (match grouped.get? .code_change with
   | some items => [Itoa (filterEdits items).length ++ lit " code edits"]
   | none => []) ++
  (match grouped.get? .git_commit with
   | some items => [Itoa items.length ++ lit " commits"]
   | none => []) ++
  (match grouped.get? .note with
   | some items => [Itoa items.length ++ lit " notes"]
   | none => [])

/-- Go `Summarizer.buildUltra`. -/
def buildUltra (entries : List Entry) : Str :=
  let grouped := groupByType entries
  let parts := ultraParts grouped
  let files := extractEditedFiles entries
  let filePart :=
    if files.length > 0 then
      let files := if files.length > 5 then files.take 5 else files
      lit " Files touched: " ++ Join files (lit ", ") ++ lit "."
    else []
  lit "Context: " ++ Join parts (lit ", ") ++ lit "." ++ filePart

/-- Go `Summarizer.Summarize`. -/
def Summarize (entries : List Entry) : GoMap :=
  [(LevelRaw, buildRaw entries),
   (LevelDetailed, buildDetailed entries),
   (LevelCompressed, buildCompressed entries),
   (LevelUltra, buildUltra entries)]

/-- The four level names in the order in which `BestFit` tries them. -/
def levelOrder : List Str :=
  [LevelRaw, LevelDetailed, LevelCompressed, LevelUltra]

/-- The three regular-expression deletions of `cleanContent`, in its order. -/
def stripMarkup (s : Str) : Str :=
  lineNumberRe (thinkingPrefixRe (xmlTagsRe s))

/-- The part of a stored entry that the parser chose. -/
def Entry.parsed (e : Entry) : parsedEntry :=
  { Type_ := e.Type_, Content := e.Content, Meta := e.Metadata }

/-- The entries that the scanner loop of `parseJSONL` derives from one line:
none for an empty line or a line that does not unmarshal. -/
def recordEntries (unmarshal : Str → Option transcriptLine) (line : Str) : List parsedEntry :=
  if line.length = 0 then []
  else
    match unmarshal line with
    | none => []
    | some tl => extractEntries tl

/-- A store with empty tables whose statements never fail. -/
def emptyStore : Store :=
  { sessions := [], entries := [], processed := [], outcomes := [] }

/-- The free-form transcript of the example: a user question and an assistant
answer that states a root cause. -/
def exampleTranscript : Str :=
  lit "user:\nWhat is the root cause?\nassistant:\nThe root cause is a missing index on the entries table, which caused full scans under load and the decision was made to add one.\n"

/-- The assistant answer of the example transcript. -/
def exampleAnswer : Str :=
  lit "The root cause is a missing index on the entries table, which caused full scans under load and the decision was made to add one."

/-- An entry with the given type and content, for examples. -/
def entryOf (t : EntryType) (content : Str) : Entry :=
  { ID := 0, SessionID := [], Type_ := t, Content := content, Metadata := [], OrderIdx := 0 }

/-- The entries of one type, in their original order. -/
def entriesOfType (entries : List Entry) (t : EntryType) : List Entry :=
  entries.filter (fun e => e.Type_ = t)

/-- Each distinct string once, in the order of first occurrence. -/
def firstOccurrences : List Str → List Str
  | [] => []
  | x :: xs => x :: (firstOccurrences xs).filter (fun y => y ≠ x)

/-- A content that describes an edit: it starts with `Edited ` or `Wrote `. -/
def isEditContent (c : Str) : Bool :=
  HasPrefix c (lit "Edited ") || HasPrefix c (lit "Wrote ")

/-- The path of an edit description: the content without its `Edited ` or
`Wrote ` prefix, empty for any other content. -/
def editedPath (c : Str) : Str :=
  if HasPrefix c (lit "Edited ") then TrimPrefix c (lit "Edited ")
  else if HasPrefix c (lit "Wrote ") then TrimPrefix c (lit "Wrote ")
  else []

/-- The three entries of the `filterEdits` example. -/
def exampleEdits : List Entry :=
  [entryOf .code_change (lit "Edited a/b.go"), entryOf .code_change (lit "Wrote a/b.go"),
   entryOf .code_change (lit "Edited a/b.go")]

/-- A titled subsection of the detailed rendering: nothing when there are no
items, otherwise the header, one bullet per item and an empty line. -/
def subsection (header : Str) (items : List Str) : Str :=
  if items = [] then []
  else header ++ items.flatMap bullet ++ lit "\n"

/-- An entry list with the same edit twice. -/
def repeatedEdit : List Entry :=
  [entryOf .code_change (lit "Edited a/b.go"), entryOf .code_change (lit "Edited a/b.go")]

/-- A note followed by a decision. -/
def noteThenDecision : List Entry :=
  [entryOf .note (lit "remember the index"),
   entryOf .decision (lit "We decided to add an index on the entries table.")]

/-- A code_change entry that reports a read or a search: its content starts
with `Read ` or `Searched for `. -/
def isReadOrSearch (e : Entry) : Bool :=
  decide (e.Type_ = EntryType.code_change) &&
    (HasPrefix e.Content (lit "Read ") || HasPrefix e.Content (lit "Searched for "))

/-- The paths of the edits in entry order, duplicates included: the contents of
the code_change entries that start with `Edited ` or `Wrote `, without that
prefix. -/
def strippedEditPaths (entries : List Entry) : List Str :=
  ((entriesOfType entries .code_change).filter (fun e => isEditContent e.Content)).map
    (fun e => editedPath e.Content)

/-- The distinct non-empty edited paths in the order of first appearance. -/
def distinctEditedPaths (entries : List Entry) : List Str :=
  firstOccurrences ((strippedEditPaths entries).filter (fun p => decide (p ≠ [])))

/-- Six edits of five files, for the file list of the ultra rendering. -/
def sixEdits : List Entry :=
  [entryOf .code_change (lit "Edited a.go"), entryOf .code_change (lit "Wrote b.go"),
   entryOf .code_change (lit "Edited a.go"), entryOf .code_change (lit "Edited c.go"),
   entryOf .code_change (lit "Edited d.go"), entryOf .code_change (lit "Edited e.go"),
   entryOf .code_change (lit "Edited f.go")]

/-- The first occurrence of `p` in `s` is at offset `i`. -/
def FirstAt (p s : Str) (i : Nat) : Prop :=
  p <+: s.drop i ∧ i ≤ s.length ∧ ∀ j, j < i → ¬ p <+: s.drop j

/-! ## float64 arithmetic of tokens.go

`EstimateTokens` divides in IEEE 754 binary64.  A finite non-negative double is
embedded as the rational number it denotes.  `roundFloat64` is rounding to the
nearest double, ties to even, with a 53-bit significand, for values in the
normal range (the values that occur here lie between 2^-2 and 2^64). -/

/-- Rounding of a rational to the nearest integer, ties to the even one. -/
def roundHalfEven (x : ℚ) : ℤ :=
  let f := ⌊x⌋
  let r := x - f
  if r < 1 / 2 then f
  else if 1 / 2 < r then f + 1
  else if f % 2 = 0 then f else f + 1

/-- The integer `L` with `2^L ≤ x < 2^(L+1)`, for a positive `x`. -/
def floorLog2 (x : ℚ) : ℤ :=
  let d : ℤ := (Nat.log2 x.num.toNat : ℤ) - (Nat.log2 x.den : ℤ)
  if (2 : ℚ) ^ d ≤ x then d else d - 1

/-- The exponent of the unit in the last place of the doubles around `x`. -/
def ulpExp (x : ℚ) : ℤ :=
  floorLog2 x - 52

/-- The double nearest to `x`, ties to even. -/
def roundFloat64 (x : ℚ) : ℚ :=
  if x ≤ 0 then 0
  else (roundHalfEven (x / 2 ^ ulpExp x) : ℚ) * 2 ^ ulpExp x

/-- Go `charsPerTokenRatio` as float64 values: the constant 3.5 is the double
7/2, the constant 3.8 is the double 4278419646001971 / 2^50. -/
def charsPerTokenFloat : ModelFamily → ℚ
  | .claude => 7 / 2
  | .gemini => 4278419646001971 / 2 ^ 50
  | .gpt => 7 / 2
  | .other => 7 / 2

/-- Go `EstimateTokens` with its float64 arithmetic:
`int(float64(chars) / charsPerToken)`. -/
def EstimateTokensFloat (text : Str) (family : ModelFamily) : ℤ :=
  let chars := text.length
  let charsPerToken := charsPerTokenFloat family
  ⌊roundFloat64 (roundFloat64 (chars : ℚ) / charsPerToken)⌋

/-- Six decision entries with distinct lines. -/
def sixDecisions : List Entry :=
  [entryOf .decision (lit "We decided to add an index on entries."),
   entryOf .decision (lit "We decided to cache the session list."),
   entryOf .decision (lit "The root cause is a missing index."),
   entryOf .decision (lit "The fix is to add the missing index."),
   entryOf .decision (lit "We chose sqlite for the local store."),
   entryOf .decision (lit "We opted for a single connection.")]

/-- The value of the last line that, trimmed, starts with `key`: the rest of
that line, trimmed; `none` when no line starts with `key`. -/
def lastField (key : Str) : List Str → Option Str
  | [] => none
  | l :: ls =>
    match lastField key ls with
    | some v => some v
    | none =>
      if HasPrefix (TrimSpace l) key then some (TrimSpace (TrimPrefix (TrimSpace l) key))
      else none

/-- The first line that is not empty after trimming, trimmed; empty when there
is none. -/
def firstNonEmpty : List Str → Str
  | [] => []
  | l :: ls => if TrimSpace l ≠ [] then TrimSpace l else firstNonEmpty ls

/-- The lines of a tool-call section as `summarizeToolCall` reads them. -/
def toolLines (text : Str) : List Str :=
  Split 10 (TrimSpace text)

/-- Some line holds a field `key` with a non-empty value. -/
def hasNonEmptyField (key : Str) (lines : List Str) : Bool :=
  lines.any (fun l =>
    HasPrefix (TrimSpace l) key && decide (TrimSpace (TrimPrefix (TrimSpace l) key) ≠ []))

/-- A tool call with two path lines, the second one empty. -/
def overriddenPath : Str :=
  lit "Foo\npath: a/b\npath:"

/-! ## The capture operations

`CaptureFromCursor` (cursor.go) and `CaptureFile` (manual.go) with the store
calls they make. -/

/-- What a capture operation gets from outside the store: `os.ReadFile`
(`none` is its error), the size that `os.Stat` reports (0 when it gives no
info), the identifier that `generateID` draws (`none` is the error of
`rand.Read`), and `json.Unmarshal` into a `transcriptLine`. -/
structure Env where
  readFile : Str → Option Str
  statSize : Str → Nat
  newID : Option Str
  unmarshal : Str → Option transcriptLine

/-- Go `Store.CreateSession`: one `INSERT INTO sessions`; `id` is a primary
key, so the statement also fails when the identifier is already in the table. -/
def Store.CreateSession (st : Store) (newID : Option Str) (source project label : Str) :
    Store × Except Err Session :=
  match newID with
  | none => (st, .error .generateID)
  | some id =>
    match st.outcomes with
    | false :: rest => ({ st with outcomes := rest }, .error .insertSession)
    | oc =>
      if st.sessions.any (fun s => s.ID = id) then
        ({ st with outcomes := oc.tail }, .error .insertSession)
      else
        let sess : Session := { ID := id, Source := source, Project := project, Label := label }
        ({ st with sessions := st.sessions ++ [sess], outcomes := oc.tail }, .ok sess)

/-- Go `Store.MarkTranscriptProcessed`: one `INSERT OR REPLACE INTO
processed_transcripts`, whose primary key is the file path; `false` is the
error result. -/
def Store.MarkTranscriptProcessed (st : Store) (filePath sessionID : Str) (fileSize : Nat) :
    Store × Bool :=
  match st.outcomes with
  | false :: rest => ({ st with outcomes := rest }, false)
  | oc =>
    ({ st with
        processed := st.processed.filter (fun r => r.1 ≠ filePath) ++
          [(filePath, sessionID, fileSize)],
        outcomes := oc.tail }, true)

/-- Go `filepath.Base` with `/` as the separator: the last element of the
path, after its trailing slashes are removed. -/
def Base (path : Str) : Str :=
  if path = [] then lit "."
  else
    let p := path.reverse.dropWhile (fun c => c = 47)
    let last := (p.takeWhile (fun c => c ≠ 47)).reverse
    if last = [] then lit "/" else last

/-- The loop of `filepath.Ext` from the end of the path: `acc` is the part
already passed. -/
def extLoop : Str → Str → Str
  | [], _ => []
  | c :: rest, acc =>
    if c = 47 then []
    else if c = 46 then 46 :: acc
    else extLoop rest (c :: acc)

/-- Go `filepath.Ext` with `/` as the separator: the suffix from the last dot
of the last element, empty when it has no dot. -/
def Ext (path : Str) : Str :=
  extLoop path.reverse []

/-- Go `CaptureFromCursor`: the store after the call and the result. -/
def CaptureFromCursor (env : Env) (st : Store) (transcriptPath project : Str) :
    Store × Except Err Session :=
  match env.readFile transcriptPath with
  | none => (st, .error .readFile)
  | some data =>
    let label := Base transcriptPath
    match st.CreateSession env.newID (lit "cursor") project label with
    | (st1, .error e) => (st1, .error e)
    | (st1, .ok sess) =>
      let ext := Ext transcriptPath
      let parsed :=
        if ext = lit ".jsonl" then parseJSONL env.unmarshal st1 sess.ID data
        else parseTextTranscript st1 sess.ID data
      match parsed with
      | (st2, some e) => (st2, .error e)
      | (st2, none) =>
        let size := env.statSize transcriptPath
        ((st2.MarkTranscriptProcessed transcriptPath sess.ID size).1, .ok sess)

/-- Go `CaptureFile`: the store after the call and the result. -/
def CaptureFile (env : Env) (st : Store) (project filePath tag : Str) :
    Store × Except Err Session :=
  match env.readFile filePath with
  | none => (st, .error .readFile)
  | some data =>
    let content := truncate data 10000
    let meta := lit "\x7b\"path\":\"" ++ filePath ++ lit "\",\"tag\":\"" ++ tag ++ lit "\"\x7d"
    let label := lit "file: " ++ filePath
    match st.CreateSession env.newID (lit "file") project label with
    | (st1, .error e) => (st1, .error e)
    | (st1, .ok sess) =>
      match st1.AddEntry sess.ID .file content meta 0 with
      | (st2, none) => (st2, .error .insertEntry)
      | (st2, some _) => (st2, .ok sess)

/-- An environment in which no file can be read. -/
def noFiles : Env :=
  { readFile := fun _ => none, statSize := fun _ => 0, newID := some (lit "0011223344556677"),
    unmarshal := fun _ => none }

/-- An environment in which every file holds the example transcript. -/
def oneFile : Env :=
  { readFile := fun _ => some exampleTranscript, statSize := fun _ => 160,
    newID := some (lit "0011223344556677"), unmarshal := fun _ => none }

/-- A store that holds a session and an entry, and whose next statement would
fail. -/
def busyStore : Store :=
  { sessions := [{ ID := lit "aa", Source := lit "manual", Project := [], Label := lit "note" }],
    entries := [entryOf .note (lit "kept")], processed := [], outcomes := [false] }

/-! ## Helpers for the statements about the parsers and renderings -/

/-- A section marker line of the free-form transcript. -/
def isMarker (line : Str) : Bool :=
  decide (TrimSpace line = lit "user:") || decide (TrimSpace line = lit "assistant:") ||
  HasPrefix (TrimSpace line) (lit "[Tool call]") ||
  HasPrefix (TrimSpace line) (lit "[Tool result]")

/-- Two lines without a section marker. -/
def preamble : Str :=
  lit "Exported chat\n  user: not a marker"

/-- The meaningful lines of the decision entries: those that are not empty. -/
def decisionLines (items : List Entry) : List Str :=
  (items.map (fun e => extractMeaningfulLine e.Content)).filter (fun l => l ≠ [])

/-- Two decisions whose lines differ only after the first 100 bytes. -/
def twinDecisions : List Entry :=
  [entryOf .decision (List.replicate 100 97 ++ lit "b"),
   entryOf .decision (List.replicate 100 97 ++ lit "c")]

/-- A line that the loop of `extractMeaningfulLine` keeps: at least 20 bytes
after trimming and no filler opener. -/
def isMeaningful (line : Str) : Bool :=
  decide (20 ≤ (TrimSpace line).length) && !isFiller (ToLower (TrimSpace line))

/-- A content that is one filler line of more than 20 bytes. -/
def fillerLine : Str :=
  lit "Now let me explain the plan in detail"

/-- One item of the count part of the ultra rendering: present when entries
of the type exist. -/
def countItem (n : Nat) (present : Bool) (unit : Str) : List Str :=
  if present then [Itoa n ++ unit] else []

/-- The number of distinct contents of code_change entries that start with
`Edited ` or `Wrote `. -/
def distinctEdits (entries : List Entry) : Nat :=
  (((entriesOfType entries .code_change).map (fun e => e.Content)).filter isEditContent).dedup.length

/-- The items of the count part of the ultra rendering, in their fixed order. -/
def ultraCountItems (entries : List Entry) : List Str :=
  countItem (entriesOfType entries .decision).length
    (decide (entriesOfType entries .decision ≠ [])) (lit " decisions") ++
  countItem (distinctEdits entries)
    (decide (entriesOfType entries .code_change ≠ [])) (lit " code edits") ++
  countItem (entriesOfType entries .git_commit).length
    (decide (entriesOfType entries .git_commit ≠ [])) (lit " commits") ++
  countItem (entriesOfType entries .note).length
    (decide (entriesOfType entries .note ≠ [])) (lit " notes")

/-- What `cleanQuestionLine` does with a leading mention: for a line that
starts with `@` the trimmed rest after the first space. -/
def stripMention (t : Str) : Str :=
  if HasPrefix t (lit "@") then TrimSpace (t.drop (Index t (lit " ") + 1).toNat) else t

/-- A line from which `cleanQuestionLine` returns: trimmed, it has at least 15
bytes and does not look like code, and without its mention it does not start
with `#`. -/
def isQuestionLine (line : Str) : Bool :=
  decide (15 ≤ (TrimSpace line).length) && !looksLikeCode (TrimSpace line) &&
    !HasPrefix (stripMention (TrimSpace line)) (lit "#")

/-! # Theorems -/

set_option maxRecDepth 100000

/-! ## Basic facts about the string functions -/

theorem HasPrefix_iff (s p : Str) : HasPrefix s p = true ↔ p <+: s := by
  induction s generalizing p with
  | nil =>
    cases p with
    | nil => simp [HasPrefix]
    | cons b p => simp [HasPrefix]
  | cons a s ih =>
    cases p with
    | nil => simp [HasPrefix]
    | cons b p =>
      simp only [HasPrefix, Bool.and_eq_true, beq_iff_eq, ih, List.cons_prefix_cons]
      constructor
      · rintro ⟨h1, h2⟩; exact ⟨h1.symm, h2⟩
      · rintro ⟨h1, h2⟩; exact ⟨h1.symm, h2⟩

theorem HasSuffix_iff (s p : Str) : HasSuffix s p = true ↔ p <:+ s := by
  unfold HasSuffix
  rw [HasPrefix_iff, List.reverse_prefix]

theorem Contains_iff (s p : Str) : Contains s p = true ↔ p <:+: s := by
  induction s with
  | nil =>
    simp only [Contains, HasPrefix_iff]
    constructor
    · intro h; exact h.isInfix
    · intro h
      have := List.eq_nil_of_infix_nil h
      subst this; exact List.prefix_refl _
  | cons a s ih =>
    simp only [Contains, Bool.or_eq_true, HasPrefix_iff, ih]
    constructor
    · rintro (h | h)
      · exact h.isInfix
      · exact h.trans (List.infix_cons (List.infix_refl s))
    · intro h
      rcases List.infix_cons_iff.mp h with h | h
      · exact Or.inl h
      · exact Or.inr h

/-! ## Best fit -/

theorem bestFitLoop_eq_find (m : GoMap) (b : Int) (f : ModelFamily) (ls : List Str) :
    bestFitLoop m b f ls =
      (ls.find? (fun l => decide ((EstimateTokens (m.get l) f : Int) ≤ b))).map
        (fun l => (l, m.get l)) := by
  induction ls with
  | nil => rfl
  | cons l ls ih =>
    by_cases h : (EstimateTokens (m.get l) f : Int) ≤ b
    · simp [bestFitLoop, List.find?, h]
    · simp [bestFitLoop, List.find?, h, ih]

theorem BestFit_eq_find (m : GoMap) (b : Int) (f : ModelFamily) :
    BestFit m b f =
      match levelOrder.find? (fun l => decide ((EstimateTokens (m.get l) f : Int) ≤ b)) with
      | some l => (l, m.get l)
      | none => (LevelUltra, m.get LevelUltra) := by
  unfold BestFit
  rw [bestFitLoop_eq_find]
  unfold levelOrder
  cases List.find? (fun l => decide ((EstimateTokens (m.get l) f : Int) ≤ b))
    [LevelRaw, LevelDetailed, LevelCompressed, LevelUltra] <;> rfl

theorem find_first {α : Type} (p : α → Bool) (pre : List α) (x : α) (post : List α)
    (hpre : ∀ l ∈ pre, p l = false) (hx : p x = true) :
    (pre ++ x :: post).find? p = some x := by
  induction pre with
  | nil => simp [List.find?, hx]
  | cons a pre ih =>
    have ha : p a = false := hpre a (List.mem_cons_self _ _)
    simp only [List.cons_append, List.find?, ha]
    exact ih (fun l hl => hpre l (List.mem_cons_of_mem _ hl))

/-- C1: `BestFit` returns `(L, renderings[L])` for the first level `L` in the
order raw, detailed, compressed, ultra whose estimate is within the budget
(every level before `L` is over the budget); when no level fits it returns
`(ultra, renderings[ultra])`; the returned text is always the rendering stored
under the returned level, and when that level is not ultra its estimate is
within the budget. -/
theorem BestFit_first_fit (summaries : GoMap) (budget : Int) (family : ModelFamily) :
    (∀ pre L post, levelOrder = pre ++ L :: post →
        (∀ l ∈ pre, ¬ (EstimateTokens (summaries.get l) family : Int) ≤ budget) →
        (EstimateTokens (summaries.get L) family : Int) ≤ budget →
        BestFit summaries budget family = (L, summaries.get L)) ∧
    ((∀ l ∈ levelOrder, ¬ (EstimateTokens (summaries.get l) family : Int) ≤ budget) →
        BestFit summaries budget family = (LevelUltra, summaries.get LevelUltra)) ∧
    (BestFit summaries budget family).2 = summaries.get (BestFit summaries budget family).1 ∧
    ((BestFit summaries budget family).1 ≠ LevelUltra →
        (EstimateTokens (BestFit summaries budget family).2 family : Int) ≤ budget) := by
  refine ⟨?_, ?_, ?_, ?_⟩
  · intro pre L post hsplit hpre hL
    rw [BestFit_eq_find, hsplit, find_first _ pre L post]
    · intro l hl; simpa using hpre l hl
    · simpa using hL
  · intro hnone
    rw [BestFit_eq_find]
    have : levelOrder.find? (fun l =>
        decide ((EstimateTokens (summaries.get l) family : Int) ≤ budget)) = none := by
      rw [List.find?_eq_none]
      intro l hl; simpa using hnone l hl
    rw [this]
  · rw [BestFit_eq_find]
    cases levelOrder.find? (fun l =>
      decide ((EstimateTokens (summaries.get l) family : Int) ≤ budget)) <;> rfl
  · rw [BestFit_eq_find]
    cases hf : levelOrder.find? (fun l =>
        decide ((EstimateTokens (summaries.get l) family : Int) ≤ budget)) with
    | none => intro h; exact absurd rfl h
    | some l =>
      intro _
      have := List.find?_some hf
      simpa using this

/-- Witness for C1: a map whose raw rendering (40 bytes, 11 tokens) is over the
budget 2 and whose detailed rendering (7 bytes, 2 tokens) fits. -/
theorem BestFit_first_fit_witness :
    BestFit [(LevelRaw, List.replicate 40 97), (LevelDetailed, List.replicate 7 97)] 2 .claude
      = (LevelDetailed, List.replicate 7 97) :=
  (BestFit_first_fit [(LevelRaw, List.replicate 40 97), (LevelDetailed, List.replicate 7 97)]
    2 .claude).1 [LevelRaw] LevelDetailed [LevelCompressed, LevelUltra] (by decide)
    (by decide) (by decide)

/-- C2: `BestFit` is monotonic in the budget: for `b1 ≤ b2` the level returned
for `b2` is not later in the order raw, detailed, compressed, ultra than the
level returned for `b1`. -/
theorem BestFit_monotone (summaries : GoMap) (family : ModelFamily) (b1 b2 : Int)
    (h : b1 ≤ b2) :
    levelOrder.indexOf (BestFit summaries b2 family).1 ≤
      levelOrder.indexOf (BestFit summaries b1 family).1 := by
  have e1 : levelOrder.indexOf LevelRaw = 0 := by decide
  have e2 : levelOrder.indexOf LevelDetailed = 1 := by decide
  have e3 : levelOrder.indexOf LevelCompressed = 2 := by decide
  have e4 : levelOrder.indexOf LevelUltra = 3 := by decide
  unfold BestFit bestFitLoop bestFitLoop bestFitLoop bestFitLoop bestFitLoop
  simp only []
  split_ifs <;> simp only [e1, e2, e3, e4] <;> omega

/-- Witness for C2: with the raw rendering at 11 tokens and the detailed one at
2, budget 2 selects detailed (index 1) and budget 11 selects raw (index 0). -/
theorem BestFit_monotone_witness :
    levelOrder.indexOf
        (BestFit [(LevelRaw, List.replicate 40 97), (LevelDetailed, List.replicate 7 97)]
          11 .claude).1 ≤
      levelOrder.indexOf
        (BestFit [(LevelRaw, List.replicate 40 97), (LevelDetailed, List.replicate 7 97)]
          2 .claude).1 :=
  BestFit_monotone _ .claude 2 11 (by decide)

/-! ## truncate -/

/-- C7: `truncate(s, n)` is `s` when `len(s) ≤ n`; otherwise it is the first `n`
bytes of `s` followed by `...`, has length `n + 3`, has `s[:n]` as a prefix
and ends with the marker; in both cases its length is at most
`n + len("...")`. -/
theorem truncate_spec (s : Str) (n : Nat) :
    (s.length ≤ n → truncate s n = s) ∧
    (n < s.length →
      truncate s n = s.take n ++ lit "..." ∧
      (truncate s n).length = n + 3 ∧
      s.take n <+: truncate s n ∧
      lit "..." <:+ truncate s n) ∧
    (truncate s n).length ≤ n + (lit "...").length := by
  have hl : (lit "...").length = 3 := by decide
  refine ⟨?_, ?_, ?_⟩
  · intro h; simp [truncate, h]
  · intro h
    have hn : ¬ s.length ≤ n := by omega
    have ht : truncate s n = s.take n ++ lit "..." := by simp [truncate, hn]
    refine ⟨ht, ?_, ?_, ?_⟩
    · rw [ht, List.length_append, List.length_take, hl]; omega
    · rw [ht]; exact List.prefix_append _ _
    · rw [ht]; exact List.suffix_append _ _
  · unfold truncate
    split_ifs with h
    · omega
    · rw [List.length_append, List.length_take]; omega

/-- Witness for C7: `truncate("abcdef", 2)` is `"ab..."`. -/
theorem truncate_spec_witness :
    truncate (lit "abcdef") 2 = (lit "abcdef").take 2 ++ lit "..." ∧
    (truncate (lit "abcdef") 2).length = 2 + 3 ∧
    (lit "abcdef").take 2 <+: truncate (lit "abcdef") 2 ∧
    lit "..." <:+ truncate (lit "abcdef") 2 :=
  (truncate_spec (lit "abcdef") 2).2.1 (by decide)

/-! ## classifyAssistantText and isMetaNoise -/

theorem classifyLoop_eq (text lower : Str) (kws : List Str) :
    classifyLoop text lower kws =
      if text.length > 100 ∧ ∃ kw ∈ kws, kw <:+: lower then EntryType.decision
      else EntryType.conversation := by
  induction kws with
  | nil => simp [classifyLoop]
  | cons kw rest ih =>
    unfold classifyLoop
    by_cases hc : Contains lower kw = true
    · have hi : kw <:+: lower := (Contains_iff _ _).mp hc
      by_cases hl : text.length > 100
      · have : ∃ k ∈ kw :: rest, k <:+: lower := ⟨kw, List.mem_cons_self _ _, hi⟩
        simp [hc, hl, hi]
      · simp [hc, hl]
        rw [ih]; simp [hl]
    · have hi : ¬ kw <:+: lower := fun h => hc ((Contains_iff _ _).mpr h)
      simp only [hc, if_false, Bool.false_eq_true]
      rw [ih]
      simp [hi]

/-- C8: `classifyAssistantText(t)` is decision exactly when (a) it is not the
case that the lower-cased `t` starts with `now ` and `len(t) < 200`, (b)
`len(t) > 100`, and (c) the lower-cased `t` contains a decision keyword; in
every other case it is conversation.  So the narration rule comes before the
keywords, and a text of at most 100 bytes, such as `ok, going with that`, is
conversation.  Lower-casing is that of Go, on runes: a text of more than 100
bytes with the keyword written `DEC\u0130S\u0130ON` is a decision. -/
theorem classifyAssistantText_spec (t : Str) :
    (classifyAssistantText t = EntryType.decision ↔
      ¬ (lit "now " <+: ToLower t ∧ t.length < 200) ∧ t.length > 100 ∧
        ∃ kw ∈ decisionKeywords, kw <:+: ToLower t) ∧
    (classifyAssistantText t ≠ EntryType.decision →
      classifyAssistantText t = EntryType.conversation) ∧
    (lit "now " <+: ToLower t ∧ t.length < 200 →
      classifyAssistantText t = EntryType.conversation) ∧
    (t.length ≤ 100 → classifyAssistantText t = EntryType.conversation) ∧
    classifyAssistantText (lit "ok, going with that") = EntryType.conversation ∧
    classifyAssistantText (lit "The DEC\u0130S\u0130ON of the team was to add an index on the entries table, because the full scans under load were too slow.")
      = EntryType.decision := by
  have key : classifyAssistantText t =
      if lit "now " <+: ToLower t ∧ t.length < 200 then EntryType.conversation
      else if t.length > 100 ∧ ∃ kw ∈ decisionKeywords, kw <:+: ToLower t
        then EntryType.decision else EntryType.conversation := by
    unfold classifyAssistantText
    simp only [HasPrefix_iff, classifyLoop_eq]
  refine ⟨?_, ?_, ?_, ?_, by decide, by decide!⟩
  · rw [key]
    split_ifs with h1 h2
    · simp [h1]
    · simp [h1, h2]
    · simp only [false_iff, reduceCtorEq]
      intro h; exact h2 h.2
  · rw [key]
    split_ifs <;> simp
  · intro h
    rw [key]; simp [h]
  · intro h
    rw [key]
    have : ¬ t.length > 100 := by omega
    split_ifs <;> simp_all

/-- Witness for C8: a 128-byte finding that contains `root cause`. -/
theorem classifyAssistantText_spec_witness :
    classifyAssistantText (lit "The root cause is a missing index on the entries table, which caused full scans under load and the decision was made to add one.")
      = EntryType.decision :=
  (classifyAssistantText_spec _).1.mpr
    ⟨by decide, by decide, lit "root cause", by decide, (Contains_iff _ _).mp (by decide)⟩

/-- C9: `isMetaNoise(s)` holds exactly when the lower-cased `s` contains a phrase
of the noise list; it holds for
`Let me also install the binary and then test ctxsave init`, and, the
lower-casing being that of Go on runes, for `The TO\u212AEN BUDGET is fine`,
whose Kelvin sign is lowered to `k`; it does not hold for
`The budget of tokens is fine`. -/
theorem isMetaNoise_spec (s : Str) :
    (isMetaNoise s = true ↔ ∃ p ∈ noisePatterns, p <:+: ToLower s) ∧
    isMetaNoise (lit "Let me also install the binary and then test ctxsave init") = true ∧
    isMetaNoise (lit "The TO\u212AEN BUDGET is fine") = true ∧
    ToLower (lit "The TO\u212AEN BUDGET is fine") = lit "the token budget is fine" ∧
    isMetaNoise (lit "The budget of tokens is fine") = false := by
  refine ⟨?_, by decide, by decide!, by decide!, by decide!⟩
  unfold isMetaNoise
  simp only [List.any_eq_true, Contains_iff]

set_option maxRecDepth 100000

/-! ## Summarize -/

/-- C10: for every entry list `Summarize` returns a map whose keys are exactly
raw, detailed, compressed, ultra (each once); for the empty entry list the raw,
detailed and compressed renderings are empty and the ultra rendering is
`Context: .`. -/
theorem Summarize_keys (entries : List Entry) :
    (Summarize entries).map Prod.fst = [lit "raw", lit "detailed", lit "compressed", lit "ultra"] ∧
    ((Summarize entries).map Prod.fst).Nodup ∧
    (∀ k, k ∈ (Summarize entries).map Prod.fst ↔
      k = lit "raw" ∨ k = lit "detailed" ∨ k = lit "compressed" ∨ k = lit "ultra") ∧
    (Summarize entries).get (lit "raw") = buildRaw entries ∧
    (Summarize entries).get (lit "detailed") = buildDetailed entries ∧
    (Summarize entries).get (lit "compressed") = buildCompressed entries ∧
    (Summarize entries).get (lit "ultra") = buildUltra entries ∧
    (Summarize []).get (lit "raw") = [] ∧
    (Summarize []).get (lit "detailed") = [] ∧
    (Summarize []).get (lit "compressed") = [] ∧
    (Summarize []).get (lit "ultra") = lit "Context: ." := by
  have hk : (Summarize entries).map Prod.fst =
      [lit "raw", lit "detailed", lit "compressed", lit "ultra"] := rfl
  refine ⟨hk, ?_, ?_, ?_, ?_, ?_, ?_, by decide, by decide, by decide, by decide⟩
  · rw [hk]; decide
  · intro k; rw [hk]; simp
  · rfl
  · unfold Summarize GoMap.get GoMap.get
    rw [if_neg (by decide), if_pos (by decide)]
  · unfold Summarize GoMap.get GoMap.get GoMap.get
    rw [if_neg (by decide), if_neg (by decide), if_pos (by decide)]
  · unfold Summarize GoMap.get GoMap.get GoMap.get GoMap.get
    rw [if_neg (by decide), if_neg (by decide), if_neg (by decide), if_pos (by decide)]

set_option maxRecDepth 100000

/-! ## Order indices -/

theorem AddEntry_neverFails (st : Store) (sid : Str) (t : EntryType) (c m : Str) (i : Nat)
    (h : st.neverFails) :
    ∃ st1 e, st.AddEntry sid t c m i = (st1, some e) ∧ st1.entries = st.entries ++ [e] ∧
      st1.neverFails ∧ e.OrderIdx = i ∧
      e.parsed = { Type_ := t, Content := c, Meta := m } := by
  unfold Store.neverFails at h
  have hadd : st.AddEntry sid t c m i =
      (Store.mk st.sessions (st.entries ++ [Entry.mk (st.entries.length + 1) sid t c m i])
          st.processed st.outcomes.tail,
        some (Entry.mk (st.entries.length + 1) sid t c m i)) := by
    cases ho : st.outcomes with
    | nil => simp [Store.AddEntry, ho]
    | cons b rest =>
      have hb : b = true := h b (by rw [ho]; exact List.mem_cons_self _ _)
      subst hb
      simp [Store.AddEntry, ho]
  refine ⟨_, _, hadd, rfl, ?_, rfl, rfl⟩
  intro b hb
  exact h b (List.mem_of_mem_tail hb)

theorem addSections_neverFails (sid : Str) (secs : List Section) :
    ∀ (st : Store) (idx : Nat), st.neverFails →
      (addSections sid st idx secs).2 = none ∧
      ∃ new, (addSections sid st idx secs).1.entries = st.entries ++ new ∧
        new.map Entry.parsed = secs.filterMap sectionEntry ∧
        new.map (fun e => e.OrderIdx) = List.range' idx new.length := by
  induction secs with
  | nil =>
    intro st idx _
    exact ⟨rfl, [], by simp [addSections], rfl, rfl⟩
  | cons sec rest ih =>
    intro st idx h
    cases hs : sectionEntry sec with
    | none =>
      have := ih st idx h
      simp only [addSections, hs, List.filterMap_cons]
      exact this
    | some pe =>
      obtain ⟨st1, e, hadd, hent, hnf, hidx, hpar⟩ :=
        AddEntry_neverFails st sid pe.Type_ pe.Content pe.Meta idx h
      obtain ⟨herr, new, hnew, hmap, hord⟩ := ih st1 (idx + 1) hnf
      simp only [addSections, hs, hadd, List.filterMap_cons]
      refine ⟨herr, e :: new, ?_, ?_, ?_⟩
      · rw [hnew, hent]; simp
      · simp [hmap, hpar]
      · simp [hidx, hord, List.range'_succ]

theorem addParsed_neverFails (sid : Str) (pes : List parsedEntry) :
    ∀ (st : Store) (idx : Nat), st.neverFails →
      ∃ st1 new, addParsed sid st idx pes = (st1, idx + pes.length, none) ∧
        st1.neverFails ∧ st1.entries = st.entries ++ new ∧
        new.map Entry.parsed = pes ∧
        new.map (fun e => e.OrderIdx) = List.range' idx pes.length := by
  induction pes with
  | nil =>
    intro st idx h
    exact ⟨st, [], rfl, h, by simp, rfl, rfl⟩
  | cons pe rest ih =>
    intro st idx h
    obtain ⟨st1, e, hadd, hent, hnf, hidx, hpar⟩ :=
      AddEntry_neverFails st sid pe.Type_ pe.Content pe.Meta idx h
    obtain ⟨st2, new, hrun, hnf2, hnew, hmap, hord⟩ := ih st1 (idx + 1) hnf
    refine ⟨st2, e :: new, ?_, hnf2, ?_, ?_, ?_⟩
    · simp only [addParsed, hadd, hrun, List.length_cons]
      congr 2; omega
    · rw [hnew, hent]; simp
    · simp [hmap, hpar]
    · simp [hidx, hord, List.range'_succ]

theorem jsonlLoop_neverFails (unmarshal : Str → Option transcriptLine) (sid : Str)
    (lines : List Str) :
    ∀ (st : Store) (idx : Nat), st.neverFails →
      (jsonlLoop unmarshal sid st idx lines).2 = none ∧
      ∃ new, (jsonlLoop unmarshal sid st idx lines).1.entries = st.entries ++ new ∧
        new.map Entry.parsed = lines.flatMap (recordEntries unmarshal) ∧
        new.map (fun e => e.OrderIdx) = List.range' idx new.length := by
  induction lines with
  | nil =>
    intro st idx _
    exact ⟨rfl, [], by simp [jsonlLoop], rfl, rfl⟩
  | cons line rest ih =>
    intro st idx h
    by_cases hl : line.length = 0
    · have := ih st idx h
      simp only [jsonlLoop, hl, if_true, List.flatMap_cons, recordEntries, List.nil_append]
      exact this
    · cases hu : unmarshal line with
      | none =>
        have := ih st idx h
        simp only [jsonlLoop, hl, if_false, hu, List.flatMap_cons, recordEntries,
          List.nil_append]
        exact this
      | some tl =>
        obtain ⟨st1, new1, hrun, hnf, hent, hmap, hord⟩ :=
          addParsed_neverFails sid (extractEntries tl) st idx h
        obtain ⟨herr, new2, hnew, hmap2, hord2⟩ :=
          ih st1 (idx + (extractEntries tl).length) hnf
        simp only [jsonlLoop, hl, if_false, hu, hrun, List.flatMap_cons, recordEntries]
        refine ⟨herr, new1 ++ new2, ?_, ?_, ?_⟩
        · rw [hnew, hent]; simp
        · simp [hmap, hmap2]
        · have hlen : new1.length = (extractEntries tl).length := by
            rw [← hmap, List.length_map]
          rw [List.map_append, hord, hord2, List.length_append, hlen,
            List.range'_append_1, Nat.add_comm]

/-- C4: on a store that never fails, `parseTextTranscript` and `parseJSONL` add
exactly the surviving entries, in emission order, and the k-th of them carries
order index k: the added entries are the entries derived from the sections
(from the scanned lines) and their order indices are 0, 1, ..., n-1. -/
theorem parser_order_indices (unmarshal : Str → Option transcriptLine) (st : Store)
    (sessionID data : Str) (h : st.neverFails) :
    ((parseTextTranscript st sessionID data).2 = none ∧
      ∃ new, (parseTextTranscript st sessionID data).1.entries = st.entries ++ new ∧
        new.map Entry.parsed = (scanSections data).filterMap sectionEntry ∧
        new.map (fun e => e.OrderIdx) = List.range new.length) ∧
    (∃ new, (parseJSONL unmarshal st sessionID data).1.entries = st.entries ++ new ∧
        new.map Entry.parsed =
          (scanTokens (Split 10 data)).1.flatMap (recordEntries unmarshal) ∧
        new.map (fun e => e.OrderIdx) = List.range new.length) := by
  constructor
  · obtain ⟨herr, new, h1, h2, h3⟩ :=
      addSections_neverFails sessionID (scanSections data) st 0 h
    refine ⟨herr, new, h1, h2, ?_⟩
    rw [h3, List.range_eq_range']
  · obtain ⟨herr, new, h1, h2, h3⟩ :=
      jsonlLoop_neverFails unmarshal sessionID (scanTokens (Split 10 data)).1 st 0 h
    refine ⟨new, ?_, h2, ?_⟩
    · simp only [parseJSONL]
      revert herr h1
      cases jsonlLoop unmarshal sessionID st 0 (scanTokens (Split 10 data)).1 with
      | mk st1 e =>
        intro herr h1
        simp only at herr
        subst herr
        exact h1
    · rw [h3, List.range_eq_range']

set_option maxRecDepth 100000

/-- Witness for C4: the example transcript parsed into the empty store. -/
theorem parser_order_indices_witness :
    emptyStore.neverFails ∧
    ((parseTextTranscript emptyStore (lit "s1") exampleTranscript).2 = none ∧
      ∃ new, (parseTextTranscript emptyStore (lit "s1") exampleTranscript).1.entries
          = emptyStore.entries ++ new ∧
        new.map Entry.parsed = (scanSections exampleTranscript).filterMap sectionEntry ∧
        new.map (fun e => e.OrderIdx) = List.range new.length) :=
  ⟨(fun _ hb => nomatch hb),
   (parser_order_indices (fun _ => none) emptyStore (lit "s1") exampleTranscript
      (fun _ hb => nomatch hb)).1⟩

theorem exampleTranscript_entries :
    (scanSections exampleTranscript).filterMap sectionEntry =
      [{ Type_ := .conversation, Content := lit "What is the root cause?",
         Meta := lit "\x7b\"role\":\"user\"\x7d" },
       { Type_ := .decision, Content := exampleAnswer,
         Meta := lit "\x7b\"role\":\"assistant\"\x7d" }] := by
  decide!

/-- C5: parsing the example transcript into a store that never fails adds
exactly two entries: a conversation entry with order index 0 and content
`What is the root cause?`, and a decision entry with order index 1 whose
content contains `root cause` and is longer than 100 bytes. -/
theorem parseTextTranscript_example (st : Store) (sessionID : Str) (h : st.neverFails) :
    (parseTextTranscript st sessionID exampleTranscript).2 = none ∧
    ∃ e1 e2, (parseTextTranscript st sessionID exampleTranscript).1.entries
        = st.entries ++ [e1, e2] ∧
      e1.Type_ = EntryType.conversation ∧ e1.OrderIdx = 0 ∧
      e1.Content = lit "What is the root cause?" ∧
      e2.Type_ = EntryType.decision ∧ e2.OrderIdx = 1 ∧
      lit "root cause" <:+: e2.Content ∧ e2.Content.length > 100 := by
  obtain ⟨herr, new, h1, h2, h3⟩ :=
    addSections_neverFails sessionID (scanSections exampleTranscript) st 0 h
  refine ⟨herr, ?_⟩
  rw [exampleTranscript_entries] at h2
  cases new with
  | nil => simp at h2
  | cons e1 r1 =>
    cases r1 with
    | nil => simp at h2
    | cons e2 r2 =>
      cases r2 with
      | cons e3 r3 => simp at h2
      | nil =>
        refine ⟨e1, e2, h1, ?_⟩
        simp only [List.map_cons, List.map_nil, List.cons.injEq, and_true] at h2 h3
        obtain ⟨p1, p2⟩ := h2
        have c1 : e1.Content = lit "What is the root cause?" := congrArg parsedEntry.Content p1
        have c2 : e2.Content = exampleAnswer := congrArg parsedEntry.Content p2
        have t1 : e1.Type_ = EntryType.conversation := congrArg parsedEntry.Type_ p1
        have t2 : e2.Type_ = EntryType.decision := congrArg parsedEntry.Type_ p2
        have o : e1.OrderIdx = 0 ∧ e2.OrderIdx = 1 := by
          simpa [List.range'] using h3
        refine ⟨t1, o.1, c1, t2, o.2, ?_, ?_⟩
        · rw [c2]; exact (Contains_iff _ _).mp (by decide)
        · rw [c2]; decide

/-- Witness for C5: the example transcript parsed into the empty store. -/
theorem parseTextTranscript_example_witness :
    (parseTextTranscript emptyStore (lit "s1") exampleTranscript).2 = none ∧
    ∃ e1 e2, (parseTextTranscript emptyStore (lit "s1") exampleTranscript).1.entries
        = emptyStore.entries ++ [e1, e2] ∧
      e1.Type_ = EntryType.conversation ∧ e1.OrderIdx = 0 ∧
      e1.Content = lit "What is the root cause?" ∧
      e2.Type_ = EntryType.decision ∧ e2.OrderIdx = 1 ∧
      lit "root cause" <:+: e2.Content ∧ e2.Content.length > 100 :=
  parseTextTranscript_example emptyStore (lit "s1") (fun _ hb => nomatch hb)

set_option maxRecDepth 100000

/-! ## Token estimates of the four renderings -/

theorem Summarize_get (entries : List Entry) :
    (Summarize entries).get LevelRaw = buildRaw entries ∧
    (Summarize entries).get LevelDetailed = buildDetailed entries ∧
    (Summarize entries).get LevelCompressed = buildCompressed entries ∧
    (Summarize entries).get LevelUltra = buildUltra entries := by
  refine ⟨?_, ?_, ?_, ?_⟩
  · unfold Summarize GoMap.get
    rw [if_pos rfl]
  · unfold Summarize GoMap.get GoMap.get
    rw [if_neg (by decide), if_pos rfl]
  · unfold Summarize GoMap.get GoMap.get GoMap.get
    rw [if_neg (by decide), if_neg (by decide), if_pos rfl]
  · unfold Summarize GoMap.get GoMap.get GoMap.get GoMap.get
    rw [if_neg (by decide), if_neg (by decide), if_neg (by decide), if_pos rfl]

theorem EstimateTokens_mono (s t : Str) (family : ModelFamily) (h : s.length ≤ t.length) :
    EstimateTokens s family ≤ EstimateTokens t family := by
  unfold EstimateTokens
  exact Nat.div_le_div_right (Nat.mul_le_mul_left 10 h)

theorem buildUltra_length (entries : List Entry) : 10 ≤ (buildUltra entries).length := by
  have h1 : (lit "Context: ").length = 9 := by decide
  have h2 : (lit ".").length = 1 := by decide
  simp only [buildUltra, List.length_append, h1, h2]
  omega

/-- Counterexample for C3: for the empty entry list and the claude family the
estimates are 0, 0, 0 for raw, detailed, compressed and 2 for ultra
(`Context: .`), so the chain raw ≥ detailed ≥ compressed ≥ ultra fails at its
last link. -/
theorem Summarize_estimates_unordered :
    ¬ (EstimateTokens ((Summarize []).get LevelRaw) ModelFamily.claude ≥
          EstimateTokens ((Summarize []).get LevelDetailed) ModelFamily.claude ∧
        EstimateTokens ((Summarize []).get LevelDetailed) ModelFamily.claude ≥
          EstimateTokens ((Summarize []).get LevelCompressed) ModelFamily.claude ∧
        EstimateTokens ((Summarize []).get LevelCompressed) ModelFamily.claude ≥
          EstimateTokens ((Summarize []).get LevelUltra) ModelFamily.claude) := by
  decide

/-- The other two links of the chain fail as well: for one git_commit entry with
content `x` the estimates are raw 4, detailed 6, compressed 9. -/
theorem Summarize_estimates_unordered_commit :
    EstimateTokens ((Summarize [entryOf .git_commit (lit "x")]).get LevelRaw) .claude = 4 ∧
    EstimateTokens ((Summarize [entryOf .git_commit (lit "x")]).get LevelDetailed) .claude = 6 ∧
    EstimateTokens ((Summarize [entryOf .git_commit (lit "x")]).get LevelCompressed) .claude = 9 := by
  decide

/-- C3, amended: the renderings of `Summarize` are built independently and
their estimates are not ordered in general.  Between two neighbouring levels
the estimates are ordered whenever the byte lengths of the two renderings are;
the ultra rendering has at least the 10 bytes of `Context: .`, so its estimate
is at least 2 for every entry list and family, while for the empty entry list
the raw, detailed and compressed renderings have estimate 0. -/
theorem Summarize_estimates (entries : List Entry) (family : ModelFamily) :
    (((Summarize entries).get LevelDetailed).length ≤ ((Summarize entries).get LevelRaw).length →
      EstimateTokens ((Summarize entries).get LevelRaw) family ≥
        EstimateTokens ((Summarize entries).get LevelDetailed) family) ∧
    (((Summarize entries).get LevelCompressed).length ≤
        ((Summarize entries).get LevelDetailed).length →
      EstimateTokens ((Summarize entries).get LevelDetailed) family ≥
        EstimateTokens ((Summarize entries).get LevelCompressed) family) ∧
    (((Summarize entries).get LevelUltra).length ≤
        ((Summarize entries).get LevelCompressed).length →
      EstimateTokens ((Summarize entries).get LevelCompressed) family ≥
        EstimateTokens ((Summarize entries).get LevelUltra) family) ∧
    2 ≤ EstimateTokens ((Summarize entries).get LevelUltra) family ∧
    EstimateTokens ((Summarize []).get LevelRaw) family = 0 ∧
    EstimateTokens ((Summarize []).get LevelDetailed) family = 0 ∧
    EstimateTokens ((Summarize []).get LevelCompressed) family = 0 ∧
    EstimateTokens ((Summarize []).get LevelUltra) family = 2 := by
  refine ⟨EstimateTokens_mono _ _ family, EstimateTokens_mono _ _ family,
    EstimateTokens_mono _ _ family, ?_, ?_, ?_, ?_, ?_⟩
  · rw [(Summarize_get entries).2.2.2]
    have hlen := buildUltra_length entries
    have h100 : 100 ≤ 10 * (buildUltra entries).length := by omega
    unfold EstimateTokens
    cases family
    · exact le_trans (by decide) (Nat.div_le_div_right h100)
    · exact le_trans (by decide) (Nat.div_le_div_right h100)
    · exact le_trans (by decide) (Nat.div_le_div_right h100)
    · exact le_trans (by decide) (Nat.div_le_div_right h100)
  · cases family <;> decide
  · cases family <;> decide
  · cases family <;> decide
  · cases family <;> decide

/-- Witness for C3 (amended): for two note entries `a` and `b` the renderings
have 20, 19, 17 and 17 bytes, so all three links hold. -/
theorem Summarize_estimates_witness :
    EstimateTokens ((Summarize [entryOf .note (lit "a"), entryOf .note (lit "b")]).get LevelRaw)
        ModelFamily.gemini ≥
      EstimateTokens
        ((Summarize [entryOf .note (lit "a"), entryOf .note (lit "b")]).get LevelDetailed)
        ModelFamily.gemini ∧
    EstimateTokens
        ((Summarize [entryOf .note (lit "a"), entryOf .note (lit "b")]).get LevelDetailed)
        ModelFamily.gemini ≥
      EstimateTokens
        ((Summarize [entryOf .note (lit "a"), entryOf .note (lit "b")]).get LevelCompressed)
        ModelFamily.gemini ∧
    EstimateTokens
        ((Summarize [entryOf .note (lit "a"), entryOf .note (lit "b")]).get LevelCompressed)
        ModelFamily.gemini ≥
      EstimateTokens
        ((Summarize [entryOf .note (lit "a"), entryOf .note (lit "b")]).get LevelUltra)
        ModelFamily.gemini :=
  ⟨(Summarize_estimates _ ModelFamily.gemini).1 (by decide),
   (Summarize_estimates _ ModelFamily.gemini).2.1 (by decide),
   (Summarize_estimates _ ModelFamily.gemini).2.2.1 (by decide)⟩

set_option maxRecDepth 100000

/-! ## cleanContent -/

theorem deleteMatches_sublist (f : Bool → Str → Nat) (s : Str) :
    ∀ (bol : Bool) (k : Nat), List.Sublist (deleteMatches f bol k s) s := by
  induction s with
  | nil => intro bol k; simp [deleteMatches]
  | cons c s ih =>
    intro bol k
    cases k with
    | succ k =>
      simp only [deleteMatches]
      exact (ih _ _).cons c
    | zero =>
      simp only [deleteMatches]
      cases f bol (c :: s) with
      | zero => exact (ih _ _).cons₂ c
      | succ n => exact (ih _ _).cons c

theorem replaceAllFrom_length (old new : Str) (h : new.length < old.length) (s : Str) :
    ∀ k, (replaceAllFrom old new k s).length + min k s.length ≤ s.length := by
  induction s with
  | nil => intro k; simp [replaceAllFrom]
  | cons c s ih =>
    intro k
    cases k with
    | succ k =>
      have := ih k
      simp only [replaceAllFrom, List.length_cons]
      omega
    | zero =>
      simp only [replaceAllFrom]
      by_cases hp : HasPrefix (c :: s) old = true
      · have hlen : old.length ≤ s.length + 1 := by
          have := ((HasPrefix_iff _ _).mp hp).length_le
          simpa using this
        have := ih (old.length - 1)
        simp only [hp, if_true, List.length_append, List.length_cons]
        omega
      · have := ih 0
        simp only [hp, List.length_cons]
        simp at this ⊢
        omega

theorem replaceAllFrom_shorter (old new : Str) (h : new.length < old.length) (s : Str)
    (hc : Contains s old = true) :
    (replaceAllFrom old new 0 s).length < s.length := by
  induction s with
  | nil =>
    have : old = [] := List.eq_nil_of_infix_nil ((Contains_iff _ _).mp hc)
    subst this
    simp at h
  | cons c s ih =>
    simp only [replaceAllFrom]
    by_cases hp : HasPrefix (c :: s) old = true
    · have hlen : old.length ≤ s.length + 1 := by
        have := ((HasPrefix_iff _ _).mp hp).length_le
        simpa using this
      have := replaceAllFrom_length old new h s (old.length - 1)
      simp only [hp, if_true, List.length_append, List.length_cons]
      omega
    · have hc2 : Contains s old = true := by
        simp only [Contains, Bool.or_eq_true] at hc
        rcases hc with hc | hc
        · exact absurd hc hp
        · exact hc
      have := ih hc2
      simp only [hp, List.length_cons]
      simp
      omega

theorem collapseLoop_length (n : Nat) : ∀ s, (collapseLoop n s).length ≤ s.length := by
  induction n with
  | zero => intro s; simp [collapseLoop]
  | succ n ih =>
    intro s
    simp only [collapseLoop]
    split_ifs with hc
    · have h1 := ih (ReplaceAll s [10, 10, 10] [10, 10])
      have h2 := replaceAllFrom_shorter [10, 10, 10] [10, 10] (by decide) s hc
      unfold ReplaceAll at h1 ⊢
      omega
    · exact le_refl _

theorem collapseLoop_no_triple (n : Nat) :
    ∀ s, s.length ≤ n → Contains (collapseLoop n s) [10, 10, 10] = false := by
  induction n with
  | zero =>
    intro s hs
    have : s = [] := List.length_eq_zero.mp (by omega)
    subst this
    decide
  | succ n ih =>
    intro s hs
    simp only [collapseLoop]
    split_ifs with hc
    · apply ih
      have h2 := replaceAllFrom_shorter [10, 10, 10] [10, 10] (by decide) s hc
      unfold ReplaceAll
      omega
    · simpa using hc

theorem collapseLoop_fixed (n : Nat) (s : Str) (h : Contains s [10, 10, 10] = false) :
    collapseLoop n s = s := by
  cases n with
  | zero => rfl
  | succ n => simp [collapseLoop, h]

set_option maxRecDepth 100000

/-! ## TrimSpace -/

theorem spaceRunes_ne_nil : ∀ w ∈ spaceRunes, w ≠ [] := by decide

theorem leadingSpace_some {s w : Str} (h : leadingSpace s = some w) :
    w ∈ spaceRunes ∧ w <+: s ∧ w ≠ [] := by
  unfold leadingSpace at h
  have h1 := List.mem_of_find?_eq_some h
  have h2 := List.find?_some h
  exact ⟨h1, (HasPrefix_iff _ _).mp h2, spaceRunes_ne_nil w h1⟩

theorem trailingSpace_some {s w : Str} (h : trailingSpace s = some w) :
    w ∈ spaceRunes ∧ w <:+ s ∧ w ≠ [] := by
  unfold trailingSpace at h
  have h1 := List.mem_of_find?_eq_some h
  have h2 := List.find?_some h
  exact ⟨h1, (HasSuffix_iff _ _).mp h2, spaceRunes_ne_nil w h1⟩

theorem leadingSpace_none_iff (s : Str) :
    leadingSpace s = none ↔ ∀ w ∈ spaceRunes, ¬ w <+: s := by
  unfold leadingSpace
  rw [List.find?_eq_none]
  constructor
  · intro h w hw hp; exact h w hw ((HasPrefix_iff _ _).mpr hp)
  · intro h w hw hp; exact h w hw ((HasPrefix_iff _ _).mp hp)

theorem trailingSpace_none_iff (s : Str) :
    trailingSpace s = none ↔ ∀ w ∈ spaceRunes, ¬ w <:+ s := by
  unfold trailingSpace
  rw [List.find?_eq_none]
  constructor
  · intro h w hw hp; exact h w hw ((HasSuffix_iff _ _).mpr hp)
  · intro h w hw hp; exact h w hw ((HasSuffix_iff _ _).mp hp)

theorem trimLeftN_isSuffix (n : Nat) : ∀ s, trimLeftN n s <:+ s := by
  induction n with
  | zero => intro s; exact List.suffix_refl s
  | succ n ih =>
    intro s
    simp only [trimLeftN]
    cases h : leadingSpace s with
    | none => exact List.suffix_refl s
    | some w => exact (ih _).trans (List.drop_suffix _ _)

theorem trimRightN_isPrefix (n : Nat) : ∀ s, trimRightN n s <+: s := by
  induction n with
  | zero => intro s; exact List.prefix_refl s
  | succ n ih =>
    intro s
    simp only [trimRightN]
    cases h : trailingSpace s with
    | none => exact List.prefix_refl s
    | some w => exact (ih _).trans (List.take_prefix _ _)

theorem trimLeftN_done (n : Nat) : ∀ s, s.length ≤ n → leadingSpace (trimLeftN n s) = none := by
  induction n with
  | zero =>
    intro s hs
    have : s = [] := List.length_eq_zero.mp (by omega)
    subst this
    decide
  | succ n ih =>
    intro s hs
    simp only [trimLeftN]
    cases h : leadingSpace s with
    | none => exact h
    | some w =>
      obtain ⟨_, hp, hne⟩ := leadingSpace_some h
      have hw : 0 < w.length := List.length_pos.mpr hne
      have hle := hp.length_le
      apply ih
      rw [List.length_drop]
      omega

theorem trimRightN_done (n : Nat) :
    ∀ s, s.length ≤ n → trailingSpace (trimRightN n s) = none := by
  induction n with
  | zero =>
    intro s hs
    have : s = [] := List.length_eq_zero.mp (by omega)
    subst this
    decide
  | succ n ih =>
    intro s hs
    simp only [trimRightN]
    cases h : trailingSpace s with
    | none => exact h
    | some w =>
      obtain ⟨_, hp, hne⟩ := trailingSpace_some h
      have hw : 0 < w.length := List.length_pos.mpr hne
      have hle := hp.length_le
      apply ih
      rw [List.length_take]
      omega

theorem TrimSpace_isInfix (s : Str) : TrimSpace s <:+: s :=
  ((trimRightN_isPrefix _ _).isInfix).trans ((trimLeftN_isSuffix _ _).isInfix)

theorem TrimSpace_trimmed (s : Str) :
    leadingSpace (TrimSpace s) = none ∧ trailingSpace (TrimSpace s) = none := by
  constructor
  · rw [leadingSpace_none_iff]
    intro w hw hp
    have h1 : leadingSpace (TrimLeft s) = none := trimLeftN_done _ _ (le_refl _)
    rw [leadingSpace_none_iff] at h1
    exact h1 w hw (hp.trans (trimRightN_isPrefix _ _))
  · exact trimRightN_done _ _ (le_refl _)

theorem trimLeftN_fixed (n : Nat) (s : Str) (h : leadingSpace s = none) : trimLeftN n s = s := by
  cases n with
  | zero => rfl
  | succ n => simp [trimLeftN, h]

theorem trimRightN_fixed (n : Nat) (s : Str) (h : trailingSpace s = none) :
    trimRightN n s = s := by
  cases n with
  | zero => rfl
  | succ n => simp [trimRightN, h]

theorem TrimSpace_fixed (s : Str) (h1 : leadingSpace s = none) (h2 : trailingSpace s = none) :
    TrimSpace s = s := by
  unfold TrimSpace TrimLeft TrimRight
  rw [trimLeftN_fixed _ _ h1, trimRightN_fixed _ _ h2]

/-! ## cleanContent is idempotent only without residual markup -/

theorem cleanContent_no_triple (x : Str) : Contains (cleanContent x) [10, 10, 10] = false := by
  have h1 : Contains (collapseBlankLines (stripMarkup x)) [10, 10, 10] = false :=
    collapseLoop_no_triple _ _ (le_refl _)
  have h2 : cleanContent x <:+: collapseBlankLines (stripMarkup x) := TrimSpace_isInfix _
  by_contra hc
  have hc2 : Contains (cleanContent x) [10, 10, 10] = true := by simpa using hc
  have := ((Contains_iff _ _).mp hc2).trans h2
  rw [(Contains_iff _ _).mpr this] at h1
  exact Bool.noConfusion h1

theorem cleanContent_of_clean (c : Str) (hs : stripMarkup c = c)
    (hn : Contains c [10, 10, 10] = false)
    (h1 : leadingSpace c = none) (h2 : trailingSpace c = none) : cleanContent c = c := by
  have : cleanContent c = TrimSpace (collapseBlankLines (stripMarkup c)) := rfl
  rw [this, hs]
  unfold collapseBlankLines
  rw [collapseLoop_fixed _ _ hn, TrimSpace_fixed _ h1 h2]

theorem cleanContent_length_le (c : Str) :
    (cleanContent c).length ≤ (lineNumberRe (thinkingPrefixRe (xmlTagsRe c))).length := by
  have : cleanContent c = TrimSpace (collapseBlankLines (stripMarkup c)) := rfl
  rw [this]
  exact le_trans (TrimSpace_isInfix _).length_le (collapseLoop_length _ _)

/-- Counterexample for C6: on `<<user_query>user_query>` the first cleaning
deletes the inner tag and leaves `<user_query>`, which the second cleaning
deletes, so cleaning twice differs from cleaning once. -/
theorem cleanContent_not_idempotent :
    cleanContent (lit "<<user_query>user_query>") = lit "<user_query>" ∧
    cleanContent (cleanContent (lit "<<user_query>user_query>")) = [] ∧
    cleanContent (cleanContent (lit "<<user_query>user_query>")) ≠
      cleanContent (lit "<<user_query>user_query>") := by
  decide

/-- C6, amended: cleaning a cleaned text again changes nothing exactly when
the cleaned text holds no match of the three expressions (no tag of the
vocabulary, no `[Thinking]` marker at a line start, no line-number prefix):
`cleanContent(cleanContent(x)) == cleanContent(x)` if and only if each of the
three deletions leaves `cleanContent(x)` as it is. -/
theorem cleanContent_idempotent_iff (x : Str) :
    cleanContent (cleanContent x) = cleanContent x ↔
      (xmlTagsRe (cleanContent x) = cleanContent x ∧
       thinkingPrefixRe (cleanContent x) = cleanContent x ∧
       lineNumberRe (cleanContent x) = cleanContent x) := by
  constructor
  · intro h
    have hx : List.Sublist (xmlTagsRe (cleanContent x)) (cleanContent x) :=
      deleteMatches_sublist _ _ _ _
    have ht : List.Sublist (thinkingPrefixRe (xmlTagsRe (cleanContent x)))
        (xmlTagsRe (cleanContent x)) := deleteMatches_sublist _ _ _ _
    have hl : List.Sublist (lineNumberRe (thinkingPrefixRe (xmlTagsRe (cleanContent x))))
        (thinkingPrefixRe (xmlTagsRe (cleanContent x))) := deleteMatches_sublist _ _ _ _
    have hlen := cleanContent_length_le (cleanContent x)
    rw [h] at hlen
    have l1 := hx.length_le
    have l2 := ht.length_le
    have l3 := hl.length_le
    have e1 : xmlTagsRe (cleanContent x) = cleanContent x :=
      hx.eq_of_length (by omega)
    rw [e1] at ht hl l2 l3 hlen
    have e2 : thinkingPrefixRe (cleanContent x) = cleanContent x :=
      ht.eq_of_length (by omega)
    rw [e2] at hl l3 hlen
    have e3 : lineNumberRe (cleanContent x) = cleanContent x :=
      hl.eq_of_length (by omega)
    exact ⟨e1, e2, e3⟩
  · rintro ⟨e1, e2, e3⟩
    apply cleanContent_of_clean
    · unfold stripMarkup; rw [e1, e2, e3]
    · exact cleanContent_no_triple x
    · exact (TrimSpace_trimmed _).1
    · exact (TrimSpace_trimmed _).2

/-- Witness for C6 (amended): the cleaned form of a text with a tag, a thinking
marker, a line number and blank lines is a fixed point of cleaning. -/
theorem cleanContent_idempotent_iff_witness :
    cleanContent (cleanContent (lit "<user_query>\n\n\n\n  L12|hello\n[Thinking] world  ")) =
      cleanContent (lit "<user_query>\n\n\n\n  L12|hello\n[Thinking] world  ") :=
  (cleanContent_idempotent_iff _).mpr ⟨by decide, by decide, by decide⟩

set_option maxRecDepth 100000

/-! ## groupByType -/

theorem Groups_get_add (m : Groups) (t : EntryType) (e : Entry) (t' : EntryType) :
    (m.add t e).get? t' =
      if t = t' then some ((m.get? t).getD [] ++ [e]) else m.get? t' := by
  induction m with
  | nil =>
    by_cases h : t = t'
    · simp [Groups.add, Groups.get?, h]
    · simp [Groups.add, Groups.get?, h]
  | cons kv m ih =>
    obtain ⟨k, v⟩ := kv
    by_cases hk : k = t
    · subst hk
      by_cases h : k = t'
      · simp [Groups.add, Groups.get?, h]
      · simp [Groups.add, Groups.get?, h]
    · by_cases h : t = t'
      · subst h
        simp [Groups.add, Groups.get?, hk, ih]
      · by_cases hk' : k = t'
        · subst hk'
          simp [Groups.add, Groups.get?, hk, h]
        · simp [Groups.add, Groups.get?, hk, hk', h, ih]

/-- The value of a key of a group map built from `done`: absent when no entry
has the type, the entries of the type otherwise. -/
theorem groupByType_get_aux (es : List Entry) :
    ∀ (m : Groups) (done : List Entry),
      (∀ t, m.get? t =
        if entriesOfType done t = [] then none else some (entriesOfType done t)) →
      ∀ t, (es.foldl (fun m e => m.add e.Type_ e) m).get? t =
        if entriesOfType (done ++ es) t = [] then none
        else some (entriesOfType (done ++ es) t) := by
  induction es with
  | nil => intro m done h t; simpa using h t
  | cons e es ih =>
    intro m done h t
    have := ih (m.add e.Type_ e) (done ++ [e]) ?_ t
    · simpa using this
    · intro t'
      have happ : entriesOfType (done ++ [e]) t' =
          entriesOfType done t' ++ (if e.Type_ = t' then [e] else []) := by
        unfold entriesOfType
        rw [List.filter_append]
        by_cases ht : e.Type_ = t'
        · simp [ht]
        · simp [ht]
      rw [Groups_get_add, h, happ]
      by_cases ht : e.Type_ = t'
      · subst ht
        by_cases hn : entriesOfType done e.Type_ = []
        · simp [hn]
        · simp [hn]
      · simp [ht, h t']

theorem groupByType_get (entries : List Entry) (t : EntryType) :
    (groupByType entries).get? t =
      if entriesOfType entries t = [] then none else some (entriesOfType entries t) := by
  have := groupByType_get_aux entries [] [] (by intro t; simp [Groups.get?, entriesOfType]) t
  simpa [groupByType] using this

set_option maxRecDepth 100000

/-! ## First occurrences and the de-duplicating loops -/

theorem mem_firstOccurrences (l : List Str) (x : Str) : x ∈ firstOccurrences l ↔ x ∈ l := by
  induction l with
  | nil => simp [firstOccurrences]
  | cons a l ih =>
    simp only [firstOccurrences, List.mem_cons, List.mem_filter, ih, decide_eq_true_eq]
    constructor
    · rintro (h | ⟨h, _⟩)
      · exact Or.inl h
      · exact Or.inr h
    · rintro (h | h)
      · exact Or.inl h
      · by_cases hx : x = a
        · exact Or.inl hx
        · exact Or.inr ⟨h, hx⟩

theorem nodup_firstOccurrences (l : List Str) : (firstOccurrences l).Nodup := by
  induction l with
  | nil => simp [firstOccurrences]
  | cons a l ih =>
    simp only [firstOccurrences, List.nodup_cons, List.mem_filter, decide_eq_true_eq]
    exact ⟨fun h => h.2 rfl, ih.filter _⟩

theorem firstOccurrences_sublist (l : List Str) : List.Sublist (firstOccurrences l) l := by
  induction l with
  | nil => simp [firstOccurrences]
  | cons a l ih =>
    simp only [firstOccurrences]
    exact ((List.filter_sublist _).trans ih).cons₂ a

theorem firstOccurrences_of_nodup (l : List Str) (h : l.Nodup) : firstOccurrences l = l := by
  induction l with
  | nil => rfl
  | cons a l ih =>
    rw [List.nodup_cons] at h
    simp only [firstOccurrences, ih h.2]
    congr 1
    rw [List.filter_eq_self]
    intro y hy
    simp only [decide_eq_true_eq]
    intro hya; subst hya; exact h.1 hy

theorem firstOccurrences_length_le (l : List Str) : (firstOccurrences l).length ≤ l.length :=
  (firstOccurrences_sublist l).length_le

/-- The step shared by the loops: dropping the strings already seen from the
first occurrences of `x :: xs`. -/
theorem firstOccurrences_cons_filter (x : Str) (xs seen : List Str) :
    (firstOccurrences (x :: xs)).filter (fun y => decide (y ∉ seen)) =
      if x ∈ seen then (firstOccurrences xs).filter (fun y => decide (y ∉ seen))
      else x :: (firstOccurrences xs).filter (fun y => decide (y ∉ x :: seen)) := by
  by_cases hx : x ∈ seen
  · simp only [firstOccurrences, hx, if_true, List.filter_cons, not_true_eq_false,
      decide_False, Bool.false_eq_true, if_false, List.filter_filter]
    apply List.filter_congr
    intro y _
    by_cases hy : y ∈ seen
    · simp [hy]
    · have : y ≠ x := fun h => hy (h ▸ hx)
      simp [hy, this]
  · simp only [firstOccurrences, hx, if_false, List.filter_cons, not_false_eq_true,
      decide_True, if_true, List.filter_filter]
    congr 1
    apply List.filter_congr
    intro y _
    by_cases hy : y ∈ seen
    · simp [hy]
    · by_cases hyx : y = x
      · simp [hyx]
      · simp [hy, hyx]

theorem filterEditsLoop_eq (es : List Entry) :
    ∀ (seen edits : List Str),
      filterEditsLoop es seen edits =
        edits ++ (firstOccurrences ((es.map (fun e => e.Content)).filter isEditContent)).filter
          (fun y => decide (y ∉ seen)) := by
  induction es with
  | nil => intro seen edits; simp [filterEditsLoop, firstOccurrences]
  | cons e es ih =>
    intro seen edits
    by_cases hp : isEditContent e.Content = true
    · have hp2 : HasPrefix e.Content (lit "Edited ") = true ∨
          HasPrefix e.Content (lit "Wrote ") = true := by
        simpa [isEditContent] using hp
      simp only [List.map_cons, List.filter_cons, hp, if_true]
      rw [firstOccurrences_cons_filter]
      by_cases hs : e.Content ∈ seen
      · simp only [filterEditsLoop, hp2, if_true, hs, not_true_eq_false, if_false]
        exact ih seen edits
      · simp only [filterEditsLoop, hp2, if_true, hs, not_false_eq_true, if_false]
        rw [ih]
        simp
    · have hp2 : ¬ (HasPrefix e.Content (lit "Edited ") = true ∨
          HasPrefix e.Content (lit "Wrote ") = true) := by
        simpa [isEditContent] using hp
      simp only [List.map_cons, List.filter_cons, hp, filterEditsLoop, hp2, if_false]
      exact ih seen edits

theorem filterEdits_eq (entries : List Entry) :
    filterEdits entries =
      firstOccurrences ((entries.map (fun e => e.Content)).filter isEditContent) := by
  unfold filterEdits
  rw [filterEditsLoop_eq]
  simp

set_option maxRecDepth 100000

theorem filterSearchesLoop_eq (es : List Entry) :
    ∀ (seen searches : List Str),
      filterSearchesLoop es seen searches =
        searches ++ (firstOccurrences ((es.map (fun e => e.Content)).filter
            (fun c => HasPrefix c (lit "Searched for ")))).filter
          (fun y => decide (y ∉ seen)) := by
  induction es with
  | nil => intro seen searches; simp [filterSearchesLoop, firstOccurrences]
  | cons e es ih =>
    intro seen searches
    by_cases hp : HasPrefix e.Content (lit "Searched for ") = true
    · simp only [List.map_cons, List.filter_cons, hp, if_true]
      rw [firstOccurrences_cons_filter]
      by_cases hs : e.Content ∈ seen
      · simp only [filterSearchesLoop, hp, if_true, hs, not_true_eq_false, if_false]
        exact ih seen searches
      · simp only [filterSearchesLoop, hp, if_true, hs, not_false_eq_true, if_false]
        rw [ih]
        simp
    · simp only [List.map_cons, List.filter_cons, hp, filterSearchesLoop, if_false]
      exact ih seen searches

theorem filterSearches_eq (entries : List Entry) :
    filterSearches entries =
      firstOccurrences ((entries.map (fun e => e.Content)).filter
        (fun c => HasPrefix c (lit "Searched for "))) := by
  unfold filterSearches
  rw [filterSearchesLoop_eq]
  simp

theorem filterReadsLoop_eq (es : List Entry) :
    ∀ (seen reads : List Str),
      filterReadsLoop es seen reads =
        reads ++ (firstOccurrences (((es.map (fun e => e.Content)).filter
            (fun c => HasPrefix c (lit "Read "))).map
              (fun c => TrimPrefix c (lit "Read ")))).filter
          (fun y => decide (y ∉ seen)) := by
  induction es with
  | nil => intro seen reads; simp [filterReadsLoop, firstOccurrences]
  | cons e es ih =>
    intro seen reads
    by_cases hp : HasPrefix e.Content (lit "Read ") = true
    · simp only [List.map_cons, List.filter_cons, hp, if_true]
      rw [firstOccurrences_cons_filter]
      by_cases hs : TrimPrefix e.Content (lit "Read ") ∈ seen
      · simp only [filterReadsLoop, hp, if_true, hs, not_true_eq_false, if_false]
        exact ih seen reads
      · simp only [filterReadsLoop, hp, if_true, hs, not_false_eq_true, if_false]
        rw [ih]
        simp
    · simp only [List.map_cons, List.filter_cons, hp, filterReadsLoop, if_false]
      exact ih seen reads

theorem filterReads_eq (entries : List Entry) :
    filterReads entries =
      firstOccurrences (((entries.map (fun e => e.Content)).filter
        (fun c => HasPrefix c (lit "Read "))).map (fun c => TrimPrefix c (lit "Read "))) := by
  unfold filterReads
  rw [filterReadsLoop_eq]
  simp

theorem editedFilesLoop_eq (es : List Entry) :
    ∀ (seen files : List Str),
      editedFilesLoop es seen files =
        files ++ (firstOccurrences (((entriesOfType es .code_change).map
            (fun e => editedPath e.Content)).filter (fun p => decide (p ≠ [])))).filter
          (fun y => decide (y ∉ seen)) := by
  induction es with
  | nil => intro seen files; simp [editedFilesLoop, firstOccurrences, entriesOfType]
  | cons e es ih =>
    intro seen files
    by_cases ht : e.Type_ = EntryType.code_change
    · have hpath : (if HasPrefix e.Content (lit "Edited ") = true
            then TrimPrefix e.Content (lit "Edited ")
          else if HasPrefix e.Content (lit "Wrote ") = true
            then TrimPrefix e.Content (lit "Wrote ")
          else []) = editedPath e.Content := rfl
      have hcons : entriesOfType (e :: es) .code_change = e :: entriesOfType es .code_change := by
        simp [entriesOfType, ht]
      rw [hcons]
      by_cases hne : editedPath e.Content = []
      · simp only [editedFilesLoop, ht, not_true_eq_false, if_false, hpath, hne, ne_eq,
          false_and, List.map_cons, List.filter_cons, decide_False, Bool.false_eq_true]
        exact ih seen files
      · simp only [List.map_cons, List.filter_cons, ne_eq, hne, not_false_eq_true, decide_True,
          if_true]
        rw [firstOccurrences_cons_filter]
        by_cases hs : editedPath e.Content ∈ seen
        · simp only [editedFilesLoop, ht, not_true_eq_false, if_false, hpath, hs, ne_eq,
            and_false, if_true]
          exact ih seen files
        · simp only [editedFilesLoop, ht, not_true_eq_false, if_false, hpath, hs, ne_eq, hne,
            not_false_eq_true, and_self, if_true]
          rw [ih]
          simp
    · have hcons : entriesOfType (e :: es) .code_change = entriesOfType es .code_change := by
        simp [entriesOfType, ht]
      rw [hcons]
      simp only [editedFilesLoop, ne_eq, ht, not_false_eq_true, if_true]
      exact ih seen files

theorem extractEditedFiles_eq (entries : List Entry) :
    extractEditedFiles entries =
      firstOccurrences (((entriesOfType entries .code_change).map
        (fun e => editedPath e.Content)).filter (fun p => decide (p ≠ []))) := by
  unfold extractEditedFiles
  rw [editedFilesLoop_eq]
  simp

theorem bulletLoop_eq (skip : Str → Bool) (bullet : Str → Str) (keys : List Str) :
    ∀ (seen : List Str) (sb : Str),
      bulletLoop skip bullet keys seen sb =
        sb ++ ((firstOccurrences (keys.filter (fun k => !skip k))).filter
          (fun y => decide (y ∉ seen))).flatMap bullet := by
  induction keys with
  | nil => intro seen sb; simp [bulletLoop, firstOccurrences]
  | cons k ks ih =>
    intro seen sb
    by_cases hk : skip k = true
    · simp only [bulletLoop, hk, true_or, if_true, List.filter_cons, Bool.not_true,
        Bool.false_eq_true, if_false]
      exact ih seen sb
    · have hk2 : skip k = false := by simpa using hk
      simp only [List.filter_cons, hk2, Bool.not_false, if_true]
      rw [firstOccurrences_cons_filter]
      by_cases hs : k ∈ seen
      · simp only [bulletLoop, hk2, Bool.false_eq_true, false_or, hs, if_true]
        exact ih seen sb
      · simp only [bulletLoop, hk2, Bool.false_eq_true, false_or, hs, if_false]
        rw [ih]
        simp

/-! ## filterEdits -/

/-- C13: `filterEdits` returns the contents that start with `Edited ` or
`Wrote `, each distinct content once, in the order of first occurrence: the
result is the list of first occurrences of the edit contents, it has no
duplicates, it holds exactly the contents of entries that start with one of
the two prefixes, and for the entries `Edited a/b.go`, `Wrote a/b.go`,
`Edited a/b.go` it is `[Edited a/b.go, Wrote a/b.go]`. -/
theorem filterEdits_spec (entries : List Entry) :
    filterEdits entries =
      firstOccurrences ((entries.map (fun e => e.Content)).filter
        (fun c => decide (lit "Edited " <+: c ∨ lit "Wrote " <+: c))) ∧
    (filterEdits entries).Nodup ∧
    (∀ c, c ∈ filterEdits entries ↔
      (∃ e ∈ entries, e.Content = c) ∧ (lit "Edited " <+: c ∨ lit "Wrote " <+: c)) ∧
    List.Sublist (filterEdits entries) (entries.map (fun e => e.Content)) ∧
    filterEdits exampleEdits = [lit "Edited a/b.go", lit "Wrote a/b.go"] := by
  have hf : (fun c => decide (lit "Edited " <+: c ∨ lit "Wrote " <+: c)) = isEditContent := by
    funext c
    simp only [isEditContent, ← HasPrefix_iff]
    cases HasPrefix c (lit "Edited ") <;> cases HasPrefix c (lit "Wrote ") <;> rfl
  rw [hf]
  refine ⟨filterEdits_eq entries, ?_, ?_, ?_, by decide⟩
  · rw [filterEdits_eq]; exact nodup_firstOccurrences _
  · intro c
    rw [filterEdits_eq, mem_firstOccurrences, List.mem_filter, List.mem_map, ← hf]
    simp only [decide_eq_true_eq]
  · rw [filterEdits_eq]
    exact (firstOccurrences_sublist _).trans (List.filter_sublist _)

set_option maxRecDepth 100000

/-! ## The detailed rendering -/

theorem foldl_append_eq (f : Entry → Str) (l : List Entry) :
    ∀ init : Str, l.foldl (fun sb e => sb ++ f e) init = init ++ l.flatMap f := by
  induction l with
  | nil => intro init; simp
  | cons a l ih => intro init; simp [ih]

theorem foldl_append_str (f : Str → Str) (l : List Str) :
    ∀ init : Str, l.foldl (fun sb e => sb ++ f e) init = init ++ l.flatMap f := by
  induction l with
  | nil => intro init; simp
  | cons a l ih => intro init; simp [ih]

theorem bulletLoop_nodup (l : List Str) (h : l.Nodup) :
    bulletLoop (fun _ => false) bullet l [] [] = l.flatMap bullet := by
  rw [bulletLoop_eq]
  simp [firstOccurrences_of_nodup l h]

theorem detailedCodeChanges_eq (entries : List Entry) :
    detailedCodeChanges (groupByType entries) =
      subsection (lit "### Files Modified\n")
        (filterEdits (entriesOfType entries .code_change)) ++
      subsection (lit "### Key Patterns Searched\n")
        (filterSearches (entriesOfType entries .code_change)) ++
      subsection (lit "### Files Investigated\n")
        (filterReads (entriesOfType entries .code_change)) := by
  unfold detailedCodeChanges
  rw [groupByType_get]
  by_cases hn : entriesOfType entries .code_change = []
  · rw [hn]
    simp [subsection, filterEdits, filterEditsLoop, filterSearches, filterSearchesLoop,
      filterReads, filterReadsLoop]
  · simp only [hn, if_false]
    have hs : (filterSearches (entriesOfType entries .code_change)).Nodup := by
      rw [filterSearches_eq]; exact nodup_firstOccurrences _
    have hr : (filterReads (entriesOfType entries .code_change)).Nodup := by
      rw [filterReads_eq]; exact nodup_firstOccurrences _
    rw [bulletLoop_nodup _ hs, bulletLoop_nodup _ hr, foldl_append_str]
    simp only [subsection, List.nil_append, gt_iff_lt, List.length_pos, ne_eq, ite_not]

/-- Counterexample for C14: two code_change entries with the same content
`Edited a/b.go` give a Files Modified subsection with one bullet, not two. -/
theorem detailed_edits_deduplicated :
    buildDetailed repeatedEdit = lit "### Files Modified\n- Edited a/b.go\n\n" ∧
    buildDetailed repeatedEdit ≠
      lit "### Files Modified\n- Edited a/b.go\n- Edited a/b.go\n\n" := by
  decide

/-- C14, amended: in the detailed rendering edits are de-duplicated like reads
and searches.  The code-change part is made of three subsections, each absent
when it has no item: Files Modified with one bullet per distinct content that
starts with `Edited ` or `Wrote `, Key Patterns Searched with one bullet per
distinct content that starts with `Searched for `, and Files Investigated with
one bullet per distinct path of the contents that start with `Read `; each in
the order of first occurrence among the code_change entries. -/
theorem detailed_code_changes (entries : List Entry) :
    (∃ pre post, buildDetailed entries =
      pre ++ detailedCodeChanges (groupByType entries) ++ post) ∧
    detailedCodeChanges (groupByType entries) =
      subsection (lit "### Files Modified\n")
        (firstOccurrences (((entriesOfType entries .code_change).map (fun e => e.Content)).filter
          (fun c => decide (lit "Edited " <+: c ∨ lit "Wrote " <+: c)))) ++
      subsection (lit "### Key Patterns Searched\n")
        (firstOccurrences (((entriesOfType entries .code_change).map (fun e => e.Content)).filter
          (fun c => decide (lit "Searched for " <+: c)))) ++
      subsection (lit "### Files Investigated\n")
        (firstOccurrences ((((entriesOfType entries .code_change).map (fun e => e.Content)).filter
          (fun c => decide (lit "Read " <+: c))).map (fun c => c.drop 5))) := by
  have hf : (fun c => decide (lit "Edited " <+: c ∨ lit "Wrote " <+: c)) = isEditContent := by
    funext c
    simp only [isEditContent, ← HasPrefix_iff]
    cases HasPrefix c (lit "Edited ") <;> cases HasPrefix c (lit "Wrote ") <;> rfl
  have hs : (fun c => decide (lit "Searched for " <+: c)) =
      (fun c => HasPrefix c (lit "Searched for ")) := by
    funext c
    simp only [← HasPrefix_iff]
    cases HasPrefix c (lit "Searched for ") <;> rfl
  have hr : (fun c => decide (lit "Read " <+: c)) = (fun c => HasPrefix c (lit "Read ")) := by
    funext c
    simp only [← HasPrefix_iff]
    cases HasPrefix c (lit "Read ") <;> rfl
  have hd : ∀ l : List Str, (l.filter (fun c => HasPrefix c (lit "Read "))).map
      (fun c => c.drop 5) =
      (l.filter (fun c => HasPrefix c (lit "Read "))).map
        (fun c => TrimPrefix c (lit "Read ")) := by
    intro l
    apply List.map_congr_left
    intro c hc
    have := (List.mem_filter.mp hc).2
    simp only [TrimPrefix, this, if_true]
    rfl
  refine ⟨⟨detailedDecisions (groupByType entries),
    detailedCommits (groupByType entries) ++ detailedQuestions (groupByType entries) ++
      detailedNotes (groupByType entries) ++ detailedFiles (groupByType entries) ++
      detailedErrors (groupByType entries), ?_⟩, ?_⟩
  · simp [buildDetailed]
  · rw [hf, hs, hr, hd, detailedCodeChanges_eq, filterEdits_eq, filterSearches_eq,
      filterReads_eq]

set_option maxRecDepth 100000

theorem entriesOfType_idem (entries : List Entry) (t : EntryType) :
    entriesOfType (entriesOfType entries t) t = entriesOfType entries t := by
  simp [entriesOfType]

theorem entriesOfType_other (entries : List Entry) (t t' : EntryType) (h : t ≠ t') :
    entriesOfType (entriesOfType entries t) t' = [] := by
  simp only [entriesOfType, List.filter_filter, List.filter_eq_nil_iff]
  intro e _
  simp only [Bool.and_eq_true, decide_eq_true_eq, not_and]
  intro h1 h2
  exact h (h2.symm.trans h1)

/-- The group map of the entries of one type has that type as its only key. -/
theorem groupByType_ofType (entries : List Entry) (t t' : EntryType) :
    (groupByType (entriesOfType entries t)).get? t' =
      if t = t' then (groupByType entries).get? t' else none := by
  rw [groupByType_get, groupByType_get]
  by_cases h : t = t'
  · subst h
    simp [entriesOfType_idem]
  · simp [entriesOfType_other entries t t' h, h]

/-- The detailed rendering of the entries of one type is the subsection of that
type alone. -/
theorem buildDetailed_ofType (entries : List Entry) :
    buildDetailed (entriesOfType entries .decision) = detailedDecisions (groupByType entries) ∧
    buildDetailed (entriesOfType entries .code_change) =
      detailedCodeChanges (groupByType entries) ∧
    buildDetailed (entriesOfType entries .git_commit) = detailedCommits (groupByType entries) ∧
    buildDetailed (entriesOfType entries .conversation) =
      detailedQuestions (groupByType entries) ∧
    buildDetailed (entriesOfType entries .note) = detailedNotes (groupByType entries) ∧
    buildDetailed (entriesOfType entries .file) = detailedFiles (groupByType entries) ∧
    buildDetailed (entriesOfType entries .error) = detailedErrors (groupByType entries) ∧
    buildDetailed (entriesOfType entries .git_diff) = [] := by
  refine ⟨?_, ?_, ?_, ?_, ?_, ?_, ?_, ?_⟩ <;>
    simp [buildDetailed, detailedDecisions, detailedCodeChanges, detailedCommits,
      detailedQuestions, detailedNotes, detailedFiles, detailedErrors, groupByType_ofType]

/-- Counterexample for C15: for a note entry followed by a decision entry the
Key Decisions subsection comes first and the Notes subsection second, although
the note type occurs first in the entry list. -/
theorem detailed_order_not_first_seen :
    buildDetailed noteThenDecision =
      lit "### Key Decisions & Findings\n- We decided to add an index on the entries table.\n\n"
        ++ lit "### Notes\n- remember the index\n\n" := by
  decide

/-- C15, amended: the subsections of the detailed rendering appear in a fixed
order, whatever the order in which the entry types first occur: the rendering
is the concatenation of the renderings of the decision, code_change,
git_commit, conversation, note, file and error entries, in this order (each
taken in its original order); git_diff entries contribute nothing.  The
rendering of the decision entries, when there are any, starts with the Key
Decisions header, and that of the note entries with the Notes header. -/
theorem buildDetailed_fixed_order (entries : List Entry) :
    buildDetailed entries =
      buildDetailed (entriesOfType entries .decision) ++
      buildDetailed (entriesOfType entries .code_change) ++
      buildDetailed (entriesOfType entries .git_commit) ++
      buildDetailed (entriesOfType entries .conversation) ++
      buildDetailed (entriesOfType entries .note) ++
      buildDetailed (entriesOfType entries .file) ++
      buildDetailed (entriesOfType entries .error) ∧
    buildDetailed (entriesOfType entries .git_diff) = [] ∧
    (entriesOfType entries .decision ≠ [] →
      lit "### Key Decisions & Findings\n" <+:
        buildDetailed (entriesOfType entries .decision)) ∧
    (entriesOfType entries .note ≠ [] →
      lit "### Notes\n" <+: buildDetailed (entriesOfType entries .note)) := by
  obtain ⟨h1, h2, h3, h4, h5, h6, h7, h8⟩ := buildDetailed_ofType entries
  refine ⟨?_, h8, ?_, ?_⟩
  · rw [h1, h2, h3, h4, h5, h6, h7]
    rfl
  · intro hne
    rw [h1]
    unfold detailedDecisions
    rw [groupByType_get]
    simp only [hne, if_false, List.append_assoc]
    exact List.prefix_append _ _
  · intro hne
    rw [h5]
    unfold detailedNotes
    rw [groupByType_get]
    simp only [hne, if_false, List.append_assoc]
    exact List.prefix_append _ _

/-- Witness for C15 (amended): the note-then-decision list has entries of both
types, and both headers stand at the start of their parts. -/
theorem buildDetailed_fixed_order_witness :
    lit "### Key Decisions & Findings\n" <+:
      buildDetailed (entriesOfType noteThenDecision .decision) ∧
    lit "### Notes\n" <+: buildDetailed (entriesOfType noteThenDecision .note) :=
  ⟨(buildDetailed_fixed_order noteThenDecision).2.2.1 (by decide),
   (buildDetailed_fixed_order noteThenDecision).2.2.2 (by decide)⟩

set_option maxRecDepth 100000

/-! ## The raw rendering -/

/-- C16: the raw rendering is the concatenation, in entry order, of one block
`[type] c` followed by an empty line per entry, where `c` is the content when
it has at most 500 bytes and its first 500 bytes followed by `...` otherwise;
so `buildRaw(xs ++ ys) = buildRaw(xs) ++ buildRaw(ys)`. -/
theorem buildRaw_spec (entries xs ys : List Entry) :
    buildRaw entries =
      entries.flatMap (fun e =>
        lit "[" ++ e.Type_.str ++ lit "] " ++
          (if e.Content.length ≤ 500 then e.Content else e.Content.take 500 ++ lit "...") ++
          lit "\n\n") ∧
    buildRaw (xs ++ ys) = buildRaw xs ++ buildRaw ys := by
  have hb : ∀ l : List Entry, buildRaw l = l.flatMap rawBlock := by
    intro l
    unfold buildRaw
    rw [foldl_append_eq]
    rfl
  constructor
  · rw [hb]
    congr 1
    funext e
    unfold rawBlock
    by_cases h : e.Content.length ≤ 500
    · have h2 : ¬ e.Content.length > 500 := by omega
      simp [h, h2]
    · have h2 : e.Content.length > 500 := by omega
      simp [h, h2]
  · rw [hb, hb, hb, List.flatMap_append]

/-! ## The compressed rendering -/

theorem truncateLine_length (s : Str) (n : Nat) : (truncateLine s n).length ≤ n + 3 := by
  have hl : (lit "...").length = 3 := by decide
  unfold truncateLine
  split_ifs with h
  · omega
  · rw [List.length_append, List.length_take, hl]; omega

theorem findingsLoop_bound (es : List Entry) :
    ∀ (seen ds : List Str), ds.length < 5 → (∀ d ∈ ds, d.length ≤ 103) →
      (findingsLoop es seen ds).length ≤ 5 ∧ ∀ d ∈ findingsLoop es seen ds, d.length ≤ 103 := by
  induction es with
  | nil =>
    intro seen ds h1 h2
    simp only [findingsLoop]
    exact ⟨by omega, h2⟩
  | cons e es ih =>
    intro seen ds h1 h2
    simp only [findingsLoop]
    split_ifs with hskip hfull
    · exact ih seen ds h1 h2
    · have hds : ∀ d ∈ ds ++ [truncateLine (extractMeaningfulLine e.Content) 100],
          d.length ≤ 103 := by
        intro d hd
        rcases List.mem_append.mp hd with hd | hd
        · exact h2 d hd
        · rw [List.mem_singleton.mp hd]; exact truncateLine_length _ 100
      refine ⟨?_, hds⟩
      rw [List.length_append, List.length_singleton]; omega
    · have hds : ∀ d ∈ ds ++ [truncateLine (extractMeaningfulLine e.Content) 100],
          d.length ≤ 103 := by
        intro d hd
        rcases List.mem_append.mp hd with hd | hd
        · exact h2 d hd
        · rw [List.mem_singleton.mp hd]; exact truncateLine_length _ 100
      apply ih _ _ _ hds
      rw [List.length_append, List.length_singleton] at hfull ⊢
      omega

/-- C17: the decision part of the compressed rendering, present when there is a
decision entry, is `**Key Findings:** ` followed by the decision lines joined
with `; ` and an empty line; the list of decision lines has at most 5 items and
every item has at most 103 bytes. -/
theorem compressed_findings_bound (entries : List Entry) :
    compressedFindings (groupByType entries) =
      (if entriesOfType entries .decision = [] then []
       else lit "**Key Findings:** " ++
         Join (findingsLoop (entriesOfType entries .decision) [] []) (lit "; ") ++
         lit "\n\n") ∧
    (∃ post, buildCompressed entries = compressedFindings (groupByType entries) ++ post) ∧
    (findingsLoop (entriesOfType entries .decision) [] []).length ≤ 5 ∧
    ∀ d ∈ findingsLoop (entriesOfType entries .decision) [] [], d.length ≤ 103 := by
  have hb := findingsLoop_bound (entriesOfType entries .decision) [] [] (by decide)
    (by intro d hd; cases hd)
  refine ⟨?_, ?_, hb.1, hb.2⟩
  · unfold compressedFindings
    rw [groupByType_get]
    by_cases hn : entriesOfType entries .decision = []
    · simp [hn]
    · simp [hn]
  · exact ⟨compressedCodeChanges (groupByType entries) ++ (compressedGit (groupByType entries) ++
      compressedNotes (groupByType entries)), by simp only [buildCompressed, List.append_assoc]⟩

theorem compressedCodeChanges_eq (entries : List Entry) :
    compressedCodeChanges (groupByType entries) =
      if (filterEdits (entriesOfType entries .code_change)).length > 0 then
        lit "**Code Changes:** " ++
          Itoa (filterEdits (entriesOfType entries .code_change)).length ++ lit " edits — " ++
          Join (filterEdits (entriesOfType entries .code_change)) (lit ", ") ++ lit "\n\n"
      else [] := by
  unfold compressedCodeChanges
  rw [groupByType_get]
  by_cases hn : entriesOfType entries .code_change = []
  · simp [hn, filterEdits, filterEditsLoop]
  · simp [hn]

theorem isEditContent_not_read (c : Str) (h : isEditContent c = true) :
    HasPrefix c (lit "Read ") = false ∧ HasPrefix c (lit "Searched for ") = false := by
  cases c with
  | nil => exact ⟨rfl, rfl⟩
  | cons a c =>
    have ha : a = 69 ∨ a = 87 := by
      simp only [isEditContent, Bool.or_eq_true] at h
      rcases h with h | h
      · left
        have : lit "Edited " = 69 :: lit "dited " := by decide
        rw [this] at h
        simp only [HasPrefix, Bool.and_eq_true, beq_iff_eq] at h
        exact h.1
      · right
        have : lit "Wrote " = 87 :: lit "rote " := by decide
        rw [this] at h
        simp only [HasPrefix, Bool.and_eq_true, beq_iff_eq] at h
        exact h.1
    have h1 : lit "Read " = 82 :: lit "ead " := by decide
    have h2 : lit "Searched for " = 83 :: lit "earched for " := by decide
    rw [h1, h2]
    rcases ha with ha | ha <;> subst ha <;> simp [HasPrefix]

/-- C18: the compressed rendering leaves out reads and searches: removing every
code_change entry whose content starts with `Read ` or `Searched for ` does not
change it. -/
theorem buildCompressed_omits_reads (entries : List Entry) :
    buildCompressed (entries.filter (fun e =>
        !(decide (e.Type_ = EntryType.code_change) &&
          decide (lit "Read " <+: e.Content ∨ lit "Searched for " <+: e.Content)))) =
      buildCompressed entries := by
  have hf : (fun e : Entry => !(decide (e.Type_ = EntryType.code_change) &&
      decide (lit "Read " <+: e.Content ∨ lit "Searched for " <+: e.Content))) =
      (fun e => !isReadOrSearch e) := by
    funext e
    simp only [isReadOrSearch, ← HasPrefix_iff]
    cases HasPrefix e.Content (lit "Read ") <;>
      cases HasPrefix e.Content (lit "Searched for ") <;> simp
  rw [hf]
  have hother : ∀ t, t ≠ EntryType.code_change →
      entriesOfType (entries.filter (fun e => !isReadOrSearch e)) t = entriesOfType entries t := by
    intro t ht
    simp only [entriesOfType, List.filter_filter]
    apply List.filter_congr
    intro e _
    by_cases he : e.Type_ = t
    · have : e.Type_ ≠ EntryType.code_change := fun h => ht (he ▸ h)
      simp [he, isReadOrSearch, this]
      exact Or.inl ht
    · simp [he]
  have hedits : filterEdits (entriesOfType (entries.filter (fun e => !isReadOrSearch e))
      .code_change) = filterEdits (entriesOfType entries .code_change) := by
    rw [filterEdits_eq, filterEdits_eq]
    congr 1
    simp only [entriesOfType, List.filter_filter, List.filter_map]
    congr 1
    apply List.filter_congr
    intro e _
    simp only [Function.comp]
    by_cases hedit : isEditContent e.Content = true
    · obtain ⟨h1, h2⟩ := isEditContent_not_read e.Content hedit
      simp [hedit, isReadOrSearch, h1, h2]
    · simp [hedit]
  have hg : ∀ t, t ≠ EntryType.code_change →
      (groupByType (entries.filter (fun e => !isReadOrSearch e))).get? t =
        (groupByType entries).get? t := by
    intro t ht
    rw [groupByType_get, groupByType_get, hother t ht]
  unfold buildCompressed
  simp only []
  rw [compressedCodeChanges_eq, compressedCodeChanges_eq, hedits]
  unfold compressedFindings compressedGit compressedNotes
  rw [hg _ (by decide), hg _ (by decide), hg _ (by decide)]

set_option maxRecDepth 100000

/-! ## The ultra rendering -/

theorem editedPath_of_not_edit (c : Str) (h : isEditContent c = false) : editedPath c = [] := by
  simp only [isEditContent, Bool.or_eq_false_iff] at h
  simp [editedPath, h.1, h.2]

theorem nonempty_paths_eq (items : List Entry) :
    (items.map (fun e => editedPath e.Content)).filter (fun p => decide (p ≠ [])) =
      ((items.filter (fun e => isEditContent e.Content)).map
        (fun e => editedPath e.Content)).filter (fun p => decide (p ≠ [])) := by
  induction items with
  | nil => rfl
  | cons e items ih =>
    by_cases hedit : isEditContent e.Content = true
    · simp only [List.map_cons, List.filter_cons, hedit, if_true, ih]
    · have hf : isEditContent e.Content = false := by simpa using hedit
      simp only [List.map_cons, List.filter_cons, hf, editedPath_of_not_edit _ hf, ne_eq,
        not_true_eq_false, decide_False, Bool.false_eq_true, if_false, ih]

theorem extractEditedFiles_eq_distinct (entries : List Entry) :
    extractEditedFiles entries = distinctEditedPaths entries := by
  rw [extractEditedFiles_eq, nonempty_paths_eq]
  rfl

/-- Counterexample for C19: for a single code_change entry with content
`Edited ` the list of stripped paths has one element, the empty path, but the
ultra rendering has no `Files touched` part. -/
theorem ultra_skips_empty_path :
    firstOccurrences (strippedEditPaths [entryOf .code_change (lit "Edited ")]) = [[]] ∧
    buildUltra [entryOf .code_change (lit "Edited ")] = lit "Context: 1 code edits." := by
  decide

/-- C19, amended: the ultra rendering ends with ` Files touched: `, the first
min(5, n) of the n distinct non-empty edited paths joined with `, `, and `.`;
the paths are those of the code_change entries whose content starts with
`Edited ` or `Wrote `, without that prefix, empty paths left out, in the order
of first appearance; the listed paths are pairwise distinct, and the part is
absent when there is no such path. -/
theorem ultra_files (entries : List Entry) :
    buildUltra entries =
      lit "Context: " ++ Join (ultraParts (groupByType entries)) (lit ", ") ++ lit "." ++
        (if distinctEditedPaths entries = [] then []
         else lit " Files touched: " ++
           Join ((distinctEditedPaths entries).take 5) (lit ", ") ++ lit ".") ∧
    ((distinctEditedPaths entries).take 5).length = min 5 (distinctEditedPaths entries).length ∧
    ((distinctEditedPaths entries).take 5).Nodup ∧
    (distinctEditedPaths entries).Nodup ∧
    (∀ p, p ∈ distinctEditedPaths entries ↔ p ≠ [] ∧ p ∈ strippedEditPaths entries) := by
  have hn : (distinctEditedPaths entries).Nodup := nodup_firstOccurrences _
  refine ⟨?_, List.length_take _ _, hn.sublist (List.take_sublist _ _), hn, ?_⟩
  · unfold buildUltra
    simp only []
    rw [extractEditedFiles_eq_distinct]
    by_cases he : distinctEditedPaths entries = []
    · simp [he]
    · have hpos : (distinctEditedPaths entries).length > 0 := List.length_pos.mpr he
      simp only [hpos, if_true, he, if_false]
      by_cases h5 : (distinctEditedPaths entries).length > 5
      · simp only [h5, if_true]
      · simp only [h5, if_false]
        rw [List.take_of_length_le (by omega)]
  · intro p
    unfold distinctEditedPaths
    rw [mem_firstOccurrences, List.mem_filter]
    simp only [decide_eq_true_eq]
    exact And.comm

/-- The file list of the ultra rendering stops after five distinct paths. -/
theorem ultra_files_example :
    buildUltra sixEdits =
      lit "Context: 6 code edits. Files touched: a.go, b.go, c.go, d.go, e.go." := by
  decide

set_option maxRecDepth 100000

/-! ## extractUserQuery -/

theorem indexOf_some_iff (s p : Str) (i : Nat) : indexOf? s p = some i ↔ FirstAt p s i := by
  induction s generalizing i with
  | nil =>
    unfold indexOf? FirstAt
    by_cases hp : HasPrefix [] p = true
    · have hp2 := (HasPrefix_iff _ _).mp hp
      simp only [hp, if_true, Option.some.injEq, List.drop_nil, List.length_nil, Nat.le_zero]
      constructor
      · intro h; subst h
        exact ⟨hp2, rfl, fun j hj => absurd hj (Nat.not_lt_zero j)⟩
      · intro h; exact h.2.1.symm
    · have hp2 : ¬ p <+: [] := fun h => hp ((HasPrefix_iff _ _).mpr h)
      simp only [hp, List.drop_nil]
      constructor
      · intro h; cases h
      · intro h; exact absurd h.1 hp2
  | cons a s ih =>
    unfold indexOf?
    by_cases hp : HasPrefix (a :: s) p = true
    · have hp2 := (HasPrefix_iff _ _).mp hp
      simp only [hp, if_true, Option.some.injEq]
      constructor
      · intro h; subst h
        exact ⟨hp2, Nat.zero_le _, fun j hj => absurd hj (Nat.not_lt_zero j)⟩
      · intro h
        by_contra hne
        have hpos : 0 < i := Nat.pos_of_ne_zero (fun h0 => hne h0.symm)
        exact h.2.2 0 hpos hp2
    · have hp2 : ¬ p <+: a :: s := fun h => hp ((HasPrefix_iff _ _).mpr h)
      simp only [hp, Option.map_eq_some', Bool.false_eq_true, if_false]
      constructor
      · rintro ⟨k, hk, rfl⟩
        obtain ⟨h1, h2, h3⟩ := (ih k).mp hk
        refine ⟨by simpa using h1, by simpa using h2, ?_⟩
        intro j hj
        cases j with
        | zero => simpa using hp2
        | succ j => simpa using h3 j (by omega)
      · rintro ⟨h1, h2, h3⟩
        cases i with
        | zero => exact absurd (by simpa using h1) hp2
        | succ k =>
          refine ⟨k, (ih k).mpr ⟨by simpa using h1, by simpa using h2, ?_⟩, rfl⟩
          intro j hj
          simpa using h3 (j + 1) (by omega)

theorem indexOf_none_iff (s p : Str) : indexOf? s p = none ↔ ¬ p <:+: s := by
  rw [← Contains_iff]
  induction s with
  | nil =>
    unfold indexOf? Contains
    cases HasPrefix [] p <;> simp
  | cons a s ih =>
    unfold indexOf? Contains
    cases h : HasPrefix (a :: s) p
    · simp [ih]
    · simp

theorem Index_eq (s p : Str) :
    Index s p = match indexOf? s p with
      | some i => (i : Int)
      | none => -1 := rfl

/-- A closing tag cannot start inside an opening tag. -/
theorem close_not_inside_open (t : Str) (i : Nat) (h1 : 1 ≤ i) (h2 : i < 12) :
    ¬ lit "</user_query>" <+: (lit "<user_query>" ++ t).drop i := by
  have hopen : lit "<user_query>" = [60, 117, 115, 101, 114, 95, 113, 117, 101, 114, 121, 62] := by
    decide
  have hclose : lit "</user_query>" =
      [60, 47, 117, 115, 101, 114, 95, 113, 117, 101, 114, 121, 62] := by decide
  rw [hopen, hclose]
  interval_cases i <;> simp [List.cons_prefix_cons]

theorem tags_apart (s : Str) (a b : Nat) (ha : FirstAt (lit "<user_query>") s a)
    (hb : FirstAt (lit "</user_query>") s b) (hab : a < b) : a + 12 ≤ b := by
  by_contra hlt
  obtain ⟨t, ht⟩ := ha.1
  have hdrop : s.drop b = (lit "<user_query>" ++ t).drop (b - a) := by
    rw [ht, List.drop_drop]
    congr 1
    omega
  have := hb.1
  rw [hdrop] at this
  exact close_not_inside_open t (b - a) (by omega) (by omega) this

set_option maxRecDepth 100000

theorem extractUserQuery_tagged (s : Str) (a b : Nat)
    (ha : indexOf? s (lit "<user_query>") = some a)
    (hb : indexOf? s (lit "</user_query>") = some b) (hab : a < b) :
    extractUserQuery s = TrimSpace (slice s (a + 12) b) := by
  have hlen : (lit "<user_query>").length = 12 := by decide
  unfold extractUserQuery
  simp only [Index_eq, ha, hb, hlen]
  have hg : ((a : Int) ≥ 0 ∧ (b : Int) > (a : Int)) := ⟨by omega, by omega⟩
  simp only [hg, and_self, if_true, Int.toNat_ofNat]

theorem extractUserQuery_plain (s : Str)
    (h : ¬ ∃ a b, indexOf? s (lit "<user_query>") = some a ∧
      indexOf? s (lit "</user_query>") = some b ∧ a < b) :
    extractUserQuery s =
      if TrimSpace s = [] ∨ TrimSpace s = lit "yes" ∨ TrimSpace s = lit "no" ∨
          TrimSpace s = lit "ok" then []
      else TrimSpace s := by
  cases ha : indexOf? s (lit "<user_query>") with
  | none =>
    simp only [extractUserQuery, Index_eq, ha]
    have hg : ¬ ((-1 : Int) ≥ 0) := by omega
    simp only [hg, false_and, if_false]
  | some a =>
    cases hb : indexOf? s (lit "</user_query>") with
    | none =>
      simp only [extractUserQuery, Index_eq, ha, hb]
      have hg : ¬ ((-1 : Int) > (a : Int)) := by omega
      simp only [hg, and_false, if_false]
    | some b =>
      have hab : ¬ a < b := fun hab => h ⟨a, b, ha, hb, hab⟩
      simp only [extractUserQuery, Index_eq, ha, hb]
      have hg : ¬ ((b : Int) > (a : Int)) := by omega
      simp only [hg, and_false, if_false]

/-- C20: `extractUserQuery` is total and its slice is always in range: when the
first `<user_query>` is at offset `a` and the first `</user_query>` at a later
offset `b`, then `a + 12 ≤ b ≤ len(s)`, the text `s[a+12:b]` stands strictly
between the two tags, and the result is that text with white space trimmed; in
every other case the result is empty when the trimmed `s` is empty, `yes`,
`no` or `ok`, and the trimmed `s` otherwise.  `strings.Index` returns the
offset of the first occurrence, or -1 when there is none. -/
theorem extractUserQuery_spec (s : Str) :
    (∀ a b, FirstAt (lit "<user_query>") s a → FirstAt (lit "</user_query>") s b → a < b →
      a + (lit "<user_query>").length ≤ b ∧ b ≤ s.length ∧
      s = s.take a ++ lit "<user_query>" ++ slice s (a + 12) b ++ s.drop b ∧
      lit "</user_query>" <+: s.drop b ∧
      extractUserQuery s = TrimSpace (slice s (a + 12) b)) ∧
    ((¬ ∃ a b, FirstAt (lit "<user_query>") s a ∧ FirstAt (lit "</user_query>") s b ∧ a < b) →
      extractUserQuery s =
        if TrimSpace s = [] ∨ TrimSpace s = lit "yes" ∨ TrimSpace s = lit "no" ∨
            TrimSpace s = lit "ok" then []
        else TrimSpace s) ∧
    (∀ (p : Str) (i : Nat), Index s p = (i : Int) ↔ FirstAt p s i) ∧
    (∀ p, Index s p = -1 ↔ ¬ p <:+: s) := by
  refine ⟨?_, ?_, ?_, ?_⟩
  · intro a b ha hb hab
    have h12 := tags_apart s a b ha hb hab
    have hlen : (lit "<user_query>").length = 12 := by decide
    refine ⟨by rw [hlen]; exact h12, hb.2.1, ?_, hb.1,
      extractUserQuery_tagged s a b ((indexOf_some_iff _ _ _).mpr ha)
        ((indexOf_some_iff _ _ _).mpr hb) hab⟩
    obtain ⟨t, ht⟩ := ha.1
    have hbl := hb.2.1
    have ht2 : t = s.drop (a + 12) := by
      have : s.drop (a + 12) = (s.drop a).drop 12 := by rw [List.drop_drop]
      rw [this, ← ht, ← hlen, List.drop_left]
    have hmid : s.drop (a + 12) = slice s (a + 12) b ++ s.drop b := by
      unfold slice
      conv_lhs => rw [← List.take_append_drop b s]
      rw [List.drop_append_of_le_length]
      rw [List.length_take]
      omega
    calc s = s.take a ++ s.drop a := (List.take_append_drop a s).symm
      _ = s.take a ++ (lit "<user_query>" ++ t) := by rw [← ht]
      _ = s.take a ++ lit "<user_query>" ++ slice s (a + 12) b ++ s.drop b := by
          rw [ht2, hmid]; simp only [List.append_assoc]
  · intro h
    apply extractUserQuery_plain
    rintro ⟨a, b, ha, hb, hab⟩
    exact h ⟨a, b, (indexOf_some_iff _ _ _).mp ha, (indexOf_some_iff _ _ _).mp hb, hab⟩
  · intro p i
    rw [← indexOf_some_iff, Index_eq]
    cases indexOf? s p with
    | none => simp
    | some k => simp
  · intro p
    rw [← indexOf_none_iff, Index_eq]
    cases indexOf? s p with
    | none => simp
    | some k => simp

/-- Witness for C20: a query between its two tags, with text around them. -/
theorem extractUserQuery_spec_witness :
    extractUserQuery (lit "ctx <user_query> why is it slow? </user_query> end") =
      TrimSpace (slice (lit "ctx <user_query> why is it slow? </user_query> end") (4 + 12) 33) :=
  ((extractUserQuery_spec (lit "ctx <user_query> why is it slow? </user_query> end")).1 4 33
    ((indexOf_some_iff _ _ _).mp (by decide)) ((indexOf_some_iff _ _ _).mp (by decide))
    (by decide)).2.2.2.2

/-- The values of the witness: the query text, and the discarded acknowledgement. -/
theorem extractUserQuery_examples :
    extractUserQuery (lit "ctx <user_query> why is it slow? </user_query> end") =
      lit "why is it slow?" ∧
    extractUserQuery (lit "  ok \n") = [] ∧
    extractUserQuery (lit " fix the parser ") = lit "fix the parser" := by
  decide

set_option maxRecDepth 100000

/-! ## float64 rounding -/

theorem roundHalfEven_ge_floor (x : ℚ) : ⌊x⌋ ≤ roundHalfEven x := by
  unfold roundHalfEven
  simp only []
  split_ifs <;> omega

theorem roundHalfEven_le_floor_succ (x : ℚ) : roundHalfEven x ≤ ⌊x⌋ + 1 := by
  unfold roundHalfEven
  simp only []
  split_ifs <;> omega

theorem roundHalfEven_intCast (k : ℤ) : roundHalfEven (k : ℚ) = k := by
  unfold roundHalfEven
  simp

theorem roundHalfEven_between (x : ℚ) (K0 K1 : ℤ) (h0 : (K0 : ℚ) ≤ x) (h1 : x ≤ (K1 : ℚ)) :
    K0 ≤ roundHalfEven x ∧ roundHalfEven x ≤ K1 := by
  constructor
  · exact le_trans (Int.le_floor.mpr h0) (roundHalfEven_ge_floor x)
  · rcases eq_or_lt_of_le h1 with h | h
    · rw [h, roundHalfEven_intCast]
    · have : ⌊x⌋ < K1 := Int.floor_lt.mpr h
      have := roundHalfEven_le_floor_succ x
      omega

theorem floorLog2_le (x : ℚ) (hx : 0 < x) : (2 : ℚ) ^ floorLog2 x ≤ x := by
  unfold floorLog2
  simp only []
  split_ifs with h
  · exact h
  · have hnum : 0 < x.num := Rat.num_pos.mpr hx
    have hn0 : x.num.toNat ≠ 0 := by omega
    have h1 : 2 ^ Nat.log2 x.num.toNat ≤ x.num.toNat := Nat.log2_self_le hn0
    have h2 : x.den < 2 ^ (Nat.log2 x.den + 1) := Nat.lt_log2_self
    have h1q : (2 : ℚ) ^ Nat.log2 x.num.toNat ≤ (x.num : ℚ) := by
      have : ((2 ^ Nat.log2 x.num.toNat : ℕ) : ℚ) ≤ ((x.num.toNat : ℕ) : ℚ) := by
        exact_mod_cast h1
      have hc : ((x.num.toNat : ℕ) : ℚ) = (x.num : ℚ) := by
        have : ((x.num.toNat : ℕ) : ℤ) = x.num := Int.toNat_of_nonneg (le_of_lt hnum)
        exact_mod_cast this
      rw [hc] at this
      simpa using this
    have h2q : (x.den : ℚ) ≤ (2 : ℚ) ^ (Nat.log2 x.den + 1) := by
      have : ((x.den : ℕ) : ℚ) ≤ ((2 ^ (Nat.log2 x.den + 1) : ℕ) : ℚ) := by
        exact_mod_cast le_of_lt h2
      simpa using this
    have hden : (0 : ℚ) < x.den := by exact_mod_cast x.den_pos
    have hpow : (2 : ℚ) ^ ((Nat.log2 x.num.toNat : ℤ) - (Nat.log2 x.den : ℤ) - 1) =
        (2 : ℚ) ^ Nat.log2 x.num.toNat / (2 : ℚ) ^ (Nat.log2 x.den + 1) := by
      rw [show ((Nat.log2 x.num.toNat : ℤ) - (Nat.log2 x.den : ℤ) - 1) =
        (Nat.log2 x.num.toNat : ℤ) - ((Nat.log2 x.den + 1 : ℕ) : ℤ) by push_cast; ring]
      rw [zpow_sub₀ (by norm_num : (2 : ℚ) ≠ 0), zpow_natCast, zpow_natCast]
    have hp : (0 : ℚ) < (2 : ℚ) ^ (Nat.log2 x.den + 1) := by positivity
    have hp1 : (0 : ℚ) ≤ (2 : ℚ) ^ Nat.log2 x.num.toNat := by positivity
    have key : (2 : ℚ) ^ Nat.log2 x.num.toNat / (2 : ℚ) ^ (Nat.log2 x.den + 1) ≤
        (x.num : ℚ) / (x.den : ℚ) := by
      rw [div_le_div_iff₀ hp hden]
      calc (2 : ℚ) ^ Nat.log2 x.num.toNat * (x.den : ℚ)
          ≤ (2 : ℚ) ^ Nat.log2 x.num.toNat * (2 : ℚ) ^ (Nat.log2 x.den + 1) :=
            mul_le_mul_of_nonneg_left h2q hp1
        _ ≤ (x.num : ℚ) * (2 : ℚ) ^ (Nat.log2 x.den + 1) :=
            mul_le_mul_of_nonneg_right h1q (le_of_lt hp)
    rw [hpow]
    rwa [Rat.num_div_den] at key

theorem ulpExp_le (x : ℚ) (hx : 0 < x) (T : ℤ) (h : x < (2 : ℚ) ^ (T + 53)) : ulpExp x ≤ T := by
  have h1 := floorLog2_le x hx
  have h2 : (2 : ℚ) ^ floorLog2 x < (2 : ℚ) ^ (T + 53) := lt_of_le_of_lt h1 h
  have h3 : floorLog2 x < T + 53 := (zpow_lt_zpow_iff_right₀ (by norm_num : (1 : ℚ) < 2)).mp h2
  unfold ulpExp
  omega

set_option maxRecDepth 100000

theorem lt_floorLog2_succ (x : ℚ) (hx : 0 < x) : x < (2 : ℚ) ^ (floorLog2 x + 1) := by
  unfold floorLog2
  simp only []
  split_ifs with h
  · have hnum : 0 < x.num := Rat.num_pos.mpr hx
    have hn0 : x.den ≠ 0 := x.den_nz
    have h1 : x.num.toNat < 2 ^ (Nat.log2 x.num.toNat + 1) := Nat.lt_log2_self
    have h2 : 2 ^ Nat.log2 x.den ≤ x.den := Nat.log2_self_le hn0
    have h1q : (x.num : ℚ) < (2 : ℚ) ^ (Nat.log2 x.num.toNat + 1) := by
      have : ((x.num.toNat : ℕ) : ℚ) < ((2 ^ (Nat.log2 x.num.toNat + 1) : ℕ) : ℚ) := by
        exact_mod_cast h1
      have hc : ((x.num.toNat : ℕ) : ℚ) = (x.num : ℚ) := by
        have : ((x.num.toNat : ℕ) : ℤ) = x.num := Int.toNat_of_nonneg (le_of_lt hnum)
        exact_mod_cast this
      rw [hc] at this
      simpa using this
    have h2q : (2 : ℚ) ^ Nat.log2 x.den ≤ (x.den : ℚ) := by
      have : ((2 ^ Nat.log2 x.den : ℕ) : ℚ) ≤ ((x.den : ℕ) : ℚ) := by
        exact_mod_cast h2
      simpa using this
    have hden : (0 : ℚ) < x.den := by exact_mod_cast x.den_pos
    have hpow : (2 : ℚ) ^ ((Nat.log2 x.num.toNat : ℤ) - (Nat.log2 x.den : ℤ) + 1) =
        (2 : ℚ) ^ (Nat.log2 x.num.toNat + 1) / (2 : ℚ) ^ Nat.log2 x.den := by
      rw [show ((Nat.log2 x.num.toNat : ℤ) - (Nat.log2 x.den : ℤ) + 1) =
        ((Nat.log2 x.num.toNat + 1 : ℕ) : ℤ) - ((Nat.log2 x.den : ℕ) : ℤ) by push_cast; ring]
      rw [zpow_sub₀ (by norm_num : (2 : ℚ) ≠ 0), zpow_natCast, zpow_natCast]
    have hp : (0 : ℚ) < (2 : ℚ) ^ Nat.log2 x.den := by positivity
    have hp1 : (0 : ℚ) < (2 : ℚ) ^ (Nat.log2 x.num.toNat + 1) := by positivity
    have hnq : (0 : ℚ) < (x.num : ℚ) := by exact_mod_cast hnum
    have key : (x.num : ℚ) / (x.den : ℚ) <
        (2 : ℚ) ^ (Nat.log2 x.num.toNat + 1) / (2 : ℚ) ^ Nat.log2 x.den := by
      rw [div_lt_div_iff₀ hden hp]
      calc (x.num : ℚ) * (2 : ℚ) ^ Nat.log2 x.den
          ≤ (x.num : ℚ) * (x.den : ℚ) := mul_le_mul_of_nonneg_left h2q (le_of_lt hnq)
        _ < (2 : ℚ) ^ (Nat.log2 x.num.toNat + 1) * (x.den : ℚ) :=
            mul_lt_mul_of_pos_right h1q hden
    rw [hpow]
    rwa [Rat.num_div_den] at key
  · have : (Nat.log2 x.num.toNat : ℤ) - (Nat.log2 x.den : ℤ) - 1 + 1 =
        (Nat.log2 x.num.toNat : ℤ) - (Nat.log2 x.den : ℤ) := by ring
    rw [this]
    exact lt_of_not_le h

theorem two_zpow_pos (e : ℤ) : (0 : ℚ) < (2 : ℚ) ^ e := zpow_pos (by norm_num) e

/-- A dyadic rational with denominator `2^t` is a double near `x` once the unit
in the last place of `x` is at most `2^-t`; rounding does not cross it. -/
theorem roundFloat64_between (x : ℚ) (hx : 0 < x) (t : ℕ) (a b : ℤ)
    (he : ulpExp x ≤ -(t : ℤ)) (ha : (a : ℚ) / 2 ^ t ≤ x) (hb : x ≤ (b : ℚ) / 2 ^ t) :
    (a : ℚ) / 2 ^ t ≤ roundFloat64 x ∧ roundFloat64 x ≤ (b : ℚ) / 2 ^ t := by
  have hx0 : ¬ x ≤ 0 := not_le.mpr hx
  obtain ⟨n, hn⟩ : ∃ n : ℕ, ulpExp x = -(t : ℤ) - (n : ℤ) :=
    ⟨(-(t : ℤ) - ulpExp x).toNat, by
      have : (((-(t : ℤ) - ulpExp x).toNat : ℕ) : ℤ) = -(t : ℤ) - ulpExp x :=
        Int.toNat_of_nonneg (by omega)
      omega⟩
  have hu : (2 : ℚ) ^ ulpExp x = 1 / ((2 : ℚ) ^ t * (2 : ℚ) ^ n) := by
    rw [hn, show (-(t : ℤ) - (n : ℤ)) = -(((t + n : ℕ)) : ℤ) by push_cast; ring]
    rw [zpow_neg, zpow_natCast, pow_add]
    simp
  have ht : (0 : ℚ) < (2 : ℚ) ^ t := by positivity
  have hnp : (0 : ℚ) < (2 : ℚ) ^ n := by positivity
  have hdiv : x / 2 ^ ulpExp x = x * ((2 : ℚ) ^ t * (2 : ℚ) ^ n) := by
    rw [hu]; field_simp
  have h0 : ((a * 2 ^ n : ℤ) : ℚ) ≤ x / 2 ^ ulpExp x := by
    rw [hdiv]
    push_cast
    rw [div_le_iff₀ ht] at ha
    nlinarith
  have h1 : x / 2 ^ ulpExp x ≤ ((b * 2 ^ n : ℤ) : ℚ) := by
    rw [hdiv]
    push_cast
    rw [le_div_iff₀ ht] at hb
    nlinarith
  obtain ⟨r0, r1⟩ := roundHalfEven_between _ _ _ h0 h1
  have r0q : ((a * 2 ^ n : ℤ) : ℚ) ≤ (roundHalfEven (x / 2 ^ ulpExp x) : ℚ) := by
    exact_mod_cast r0
  have r1q : (roundHalfEven (x / 2 ^ ulpExp x) : ℚ) ≤ ((b * 2 ^ n : ℤ) : ℚ) := by
    exact_mod_cast r1
  push_cast at r0q r1q
  unfold roundFloat64
  simp only [hx0, if_false]
  generalize (roundHalfEven (x / 2 ^ ulpExp x) : ℚ) = m at r0q r1q ⊢
  rw [hu]
  have hm : m * (1 / ((2 : ℚ) ^ t * 2 ^ n)) * 2 ^ t = m / 2 ^ n := by
    field_simp
    ring
  constructor
  · rw [div_le_iff₀ ht, hm, le_div_iff₀ hnp]
    exact r0q
  · rw [le_div_iff₀ ht, hm, div_le_iff₀ hnp]
    exact r1q

/-- Conversion of an integer below 2^53 to float64 is exact. -/
theorem roundFloat64_natCast (n : ℕ) (h : n < 2 ^ 53) : roundFloat64 (n : ℚ) = n := by
  rcases Nat.eq_zero_or_pos n with h0 | hpos
  · subst h0; simp [roundFloat64]
  · have hx : (0 : ℚ) < n := by exact_mod_cast hpos
    have hlt : (n : ℚ) < (2 : ℚ) ^ ((0 : ℤ) + 53) := by
      rw [show ((0 : ℤ) + 53) = ((53 : ℕ) : ℤ) by norm_num, zpow_natCast]
      exact_mod_cast h
    have he := ulpExp_le (n : ℚ) hx 0 hlt
    have := roundFloat64_between (n : ℚ) hx 0 (n : ℤ) (n : ℤ) (by simpa using he)
      (by simp) (by simp)
    simp only [pow_zero, div_one, Int.cast_natCast] at this
    exact le_antisymm this.2 this.1

set_option maxRecDepth 100000

/-- Below 2^48 the doubles are at most 1/32 apart, so a quotient that stays
1/32 below the next integer is truncated to its floor. -/
theorem floor_roundFloat64 (x : ℚ) (hx : 0 < x) (k : ℤ) (hlt : x < 2 ^ 48)
    (hk : (k : ℚ) ≤ x) (hk1 : x ≤ (k : ℚ) + 31 / 32) : ⌊roundFloat64 x⌋ = k := by
  have he : ulpExp x ≤ -((5 : ℕ) : ℤ) := by
    apply ulpExp_le x hx
    rw [show (-((5 : ℕ) : ℤ) + 53) = ((48 : ℕ) : ℤ) by norm_num, zpow_natCast]
    exact hlt
  have hb := roundFloat64_between x hx 5 (32 * k) (32 * k + 31) he
    (by push_cast; linarith) (by push_cast; linarith)
  push_cast at hb
  rw [Int.floor_eq_iff]
  constructor
  · linarith [hb.1]
  · linarith [hb.2]

theorem floor_quotient_35 (chars : ℕ) (h : chars < 2 ^ 48) :
    ⌊roundFloat64 ((chars : ℚ) / (7 / 2))⌋ = ((10 * chars / 35 : ℕ) : ℤ) := by
  rcases Nat.eq_zero_or_pos chars with h0 | hpos
  · subst h0
    simp [roundFloat64]
  · have hc : (0 : ℚ) < chars := by exact_mod_cast hpos
    have hcl : (chars : ℚ) < 281474976710656 := by
      have : chars < 281474976710656 := by simpa using h
      exact_mod_cast this
    have hd : 7 * (10 * chars / 35) ≤ 2 * chars ∧ 2 * chars ≤ 7 * (10 * chars / 35) + 6 := by
      omega
    generalize 10 * chars / 35 = k at hd ⊢
    have hd1 : (7 : ℚ) * (k : ℚ) ≤ 2 * (chars : ℚ) := by exact_mod_cast hd.1
    have hd2 : (2 : ℚ) * (chars : ℚ) ≤ 7 * (k : ℚ) + 6 := by exact_mod_cast hd.2
    have hx : (chars : ℚ) / (7 / 2) = 2 * (chars : ℚ) / 7 := by field_simp; ring
    rw [hx]
    apply floor_roundFloat64
    · positivity
    · rw [div_lt_iff₀ (by norm_num : (0 : ℚ) < 7)]; norm_num; linarith
    · rw [le_div_iff₀ (by norm_num : (0 : ℚ) < 7), Int.cast_natCast]; linarith
    · rw [div_le_iff₀ (by norm_num : (0 : ℚ) < 7), Int.cast_natCast]; linarith

theorem floor_quotient_38 (chars : ℕ) (h : chars < 2 ^ 48) :
    ⌊roundFloat64 ((chars : ℚ) / (4278419646001971 / 2 ^ 50))⌋ =
      ((10 * chars / 38 : ℕ) : ℤ) := by
  rcases Nat.eq_zero_or_pos chars with h0 | hpos
  · subst h0
    simp [roundFloat64]
  · have hc : (0 : ℚ) < chars := by exact_mod_cast hpos
    have hcl : (chars : ℚ) < 281474976710656 := by
      have : chars < 281474976710656 := by simpa using h
      exact_mod_cast this
    have hd : 19 * (10 * chars / 38) ≤ 5 * chars ∧ 5 * chars ≤ 19 * (10 * chars / 38) + 18 := by
      omega
    generalize 10 * chars / 38 = k at hd ⊢
    have hd1 : (19 : ℚ) * (k : ℚ) ≤ 5 * (chars : ℚ) := by exact_mod_cast hd.1
    have hd2 : (5 : ℚ) * (chars : ℚ) ≤ 19 * (k : ℚ) + 18 := by exact_mod_cast hd.2
    have hx : (chars : ℚ) / (4278419646001971 / 2 ^ 50) =
        (chars : ℚ) * 1125899906842624 / 4278419646001971 := by
      rw [div_div_eq_mul_div]; norm_num
    rw [hx]
    have hN : (0 : ℚ) < 4278419646001971 := by norm_num
    apply floor_roundFloat64
    · positivity
    · rw [div_lt_iff₀ hN]; norm_num; linarith
    · rw [le_div_iff₀ hN, Int.cast_natCast]; linarith
    · rw [div_le_iff₀ hN, Int.cast_natCast]; linarith

theorem EstimateTokensFloat_eq (text : Str) (family : ModelFamily)
    (h : text.length < 2 ^ 48) :
    EstimateTokensFloat text family = (EstimateTokens text family : ℤ) := by
  have h53 : text.length < 2 ^ 53 := lt_trans h (by norm_num)
  unfold EstimateTokensFloat EstimateTokens
  simp only [roundFloat64_natCast _ h53]
  cases family
  · exact floor_quotient_35 _ h
  · exact floor_quotient_38 _ h
  · exact floor_quotient_35 _ h
  · exact floor_quotient_35 _ h

set_option maxRecDepth 100000

theorem roundHalfEven_mono (x y : ℚ) (h : x ≤ y) : roundHalfEven x ≤ roundHalfEven y := by
  have hf : ⌊x⌋ ≤ ⌊y⌋ := Int.floor_le_floor h
  rcases lt_or_eq_of_le hf with hlt | heq
  · have h1 := roundHalfEven_le_floor_succ x
    have h2 := roundHalfEven_ge_floor y
    omega
  · unfold roundHalfEven
    simp only []
    rw [heq]
    have hxy : x - (⌊y⌋ : ℚ) ≤ y - (⌊y⌋ : ℚ) := by linarith
    split_ifs <;> first | omega | (exfalso; linarith)

theorem roundFloat64_nonneg (x : ℚ) : 0 ≤ roundFloat64 x := by
  unfold roundFloat64
  split_ifs with h
  · exact le_refl _
  · have hx : 0 < x := not_le.mp h
    have hu := two_zpow_pos (ulpExp x)
    have h0 : ((0 : ℤ) : ℚ) ≤ x / 2 ^ ulpExp x := by
      push_cast; exact le_of_lt (div_pos hx hu)
    have := le_trans (Int.le_floor.mpr h0) (roundHalfEven_ge_floor _)
    have hq : (0 : ℚ) ≤ (roundHalfEven (x / 2 ^ ulpExp x) : ℚ) := by exact_mod_cast this
    exact mul_nonneg hq (le_of_lt hu)

theorem two_zpow_split (L : ℤ) : (2 : ℚ) ^ L = 2 ^ (52 : ℕ) * 2 ^ (L - 52) := by
  rw [← zpow_natCast, ← zpow_add₀ (by norm_num : (2 : ℚ) ≠ 0)]
  congr 1
  push_cast
  ring

/-- A positive value rounds to a double inside its own binade, bounds included. -/
theorem roundFloat64_binade (x : ℚ) (hx : 0 < x) :
    (2 : ℚ) ^ floorLog2 x ≤ roundFloat64 x ∧ roundFloat64 x ≤ (2 : ℚ) ^ (floorLog2 x + 1) := by
  have hx0 : ¬ x ≤ 0 := not_le.mpr hx
  have hu := two_zpow_pos (floorLog2 x - 52)
  have hlo := floorLog2_le x hx
  have hhi := lt_floorLog2_succ x hx
  have e1 : (2 : ℚ) ^ floorLog2 x = 4503599627370496 * 2 ^ (floorLog2 x - 52) := by
    rw [two_zpow_split]; norm_num
  have e2 : (2 : ℚ) ^ (floorLog2 x + 1) = 9007199254740992 * 2 ^ (floorLog2 x - 52) := by
    rw [zpow_add_one₀ (by norm_num : (2 : ℚ) ≠ 0), e1]; ring
  have h0 : ((4503599627370496 : ℤ) : ℚ) ≤ x / 2 ^ (floorLog2 x - 52) := by
    rw [le_div_iff₀ hu]; push_cast; rw [← e1]; exact hlo
  have h1 : x / 2 ^ (floorLog2 x - 52) ≤ ((9007199254740992 : ℤ) : ℚ) := by
    rw [div_le_iff₀ hu]; push_cast; rw [← e2]; exact le_of_lt hhi
  obtain ⟨r0, r1⟩ := roundHalfEven_between _ _ _ h0 h1
  have r0q : ((4503599627370496 : ℤ) : ℚ) ≤
      (roundHalfEven (x / 2 ^ (floorLog2 x - 52)) : ℚ) := by exact_mod_cast r0
  have r1q : (roundHalfEven (x / 2 ^ (floorLog2 x - 52)) : ℚ) ≤
      ((9007199254740992 : ℤ) : ℚ) := by exact_mod_cast r1
  push_cast at r0q r1q
  unfold roundFloat64 ulpExp
  simp only [hx0, if_false]
  rw [e1, e2]
  exact ⟨mul_le_mul_of_nonneg_right r0q (le_of_lt hu),
    mul_le_mul_of_nonneg_right r1q (le_of_lt hu)⟩

/-- Rounding to float64 is monotonic. -/
theorem roundFloat64_mono (x y : ℚ) (h : x ≤ y) : roundFloat64 x ≤ roundFloat64 y := by
  by_cases hx0 : x ≤ 0
  · have : roundFloat64 x = 0 := by simp [roundFloat64, hx0]
    rw [this]
    exact roundFloat64_nonneg y
  · have hx : 0 < x := not_le.mp hx0
    have hy : 0 < y := lt_of_lt_of_le hx h
    have hy0 : ¬ y ≤ 0 := not_le.mpr hy
    have hL : floorLog2 x ≤ floorLog2 y := by
      have h1 := floorLog2_le x hx
      have h2 := lt_floorLog2_succ y hy
      have h3 : (2 : ℚ) ^ floorLog2 x < (2 : ℚ) ^ (floorLog2 y + 1) :=
        lt_of_le_of_lt (le_trans h1 h) h2
      have := (zpow_lt_zpow_iff_right₀ (by norm_num : (1 : ℚ) < 2)).mp h3
      omega
    rcases lt_or_eq_of_le hL with hlt | heq
    · have hxb := (roundFloat64_binade x hx).2
      have hyb := (roundFloat64_binade y hy).1
      have hpow : (2 : ℚ) ^ (floorLog2 x + 1) ≤ (2 : ℚ) ^ floorLog2 y :=
        zpow_le_zpow_right₀ (by norm_num) (by omega)
      exact le_trans hxb (le_trans hpow hyb)
    · unfold roundFloat64 ulpExp
      simp only [hx0, hy0, if_false]
      rw [heq]
      have hu := two_zpow_pos (floorLog2 y - 52)
      have hdiv : x / 2 ^ (floorLog2 y - 52) ≤ y / 2 ^ (floorLog2 y - 52) :=
        div_le_div_of_nonneg_right h (le_of_lt hu)
      have := roundHalfEven_mono _ _ hdiv
      have hq : (roundHalfEven (x / 2 ^ (floorLog2 y - 52)) : ℚ) ≤
          (roundHalfEven (y / 2 ^ (floorLog2 y - 52)) : ℚ) := by exact_mod_cast this
      exact mul_le_mul_of_nonneg_right hq (le_of_lt hu)

theorem charsPerTokenFloat_pos (family : ModelFamily) : 0 < charsPerTokenFloat family := by
  cases family <;> simp only [charsPerTokenFloat] <;> positivity

theorem EstimateTokensFloat_mono (s t : Str) (family : ModelFamily)
    (h : s.length ≤ t.length) :
    EstimateTokensFloat s family ≤ EstimateTokensFloat t family := by
  unfold EstimateTokensFloat
  simp only []
  apply Int.floor_le_floor
  apply roundFloat64_mono
  apply div_le_div_of_nonneg_right _ (le_of_lt (charsPerTokenFloat_pos family))
  apply roundFloat64_mono
  exact_mod_cast h

set_option maxRecDepth 100000

theorem num_19_5 : ((19 : ℚ) / 5).num = 19 := by
  have := @Rat.num_div_eq_of_coprime 19 5 (by norm_num) (by decide)
  simpa using this

theorem den_19_5 : ((19 : ℚ) / 5).den = 5 := by
  have := @Rat.den_div_eq_of_coprime 19 5 (by norm_num) (by decide)
  have h2 : (((19 : ℚ) / 5).den : ℤ) = 5 := by simpa using this
  exact_mod_cast h2

theorem log2_19 : Nat.log2 19 = 4 := by decide!
theorem log2_5 : Nat.log2 5 = 2 := by decide!

theorem floorLog2_19_5 : floorLog2 (19 / 5) = 1 := by
  unfold floorLog2
  simp only [num_19_5, den_19_5]
  have : (19 : ℤ).toNat = 19 := rfl
  rw [this, log2_19, log2_5]
  norm_num

/-- The float64 constant 3.8: the double nearest to 19/5. -/
theorem roundFloat64_3_8 : roundFloat64 (38 / 10) = 4278419646001971 / 2 ^ 50 := by
  have h : (38 : ℚ) / 10 = 19 / 5 := by norm_num
  rw [h]
  unfold roundFloat64 ulpExp
  rw [floorLog2_19_5]
  have hx : ¬ ((19 : ℚ) / 5 ≤ 0) := by norm_num
  simp only [hx, if_false]
  have hz : (2 : ℚ) ^ ((1 : ℤ) - 52) = 1 / 2 ^ (51 : ℕ) := by
    rw [show ((1 : ℤ) - 52) = -((51 : ℕ) : ℤ) by norm_num, zpow_neg, zpow_natCast]
    simp
  rw [hz]
  have hr : roundHalfEven (19 / 5 / (1 / 2 ^ (51 : ℕ))) = 8556839292003942 := by
    unfold roundHalfEven
    have hf : ⌊(19 : ℚ) / 5 / (1 / 2 ^ (51 : ℕ))⌋ = 8556839292003942 := by
      rw [Int.floor_eq_iff]
      constructor <;> norm_num
    simp only [hf]
    norm_num
  rw [hr]
  norm_num

theorem roundFloat64_3_5 : roundFloat64 (35 / 10) = 7 / 2 := by
  have h : (35 : ℚ) / 10 = ((7 : ℤ) : ℚ) / 2 ^ (1 : ℕ) := by norm_num
  have hx : (0 : ℚ) < 35 / 10 := by norm_num
  have he : ulpExp (35 / 10) ≤ -((1 : ℕ) : ℤ) := by
    apply ulpExp_le _ hx
    norm_num
  have := roundFloat64_between (35 / 10) hx 1 7 7 he (by norm_num) (by norm_num)
  have h2 := le_antisymm this.2 this.1
  rw [h2]
  norm_num

/-- The float64 ratios are the doubles nearest to the constants 3.5 and 3.8 of
`charsPerTokenRatio`. -/
theorem charsPerTokenFloat_nearest (family : ModelFamily) :
    charsPerTokenFloat family = roundFloat64 ((charsPerTokenRatio family : ℚ) / 10) := by
  cases family
  · simp only [charsPerTokenFloat, charsPerTokenRatio]
    rw [← roundFloat64_3_5]; norm_num
  · simp only [charsPerTokenFloat, charsPerTokenRatio]
    rw [← roundFloat64_3_8]; norm_num
  · simp only [charsPerTokenFloat, charsPerTokenRatio]
    rw [← roundFloat64_3_5]; norm_num
  · simp only [charsPerTokenFloat, charsPerTokenRatio]
    rw [← roundFloat64_3_5]; norm_num

/-! ## EstimateTokens -/

/-- C11: for every text shorter than 2^48 bytes (every string that fits in a
48-bit address space) and every family, the float64 computation of
`EstimateTokens` yields the floor of the length divided by the family ratio:
`floor(10 * len / 38)` for gemini and `floor(10 * len / 35)` for claude, gpt
and any other family, which is the integer `EstimateTokens` of this
development; 350 bytes with the claude family give 100. -/
theorem EstimateTokens_floor (text : Str) (family : ModelFamily)
    (h : text.length < 2 ^ 48) :
    (family = ModelFamily.gemini →
      EstimateTokensFloat text family = ((10 * text.length / 38 : ℕ) : ℤ)) ∧
    (family ≠ ModelFamily.gemini →
      EstimateTokensFloat text family = ((10 * text.length / 35 : ℕ) : ℤ)) ∧
    EstimateTokensFloat text family = (EstimateTokens text family : ℤ) ∧
    EstimateTokensFloat (List.replicate 350 97) ModelFamily.claude = 100 := by
  have hb := EstimateTokensFloat_eq text family h
  refine ⟨?_, ?_, hb, ?_⟩
  · intro hf
    rw [hb, hf]
    rfl
  · intro hf
    rw [hb]
    cases family
    · rfl
    · exact absurd rfl hf
    · rfl
    · rfl
  · rw [EstimateTokensFloat_eq _ _ (by simp)]
    decide

/-- Witness for C11: 350 bytes, claude family. -/
theorem EstimateTokens_floor_witness :
    (List.replicate 350 97).length < 2 ^ 48 ∧
    EstimateTokensFloat (List.replicate 350 97) ModelFamily.claude =
      ((10 * (List.replicate 350 97).length / 35 : ℕ) : ℤ) :=
  ⟨by simp, (EstimateTokens_floor (List.replicate 350 97) ModelFamily.claude (by simp)).2.1
    (by decide)⟩

/-- C12: `EstimateTokens` is monotonic in the text length for a fixed family:
for `len(s) ≤ len(t)` the estimate of `s` is at most the estimate of `t`, both
in the float64 computation (for all lengths) and in its integer form. -/
theorem EstimateTokens_monotone (s t : Str) (family : ModelFamily)
    (h : s.length ≤ t.length) :
    EstimateTokensFloat s family ≤ EstimateTokensFloat t family ∧
    EstimateTokens s family ≤ EstimateTokens t family :=
  ⟨EstimateTokensFloat_mono s t family h, EstimateTokens_mono s t family h⟩

/-- Witness for C12: a 3-byte and a 7-byte text. -/
theorem EstimateTokens_monotone_witness :
    EstimateTokensFloat (lit "abc") ModelFamily.gemini ≤
        EstimateTokensFloat (lit "abcdefg") ModelFamily.gemini ∧
    EstimateTokens (lit "abc") ModelFamily.gemini ≤
        EstimateTokens (lit "abcdefg") ModelFamily.gemini :=
  EstimateTokens_monotone (lit "abc") (lit "abcdefg") ModelFamily.gemini (by decide)

set_option maxRecDepth 100000

/-- Witness for C17: of six distinct decision lines the compressed rendering
keeps five. -/
theorem compressed_findings_bound_witness :
    (findingsLoop (entriesOfType sixDecisions .decision) [] []).length ≤ 5 ∧
    findingsLoop (entriesOfType sixDecisions .decision) [] [] =
      [lit "We decided to add an index on entries.",
       lit "We decided to cache the session list.",
       lit "The root cause is a missing index.",
       lit "The fix is to add the missing index.",
       lit "We chose sqlite for the local store."] :=
  ⟨(compressed_findings_bound sixDecisions).2.2.1, by decide⟩

set_option maxRecDepth 100000

/-! ## Split and shortenPath -/

theorem Split_ne_nil (sep : Nat) (s : Str) : Split sep s ≠ [] := by
  cases s with
  | nil => simp [Split]
  | cons c s =>
    unfold Split
    split_ifs
    · simp
    · cases Split sep s <;> simp

theorem Join_cons_cons (a b : Str) (l : List Str) (sep : Str) :
    Join (a :: b :: l) sep = a ++ sep ++ Join (b :: l) sep := by
  simp [Join, List.intercalate, List.intersperse]

theorem Join_single (a : Str) (sep : Str) : Join [a] sep = a := by
  simp [Join, List.intercalate, List.intersperse]

theorem Join_Split (sep : Nat) (s : Str) : Join (Split sep s) [sep] = s := by
  induction s with
  | nil => simp [Split, Join, List.intercalate, List.intersperse]
  | cons c s ih =>
    unfold Split
    by_cases hc : c = sep
    · simp only [hc, if_true]
      cases hs : Split sep s with
      | nil => exact absurd hs (Split_ne_nil sep s)
      | cons l ls =>
        rw [Join_cons_cons, ← hs, ih]
        rfl
    · simp only [hc, if_false]
      cases hs : Split sep s with
      | nil => exact absurd hs (Split_ne_nil sep s)
      | cons l ls =>
        rw [hs] at ih
        simp only []
        cases ls with
        | nil =>
          rw [Join_single] at ih ⊢
          rw [ih]
        | cons l2 ls =>
          rw [Join_cons_cons] at ih ⊢
          rw [← ih]
          simp

theorem Split_no_sep (sep : Nat) (s : Str) : ∀ seg ∈ Split sep s, sep ∉ seg := by
  induction s with
  | nil => intro seg h; simp [Split] at h; subst h; simp
  | cons c s ih =>
    unfold Split
    by_cases hc : c = sep
    · simp only [hc, if_true, List.mem_cons]
      rintro seg (h | h)
      · subst h; simp
      · exact ih seg h
    · simp only [hc, if_false]
      cases hs : Split sep s with
      | nil => exact absurd hs (Split_ne_nil sep s)
      | cons l ls =>
        rw [hs] at ih
        simp only [List.mem_cons]
        rintro seg (h | h)
        · subst h
          have := ih l (List.mem_cons_self _ _)
          simp only [List.mem_cons, not_or]
          exact ⟨fun h => hc h.symm, this⟩
        · exact ih seg (List.mem_cons_of_mem _ h)

theorem Split_length (sep : Nat) (s : Str) : (Split sep s).length = s.count sep + 1 := by
  induction s with
  | nil => simp [Split]
  | cons c s ih =>
    simp only [Split]
    by_cases hc : c = sep
    · simp [hc, ih]
    · simp only [hc, if_false]
      cases hs : Split sep s with
      | nil => exact absurd hs (Split_ne_nil sep s)
      | cons l ls =>
        rw [hs] at ih
        simp only [List.length_cons] at ih ⊢
        rw [ih, List.count_cons_of_ne (fun h => hc h.symm)]

theorem Split_append (sep : Nat) (x y : Str) :
    Split sep (x ++ sep :: y) = Split sep x ++ Split sep y := by
  induction x with
  | nil => simp [Split]
  | cons c x ih =>
    simp only [List.cons_append, Split]
    have ih2 : Split sep (x.append (sep :: y)) = Split sep x ++ Split sep y := ih
    by_cases hc : c = sep
    · simp only [hc, if_true, List.cons_append]
      rw [ih2]
    · simp only [hc, if_false]
      rw [ih2]
      cases hs : Split sep x with
      | nil => exact absurd hs (Split_ne_nil sep x)
      | cons l ls => simp

theorem Split_of_no_sep (sep : Nat) (a : Str) (h : sep ∉ a) : Split sep a = [a] := by
  induction a with
  | nil => rfl
  | cons c a ih =>
    simp only [List.mem_cons, not_or] at h
    have hc : ¬ c = sep := fun e => h.1 e.symm
    simp only [Split, hc, if_false, ih h.2]

set_option maxRecDepth 100000

/-- C21: `shortenPath` splits the path on `/` (the segments joined with `/` give
the path back, no segment holds a `/`, there is one segment more than there
are slashes); with 4 or more segments the result is `.../` followed by the
last 3 segments joined with `/`, with 3 or fewer segments it is the path
itself.  So a path `pre/a/b/c` is shortened to `.../a/b/c`. -/
theorem shortenPath_spec (p : Str) :
    Join (Split 47 p) (lit "/") = p ∧
    (∀ seg ∈ Split 47 p, 47 ∉ seg) ∧
    (Split 47 p).length = p.count 47 + 1 ∧
    (4 ≤ (Split 47 p).length →
      shortenPath p =
        lit ".../" ++ Join ((Split 47 p).drop ((Split 47 p).length - 3)) (lit "/")) ∧
    ((Split 47 p).length ≤ 3 → shortenPath p = p) ∧
    (∀ pre a b c : Str, 47 ∉ a → 47 ∉ b → 47 ∉ c →
      shortenPath (pre ++ lit "/" ++ a ++ lit "/" ++ b ++ lit "/" ++ c) =
        lit ".../" ++ a ++ lit "/" ++ b ++ lit "/" ++ c) := by
  have hs : lit "/" = [47] := by decide
  refine ⟨?_, Split_no_sep 47 p, Split_length 47 p, ?_, ?_, ?_⟩
  · rw [hs]; exact Join_Split 47 p
  · intro h
    have : ¬ (Split 47 p).length ≤ 3 := by omega
    simp only [shortenPath, this, if_false]
  · intro h
    simp only [shortenPath, h, if_true]
  · intro pre a b c ha hb hc
    have hsplit : Split 47 (pre ++ lit "/" ++ a ++ lit "/" ++ b ++ lit "/" ++ c) =
        Split 47 pre ++ [a, b, c] := by
      rw [hs]
      have e : pre ++ [47] ++ a ++ [47] ++ b ++ [47] ++ c =
          pre ++ 47 :: (a ++ 47 :: (b ++ 47 :: c)) := by simp
      rw [e, Split_append, Split_append, Split_append, Split_of_no_sep 47 a ha,
        Split_of_no_sep 47 b hb, Split_of_no_sep 47 c hc]
      rfl
    have hpos : 0 < (Split 47 pre).length := List.length_pos.mpr (Split_ne_nil 47 pre)
    have hlen : ¬ (Split 47 pre ++ [a, b, c]).length ≤ 3 := by
      rw [List.length_append]; simp only [List.length_cons, List.length_nil]; omega
    have hdrop : (Split 47 pre ++ [a, b, c]).drop ((Split 47 pre ++ [a, b, c]).length - 3) =
        [a, b, c] := by
      have : (Split 47 pre ++ [a, b, c]).length - 3 = (Split 47 pre).length := by
        rw [List.length_append]; simp
      rw [this, List.drop_left]
    simp only [shortenPath, hsplit, hlen, if_false, hdrop]
    rw [Join_cons_cons, Join_cons_cons, Join_single]
    simp only [List.append_assoc]

/-- Witness for C21: a path with six segments. -/
theorem shortenPath_spec_witness :
    shortenPath (lit "/a/b/c/d/e.go") =
      lit ".../" ++ Join ((Split 47 (lit "/a/b/c/d/e.go")).drop
        ((Split 47 (lit "/a/b/c/d/e.go")).length - 3)) (lit "/") :=
  (shortenPath_spec (lit "/a/b/c/d/e.go")).2.2.2.1 (by decide)

/-- Values of `shortenPath` on a long and on a short path. -/
theorem shortenPath_examples :
    shortenPath (lit "/a/b/c/d/e.go") = lit ".../c/d/e.go" ∧
    shortenPath (lit "a/b/c.go") = lit "a/b/c.go" ∧
    shortenPath (lit "/b/c.go") = lit "/b/c.go" ∧
    shortenPath (lit "/a/b/c.go") = lit ".../a/b/c.go" := by
  decide

set_option maxRecDepth 100000

/-! ## summarizeToolCall -/

theorem toolFieldsStep_eq (f : ToolFields) (l : Str) :
    toolFieldsStep f l =
      { toolName := if f.toolName = [] ∧ TrimSpace l ≠ [] then TrimSpace l else f.toolName,
        filePath := if HasPrefix (TrimSpace l) (lit "path:") = true
          then TrimSpace (TrimPrefix (TrimSpace l) (lit "path:")) else f.filePath,
        pattern := if HasPrefix (TrimSpace l) (lit "pattern:") = true
          then TrimSpace (TrimPrefix (TrimSpace l) (lit "pattern:")) else f.pattern } := by
  obtain ⟨tn, fp, pt⟩ := f
  simp only [toolFieldsStep]
  split_ifs <;> rfl

theorem toolFields_foldl (lines : List Str) :
    ∀ f : ToolFields, lines.foldl toolFieldsStep f =
      { toolName := if f.toolName = [] then firstNonEmpty lines else f.toolName,
        filePath := (lastField (lit "path:") lines).getD f.filePath,
        pattern := (lastField (lit "pattern:") lines).getD f.pattern } := by
  induction lines with
  | nil =>
    intro f
    obtain ⟨tn, fp, pt⟩ := f
    simp only [firstNonEmpty, lastField, List.foldl_nil, Option.getD_none]
    by_cases h : tn = []
    · simp [h]
    · simp [h]
  | cons l ls ih =>
    intro f
    rw [List.foldl_cons, ih, toolFieldsStep_eq]
    obtain ⟨tn, fp, pt⟩ := f
    simp only [firstNonEmpty, lastField]
    congr 1
    · by_cases h1 : tn = []
      · by_cases h2 : TrimSpace l = []
        · simp [h1, h2]
        · simp [h1, h2]
      · simp [h1]
    · cases lastField (lit "path:") ls with
      | some v => simp
      | none =>
        by_cases hp : HasPrefix (TrimSpace l) (lit "path:") = true
        · simp [hp]
        · simp [hp]
    · cases lastField (lit "pattern:") ls with
      | some v => simp
      | none =>
        by_cases hq : HasPrefix (TrimSpace l) (lit "pattern:") = true
        · simp [hq]
        · simp [hq]

theorem summarizeToolCall_eq (text : Str) :
    summarizeToolCall text =
      (let toolName := firstNonEmpty (toolLines text)
       let filePath := (lastField (lit "path:") (toolLines text)).getD []
       let pattern := (lastField (lit "pattern:") (toolLines text)).getD []
       if Contains toolName (lit "StrReplace") ∧ filePath ≠ [] then
         lit "Edited " ++ shortenPath filePath
       else if Contains toolName (lit "Write") ∧ filePath ≠ [] then
         lit "Wrote " ++ shortenPath filePath
       else if Contains toolName (lit "Read") ∧ filePath ≠ [] then
         lit "Read " ++ shortenPath filePath
       else if Contains toolName (lit "Grep") ∧ pattern ≠ [] then
         if filePath ≠ [] then
           lit "Searched for \x27" ++ pattern ++ lit "\x27 in " ++ shortenPath filePath
         else lit "Searched for \x27" ++ pattern ++ lit "\x27"
       else if Contains toolName (lit "Glob") then lit "Found files matching pattern"
       else if Contains toolName (lit "ReadLints") then lit "Checked for lint errors"
       else if filePath ≠ [] then toolName ++ lit " on " ++ shortenPath filePath
       else []) := by
  have hne : ¬ (Split 10 (TrimSpace text)).length = 0 := by
    rw [List.length_eq_zero]; exact Split_ne_nil _ _
  simp only [summarizeToolCall, hne, if_false, toolFields_foldl, toolLines, if_true,
    Option.getD]


theorem overriddenPath_lines :
    toolLines overriddenPath = [lit "Foo", lit "path: a/b", lit "path:"] := by decide

/-- C22, as stated, fails: a tool call whose first `path:` line is non-empty
and whose last `path:` line is empty has a non-empty `path:` field present and
a tool name without Glob or ReadLints, yet its summary is empty. -/
theorem summarizeToolCall_last_path_wins :
    hasNonEmptyField (lit "path:") (toolLines overriddenPath) = true ∧
    summarizeToolCall overriddenPath = [] := by
  decide

/-- C22 (amended): the summary is empty exactly when the value of the last
`path:` line is empty (or there is no such line) and the tool name, the first
non-empty line, contains neither Glob nor ReadLints nor, with a non-empty last
`pattern:` value, Grep. -/
theorem summarizeToolCall_empty_iff (text : Str) :
    summarizeToolCall text = [] ↔
      ((lastField (lit "path:") (toolLines text)).getD [] = [] ∧
       Contains (firstNonEmpty (toolLines text)) (lit "Glob") = false ∧
       Contains (firstNonEmpty (toolLines text)) (lit "ReadLints") = false ∧
       ¬ (Contains (firstNonEmpty (toolLines text)) (lit "Grep") = true ∧
          (lastField (lit "pattern:") (toolLines text)).getD [] ≠ [])) := by
  rw [summarizeToolCall_eq]
  simp only []
  have e1 : ∀ x : Str, lit "Edited " ++ x ≠ [] := fun x h => by cases h
  have e2 : ∀ x : Str, lit "Wrote " ++ x ≠ [] := fun x h => by cases h
  have e3 : ∀ x : Str, lit "Read " ++ x ≠ [] := fun x h => by cases h
  have e4 : ∀ x : Str, lit "Searched for \x27" ++ x ≠ [] := fun x h => by cases h
  have e5 : lit "Found files matching pattern" ≠ [] := by decide
  have e6 : lit "Checked for lint errors" ≠ [] := by decide
  by_cases hp : (lastField (lit "path:") (toolLines text)).getD [] = []
  · by_cases hg : Contains (firstNonEmpty (toolLines text)) (lit "Grep") = true ∧
        (lastField (lit "pattern:") (toolLines text)).getD [] ≠ []
    · simp [hp, hg, e4]
    · by_cases h5 : Contains (firstNonEmpty (toolLines text)) (lit "Glob") = true
      · simp [hp, hg, h5, e5]
      · by_cases h6 : Contains (firstNonEmpty (toolLines text)) (lit "ReadLints") = true
        · simp [hp, hg, h5, h6, e6]
        · simp [hp, hg, h5, h6]
  · have e7 : ∀ x y : Str, x ++ lit " on " ++ y ≠ [] := by
      intro x y h
      have h1 : lit " on " = [] := (List.append_eq_nil.mp (List.append_eq_nil.mp h).1).2
      exact absurd h1 (by decide)
    simp only [hp, false_and, iff_false]
    split_ifs <;> first | exact e1 _ | exact e2 _ | exact e3 _ | exact e5 | exact e6 | exact e7 _ _ | (simp only [List.append_assoc]; exact e4 _)

set_option maxRecDepth 100000

/-! ## A failed read leaves the store alone -/

/-- C23: when `os.ReadFile` fails, `CaptureFromCursor` and `CaptureFile`
return the read error and the store is exactly as before: no session, no
entry, no processed-transcript row, and no statement was run. -/
theorem capture_read_failure (env : Env) (st : Store) (path project tag : Str)
    (h : env.readFile path = none) :
    CaptureFromCursor env st path project = (st, .error .readFile) ∧
    CaptureFile env st project path tag = (st, .error .readFile) := by
  constructor
  · simp only [CaptureFromCursor, h]
  · simp only [CaptureFile, h]

theorem capture_read_failure_witness :
    noFiles.readFile (lit "chat.jsonl") = none ∧
    CaptureFromCursor noFiles busyStore (lit "chat.jsonl") (lit "proj") =
      (busyStore, .error .readFile) ∧
    CaptureFile noFiles busyStore (lit "proj") (lit "chat.jsonl") (lit "t") =
      (busyStore, .error .readFile) :=
  ⟨rfl, capture_read_failure noFiles busyStore (lit "chat.jsonl") (lit "proj") (lit "t") rfl⟩

/-- With a readable file both operations do write: the session is created
and the entries follow. -/
theorem capture_readable_example :
    (CaptureFromCursor oneFile emptyStore (lit "dir/chat.txt") (lit "proj")).1.sessions =
      [{ ID := lit "0011223344556677", Source := lit "cursor", Project := lit "proj",
         Label := lit "chat.txt" }] ∧
    ((CaptureFromCursor oneFile emptyStore (lit "dir/chat.txt") (lit "proj")).1.entries.map
        (fun e => e.OrderIdx)) = [0, 1] ∧
    (CaptureFromCursor oneFile emptyStore (lit "dir/chat.txt") (lit "proj")).1.processed =
      [(lit "dir/chat.txt", lit "0011223344556677", 160)] ∧
    ((CaptureFile oneFile emptyStore (lit "proj") (lit "a.go") (lit "t")).1.entries.map
        (fun e => e.Metadata)) = [lit "\x7b\"path\":\"a.go\",\"tag\":\"t\"\x7d"] := by
  decide!

/-! ## cleanContent: whitespace normal form -/

/-- C26: for every string, `cleanContent` gives a result without three
consecutive line feeds and without leading or trailing whitespace (no
whitespace rune is a prefix or a suffix of it); the blank-line loop reaches its
fixed point within its rounds, and the empty string is cleaned to itself. -/
theorem cleanContent_normal_form (s : Str) :
    Contains (cleanContent s) [10, 10, 10] = false ∧
    ¬ ([10, 10, 10] <:+: cleanContent s) ∧
    (∀ w ∈ spaceRunes, ¬ w <+: cleanContent s) ∧
    (∀ w ∈ spaceRunes, ¬ w <:+ cleanContent s) ∧
    cleanContent [] = [] := by
  have h := cleanContent_no_triple s
  refine ⟨h, ?_, ?_, ?_, by decide⟩
  · intro hc
    rw [(Contains_iff _ _).mpr hc] at h
    exact Bool.noConfusion h
  · exact (leadingSpace_none_iff _).mp (TrimSpace_trimmed _).1
  · exact (trailingSpace_none_iff _).mp (TrimSpace_trimmed _).2

/-! ## extractEntries -/

theorem extractEntries_tool (tl : transcriptLine) (hr : tl.Role = lit "tool") :
    extractEntries tl =
      if Contains (ToLower (extractText tl)) (lit "error") = true ∨
          Contains (ToLower (extractText tl)) (lit "failed") = true ∨
          Contains (ToLower (extractText tl)) (lit "exception") = true then
        [parsedEntry.mk EntryType.error (truncate (cleanContent (extractText tl)) 500)
          (lit "\x7b\"source\":\"tool_result\"\x7d")]
      else [] := by
  have hu : ¬ lit "tool" = lit "user" := by decide
  have ha : ¬ lit "tool" = lit "assistant" := by decide
  by_cases ht : extractText tl = []
  · have hn : ¬ (Contains (ToLower (extractText tl)) (lit "error") = true ∨
         Contains (ToLower (extractText tl)) (lit "failed") = true ∨
         Contains (ToLower (extractText tl)) (lit "exception") = true) := by
      rw [ht]; decide
    rw [if_neg hn]
    unfold extractEntries
    simp only [ht, if_true]
  · by_cases hk : (Contains (ToLower (extractText tl)) (lit "error") = true ∨
         Contains (ToLower (extractText tl)) (lit "failed") = true ∨
         Contains (ToLower (extractText tl)) (lit "exception") = true)
    · rw [if_pos hk]
      unfold extractEntries
      simp only [ht, hr, hu, ha, hk, if_true, if_false]
    · rw [if_neg hk]
      unfold extractEntries
      simp only [ht, hr, hu, ha, hk, if_true, if_false]

theorem extractEntries_user (tl : transcriptLine) (hr : tl.Role = lit "user") :
    extractEntries tl =
      if extractText tl = [] ∨ extractUserQuery (cleanContent (extractText tl)) = [] then []
      else
        [parsedEntry.mk EntryType.conversation
          (truncate (extractUserQuery (cleanContent (extractText tl))) 2000)
          (lit "\x7b\"role\":\"user\"\x7d")] := by
  by_cases ht : extractText tl = []
  · unfold extractEntries
    simp only [ht, if_true, true_or]
  · by_cases hq : extractUserQuery (cleanContent (extractText tl)) = []
    · unfold extractEntries
      simp only [ht, hr, hq, if_true, if_false, or_true]
    · unfold extractEntries
      simp only [ht, hr, hq, if_true, if_false, or_self]

theorem extractEntries_assistant (tl : transcriptLine) (hr : tl.Role = lit "assistant") :
    extractEntries tl =
      if extractText tl = [] ∨ cleanContent (extractText tl) = [] ∨
          isMetaNoise (cleanContent (extractText tl)) = true then []
      else
        [parsedEntry.mk (classifyAssistantText (cleanContent (extractText tl)))
          (truncate (cleanContent (extractText tl)) 3000)
          (lit "\x7b\"role\":\"assistant\"\x7d")] := by
  have hu : ¬ lit "assistant" = lit "user" := by decide
  by_cases ht : extractText tl = []
  · unfold extractEntries
    simp only [ht, if_true, true_or]
  · by_cases hq : cleanContent (extractText tl) = [] ∨
        isMetaNoise (cleanContent (extractText tl)) = true
    · unfold extractEntries
      simp only [ht, hr, hu, hq, if_true, if_false, or_true]
    · unfold extractEntries
      simp only [ht, hr, hu, hq, if_true, if_false, or_self]

/-- C28: the text of a record is its non-empty fragments of type `text`,
joined with line feeds.  `extractEntries` returns at most one entry; none when
the role is not user, assistant or tool, or when that text is empty; and for
the role tool it returns the one error entry with the cleaned text, cut at 500
bytes, exactly when the lower-cased text contains `error`, `failed` or
`exception`, and nothing otherwise.  So `Build FAILED` gives one error entry
with that content.  For the roles user and assistant the entry is the one of
the source: the truncated query, and the truncated cleaned text unless it is
empty or noise. -/
theorem extractEntries_spec (tl : transcriptLine) :
    extractText tl =
      Join ((tl.Content.filter (fun c => decide (c.1 = lit "text" ∧ c.2 ≠ []))).map
        (fun c => c.2)) (lit "\n") ∧
    (∀ t : Str, t ≠ [] → extractText (transcriptLine.mk tl.Role [(lit "text", t)]) = t) ∧
    (extractEntries tl).length ≤ 1 ∧
    (tl.Role ≠ lit "user" ∧ tl.Role ≠ lit "assistant" ∧ tl.Role ≠ lit "tool" →
      extractEntries tl = []) ∧
    (extractText tl = [] → extractEntries tl = []) ∧
    (tl.Role = lit "tool" →
      ((Contains (ToLower (extractText tl)) (lit "error") = true ∨
        Contains (ToLower (extractText tl)) (lit "failed") = true ∨
        Contains (ToLower (extractText tl)) (lit "exception") = true) →
        extractEntries tl =
          [parsedEntry.mk EntryType.error (truncate (cleanContent (extractText tl)) 500)
            (lit "\x7b\"source\":\"tool_result\"\x7d")]) ∧
      ((∃ pe, extractEntries tl = [pe] ∧ pe.Type_ = EntryType.error) ↔
        (Contains (ToLower (extractText tl)) (lit "error") = true ∨
         Contains (ToLower (extractText tl)) (lit "failed") = true ∨
         Contains (ToLower (extractText tl)) (lit "exception") = true)) ∧
      (extractEntries tl = [] ↔
        ¬ (Contains (ToLower (extractText tl)) (lit "error") = true ∨
         Contains (ToLower (extractText tl)) (lit "failed") = true ∨
         Contains (ToLower (extractText tl)) (lit "exception") = true))) ∧
    (tl.Role = lit "user" →
      extractEntries tl =
        if extractText tl = [] ∨ extractUserQuery (cleanContent (extractText tl)) = [] then []
        else
          [parsedEntry.mk EntryType.conversation
            (truncate (extractUserQuery (cleanContent (extractText tl))) 2000)
            (lit "\x7b\"role\":\"user\"\x7d")]) ∧
    (tl.Role = lit "assistant" →
      extractEntries tl =
        if extractText tl = [] ∨ cleanContent (extractText tl) = [] ∨
            isMetaNoise (cleanContent (extractText tl)) = true then []
        else
          [parsedEntry.mk (classifyAssistantText (cleanContent (extractText tl)))
            (truncate (cleanContent (extractText tl)) 3000)
            (lit "\x7b\"role\":\"assistant\"\x7d")]) ∧
    extractText (transcriptLine.mk (lit "tool")
        [(lit "text", lit "Build"), (lit "image", lit "x"), (lit "text", []),
         (lit "text", lit "FAILED")]) = lit "Build\nFAILED" ∧
    extractEntries (transcriptLine.mk (lit "tool") [(lit "text", lit "Build FAILED")]) =
      [parsedEntry.mk EntryType.error (lit "Build FAILED")
        (lit "\x7b\"source\":\"tool_result\"\x7d")] := by
  refine ⟨rfl, ?_, ?_, ?_, ?_, ?_, extractEntries_user tl, extractEntries_assistant tl,
    by decide, by decide!⟩
  · intro t ht
    simp only [extractText, List.filter_cons, List.filter_nil, ht, ne_eq, not_false_eq_true,
      and_self, decide_True, if_true, List.map_cons, List.map_nil]
    exact Join_single t _
  · unfold extractEntries
    simp only []
    split_ifs <;> simp
  · rintro ⟨h1, h2, h3⟩
    unfold extractEntries
    simp only [h1, h2, h3, if_false, ite_self]
  · intro h
    unfold extractEntries
    simp only [h, if_true]
  · intro hr
    have e := extractEntries_tool tl hr
    by_cases hk : (Contains (ToLower (extractText tl)) (lit "error") = true ∨
         Contains (ToLower (extractText tl)) (lit "failed") = true ∨
         Contains (ToLower (extractText tl)) (lit "exception") = true)
    · rw [if_pos hk] at e
      refine ⟨fun _ => e, ?_, ?_⟩
      · exact ⟨fun _ => hk, fun _ => ⟨_, e, rfl⟩⟩
      · rw [e]
        constructor
        · intro h; cases h
        · intro h; exact absurd hk h
    · rw [if_neg hk] at e
      refine ⟨fun h => absurd h hk, ?_, ?_⟩
      · rw [e]
        constructor
        · rintro ⟨pe, h, _⟩; cases h
        · intro h; exact absurd h hk
      · exact ⟨fun _ => hk, fun _ => e⟩

/-- Witness for C28: the tool record `Build FAILED` yields its error entry. -/
theorem extractEntries_spec_witness :
    (transcriptLine.mk (lit "tool") [(lit "text", lit "Build FAILED")]).Role = lit "tool" ∧
    (Contains (ToLower (extractText
        (transcriptLine.mk (lit "tool") [(lit "text", lit "Build FAILED")]))) (lit "error")
        = true ∨
      Contains (ToLower (extractText
        (transcriptLine.mk (lit "tool") [(lit "text", lit "Build FAILED")]))) (lit "failed")
        = true ∨
      Contains (ToLower (extractText
        (transcriptLine.mk (lit "tool") [(lit "text", lit "Build FAILED")]))) (lit "exception")
        = true) ∧
    extractEntries (transcriptLine.mk (lit "tool") [(lit "text", lit "Build FAILED")]) =
      [parsedEntry.mk EntryType.error
        (truncate (cleanContent (extractText
          (transcriptLine.mk (lit "tool") [(lit "text", lit "Build FAILED")]))) 500)
        (lit "\x7b\"source\":\"tool_result\"\x7d")] :=
  ⟨rfl, by decide,
   ((extractEntries_spec
      (transcriptLine.mk (lit "tool") [(lit "text", lit "Build FAILED")])).2.2.2.2.2.1 rfl).1
      (by decide)⟩

theorem extractEntries_examples :
    extractEntries (transcriptLine.mk (lit "tool") [(lit "text", lit "Build FAILED")]) =
      [parsedEntry.mk EntryType.error (lit "Build FAILED")
        (lit "\x7b\"source\":\"tool_result\"\x7d")] ∧
    extractEntries (transcriptLine.mk (lit "tool") [(lit "text", lit "Build FA\u0130LED")]) =
      [parsedEntry.mk EntryType.error (lit "Build FA\u0130LED")
        (lit "\x7b\"source\":\"tool_result\"\x7d")] ∧
    extractEntries (transcriptLine.mk (lit "tool") [(lit "text", lit "all fine")]) = [] ∧
    extractEntries (transcriptLine.mk (lit "system") [(lit "text", lit "an error")]) = [] ∧
    extractEntries (transcriptLine.mk (lit "user") [(lit "text", lit "Why does it fail?")]) =
      [parsedEntry.mk EntryType.conversation (lit "Why does it fail?")
        (lit "\x7b\"role\":\"user\"\x7d")] := by
  decide!

/-! ## Lines before the first section marker -/

theorem scanLine_nil_of_not_marker (line : Str) (h : isMarker line = false) :
    scanLine [] line = [] := by
  simp only [isMarker, Bool.or_eq_false_iff, decide_eq_false_iff_not] at h
  obtain ⟨⟨⟨h1, h2⟩, h3⟩, h4⟩ := h
  simp only [scanLine, h1, h2, h3, h4, if_false, writeCurrent, Bool.false_eq_true]

theorem foldl_scanLine_nil (lines : List Str) (h : ∀ line ∈ lines, isMarker line = false) :
    lines.foldl scanLine [] = [] := by
  induction lines with
  | nil => rfl
  | cons l ls ih =>
    rw [List.foldl_cons, scanLine_nil_of_not_marker l (h l (List.mem_cons_self _ _))]
    exact ih (fun x hx => h x (List.mem_cons_of_mem _ hx))

/-- C29: when no line of the block `P` is a section marker, parsing `P`, a
line feed and `T` finds the sections of `T` and gives the same store and result
as parsing `T`; and parsing `P` itself, a transcript without marker line, adds
nothing to the store. -/
theorem parseTextTranscript_drops_preamble (st : Store) (sessionID P T : Str)
    (h : ∀ line ∈ Split 10 P, isMarker line = false) :
    scanSections (P ++ [10] ++ T) = scanSections T ∧
    parseTextTranscript st sessionID (P ++ [10] ++ T) = parseTextTranscript st sessionID T ∧
    scanSections P = [] ∧
    parseTextTranscript st sessionID P = (st, none) := by
  have h1 : scanSections (P ++ [10] ++ T) = scanSections T := by
    unfold scanSections
    have : P ++ [10] ++ T = P ++ 10 :: T := by simp
    rw [this, Split_append, List.foldl_append, foldl_scanLine_nil _ h]
  have h2 : scanSections P = [] := foldl_scanLine_nil _ h
  refine ⟨h1, ?_, h2, ?_⟩
  · unfold parseTextTranscript; rw [h1]
  · unfold parseTextTranscript; rw [h2]; rfl

theorem parseTextTranscript_drops_preamble_witness :
    (∀ line ∈ Split 10 preamble, isMarker line = false) ∧
    scanSections (preamble ++ [10] ++ exampleTranscript) = scanSections exampleTranscript ∧
    parseTextTranscript emptyStore (lit "s1") (preamble ++ [10] ++ exampleTranscript) =
      parseTextTranscript emptyStore (lit "s1") exampleTranscript ∧
    scanSections preamble = [] ∧
    parseTextTranscript emptyStore (lit "s1") preamble = (emptyStore, none) :=
  ⟨by decide, parseTextTranscript_drops_preamble emptyStore (lit "s1") preamble
    exampleTranscript (by decide)⟩

set_option maxRecDepth 100000

/-! ## Length limits of the entries of the free-form parser -/

theorem truncate_length_le (s : Str) (n : Nat) : (truncate s n).length ≤ n + 3 := by
  have hl : (lit "...").length = 3 := by decide
  unfold truncate
  split_ifs with h
  · omega
  · rw [List.length_append, List.length_take, hl]; omega

theorem cleanContent_length_le_self (c : Str) : (cleanContent c).length ≤ c.length := by
  refine le_trans (cleanContent_length_le c) ?_
  unfold lineNumberRe thinkingPrefixRe xmlTagsRe
  exact le_trans (deleteMatches_sublist _ _ _ _).length_le
    (le_trans (deleteMatches_sublist _ _ _ _).length_le (deleteMatches_sublist _ _ _ _).length_le)

theorem sectionEntry_bounds (sec : Section) (pe : parsedEntry) (h : sectionEntry sec = some pe) :
    (sec.role = lit "user" → pe.Type_ = EntryType.conversation ∧ pe.Content.length ≤ 2003) ∧
    (sec.role = lit "assistant" → pe.Content.length ≤ 3003) ∧
    (sec.role = lit "tool_result" → pe.Type_ = EntryType.error ∧ pe.Content.length ≤ 503) := by
  have hua : ¬ lit "user" = lit "assistant" := by decide
  have hut : ¬ lit "user" = lit "tool_result" := by decide
  have hau : ¬ lit "assistant" = lit "user" := by decide
  have hat : ¬ lit "assistant" = lit "tool_result" := by decide
  have htu : ¬ lit "tool_result" = lit "user" := by decide
  have hta : ¬ lit "tool_result" = lit "assistant" := by decide
  have htc : ¬ lit "tool_result" = lit "tool_call" := by decide
  refine ⟨?_, ?_, ?_⟩
  · intro hr
    simp only [sectionEntry, hr, if_true] at h
    split_ifs at h
    have hc := Option.some.inj h
    subst hc
    dsimp only
    exact ⟨rfl, le_trans (truncate_length_le _ _) (by norm_num)⟩
  · intro hr
    simp only [sectionEntry, hr, hau, if_true, if_false] at h
    split_ifs at h
    have hc := Option.some.inj h
    subst hc
    dsimp only
    exact le_trans (truncate_length_le _ _) (by norm_num)
  · intro hr
    simp only [sectionEntry, hr, htu, hta, htc, if_true, if_false] at h
    split_ifs at h
    have hc := Option.some.inj h
    subst hc
    dsimp only
    exact ⟨rfl, le_trans (cleanContent_length_le_self _) (le_trans (truncate_length_le _ _) (by norm_num))⟩

theorem AddEntry_entries (st : Store) (sid : Str) (t : EntryType) (c m : Str) (i : Nat) :
    (st.AddEntry sid t c m i).1.entries = st.entries ∨
    ∃ e, (st.AddEntry sid t c m i).1.entries = st.entries ++ [e] ∧
      e.parsed = parsedEntry.mk t c m := by
  unfold Store.AddEntry
  split
  · left; rfl
  · right; exact ⟨_, rfl, rfl⟩

theorem addSections_entries (sid : Str) (secs : List Section) :
    ∀ (st : Store) (idx : Nat),
      ∃ new, (addSections sid st idx secs).1.entries = st.entries ++ new ∧
        ∀ e ∈ new, ∃ sec ∈ secs, sectionEntry sec = some e.parsed := by
  induction secs with
  | nil =>
    intro st idx
    exact ⟨[], by simp [addSections], fun _ h => nomatch h⟩
  | cons sec rest ih =>
    intro st idx
    cases hs : sectionEntry sec with
    | none =>
      obtain ⟨new, h1, h2⟩ := ih st idx
      refine ⟨new, ?_, ?_⟩
      · simp only [addSections, hs]; exact h1
      · intro e he
        obtain ⟨s, hs1, hs2⟩ := h2 e he
        exact ⟨s, List.mem_cons_of_mem _ hs1, hs2⟩
    | some pe =>
      have hadd := AddEntry_entries st sid pe.Type_ pe.Content pe.Meta idx
      cases hr : st.AddEntry sid pe.Type_ pe.Content pe.Meta idx with
      | mk st1 r =>
        rw [hr] at hadd
        cases r with
        | none =>
          simp only [addSections, hs, hr]
          rcases hadd with h | ⟨e, h, hp⟩
          · exact ⟨[], by simpa using h, fun _ h => nomatch h⟩
          · refine ⟨[e], h, ?_⟩
            intro x hx
            rw [List.mem_singleton] at hx
            subst hx
            exact ⟨sec, List.mem_cons_self _ _, by rw [hs, hp]⟩
        | some e0 =>
          simp only [addSections, hs, hr]
          obtain ⟨new, h1, h2⟩ := ih st1 (idx + 1)
          have lift : ∀ e ∈ new, ∃ s ∈ sec :: rest, sectionEntry s = some e.parsed := by
            intro e he
            obtain ⟨s, hs1, hs2⟩ := h2 e he
            exact ⟨s, List.mem_cons_of_mem _ hs1, hs2⟩
          rcases hadd with h | ⟨e, h, hp⟩
          · exact ⟨new, by rw [h1]; simp only [] at h; rw [h], lift⟩
          · refine ⟨e :: new, by rw [h1]; simp only [] at h; rw [h]; simp, ?_⟩
            intro x hx
            rcases List.mem_cons.mp hx with hx | hx
            · subst hx
              exact ⟨sec, List.mem_cons_self _ _, by rw [hs, hp]⟩
            · exact lift x hx

/-- C27: whatever the store answers, the entries that `parseTextTranscript`
adds each come from a section of the transcript, and an entry from a user
section has at most 2003 bytes of content, one from an assistant section at
most 3003, and one from a tool_result section is an error entry of at most 503
bytes. -/
theorem parseTextTranscript_content_bounds (st : Store) (sessionID data : Str) :
    ∃ new, (parseTextTranscript st sessionID data).1.entries = st.entries ++ new ∧
      ∀ e ∈ new, ∃ sec ∈ scanSections data, sectionEntry sec = some e.parsed ∧
        (sec.role = lit "user" → e.Content.length ≤ 2003) ∧
        (sec.role = lit "assistant" → e.Content.length ≤ 3003) ∧
        (sec.role = lit "tool_result" →
          e.Type_ = EntryType.error ∧ e.Content.length ≤ 503) := by
  obtain ⟨new, h1, h2⟩ := addSections_entries sessionID (scanSections data) st 0
  refine ⟨new, h1, ?_⟩
  intro e he
  obtain ⟨sec, hs1, hs2⟩ := h2 e he
  have hb := sectionEntry_bounds sec e.parsed hs2
  exact ⟨sec, hs1, hs2, fun hr => (hb.1 hr).2, hb.2.1, hb.2.2⟩

/-- The limits are reached: a user section of 2001 bytes gives an entry of
2003 bytes, and a tool_result section of 501 bytes with `error` gives one of
503 bytes. -/
theorem sectionEntry_limits_reached :
    (sectionEntry (Section.mk (lit "user") (List.replicate 2001 97))).map
        (fun pe => pe.Content.length) = some 2003 ∧
    (sectionEntry (Section.mk (lit "tool_result") (lit "error" ++ List.replicate 496 97))).map
        (fun pe => pe.Content.length) = some 503 := by
  decide!

set_option maxRecDepth 100000

/-! ## The count part of the ultra rendering -/

theorem firstOccurrences_length_dedup (l : List Str) :
    (firstOccurrences l).length = l.dedup.length := by
  apply List.Perm.length_eq
  apply (List.perm_ext_iff_of_nodup (nodup_firstOccurrences l) (List.nodup_dedup l)).mpr
  intro a
  rw [mem_firstOccurrences, List.mem_dedup]

theorem filterEdits_length (entries : List Entry) :
    (filterEdits (entriesOfType entries .code_change)).length = distinctEdits entries := by
  rw [filterEdits_eq, firstOccurrences_length_dedup]
  rfl

theorem ultraParts_eq (entries : List Entry) :
    ultraParts (groupByType entries) = ultraCountItems entries := by
  unfold ultraParts ultraCountItems countItem
  simp only [groupByType_get]
  rw [← filterEdits_length]
  by_cases h1 : entriesOfType entries .decision = [] <;>
  by_cases h2 : entriesOfType entries .code_change = [] <;>
  by_cases h3 : entriesOfType entries .git_commit = [] <;>
  by_cases h4 : entriesOfType entries .note = [] <;>
  simp [h1, h2, h3, h4]

/-- C25: the ultra rendering is `Context: `, the count items joined with
`, `, a full stop, and the file part.  The count items come in the fixed order
decisions, code edits, commits, notes; an item is present exactly when an
entry of its type exists; the number is the number of those entries, except
for code edits, where it is the number of distinct code_change contents that
start with `Edited ` or `Wrote `, so that reads and searches alone give
`0 code edits`. -/
theorem buildUltra_counts (entries : List Entry) :
    ultraParts (groupByType entries) = ultraCountItems entries ∧
    buildUltra entries =
      lit "Context: " ++ Join (ultraCountItems entries) (lit ", ") ++ lit "." ++
        (if extractEditedFiles entries = [] then []
         else lit " Files touched: " ++ Join ((extractEditedFiles entries).take 5) (lit ", ") ++
           lit ".") ∧
    buildUltra [entryOf .code_change (lit "Read a.go"),
        entryOf .code_change (lit "Searched for \x27x\x27")] = lit "Context: 0 code edits." ∧
    buildUltra [entryOf .note (lit "n"), entryOf .code_change (lit "Edited a.go"),
        entryOf .decision (lit "d"), entryOf .code_change (lit "Edited a.go"),
        entryOf .git_commit (lit "c"), entryOf .note (lit "m")] =
      lit "Context: 1 decisions, 1 code edits, 1 commits, 2 notes. Files touched: a.go." := by
  refine ⟨ultraParts_eq entries, ?_, by decide!, by decide!⟩
  unfold buildUltra
  simp only [ultraParts_eq]
  congr 1
  by_cases h : extractEditedFiles entries = []
  · simp [h]
  · have hl : (extractEditedFiles entries).length > 0 := List.length_pos.mpr h
    simp only [h, hl, if_true, if_false]
    by_cases h5 : (extractEditedFiles entries).length > 5
    · simp only [h5, if_true]
    · simp only [h5, if_false]
      rw [List.take_of_length_le (by omega)]

/-! ## The key findings of the compressed rendering -/

theorem decisionLines_cons (e : Entry) (es : List Entry) :
    decisionLines (e :: es) =
      if extractMeaningfulLine e.Content = [] then decisionLines es
      else extractMeaningfulLine e.Content :: decisionLines es := by
  unfold decisionLines
  by_cases h : extractMeaningfulLine e.Content = []
  · simp [h]
  · simp [h]

theorem findingsLoop_eq (es : List Entry) :
    ∀ (seen ds : List Str), ds.length < 5 →
      findingsLoop es seen ds =
        ds ++ (((firstOccurrences (decisionLines es)).filter
          (fun y => decide (y ∉ seen))).take (5 - ds.length)).map
            (fun l => truncateLine l 100) := by
  induction es with
  | nil => intro seen ds _; simp [findingsLoop, decisionLines, firstOccurrences]
  | cons e es ih =>
    intro seen ds hd
    rw [decisionLines_cons]
    by_cases h : extractMeaningfulLine e.Content = []
    · simp only [findingsLoop, h, true_or, if_true]
      exact ih seen ds hd
    · simp only [h, if_false]
      rw [firstOccurrences_cons_filter]
      by_cases hs : extractMeaningfulLine e.Content ∈ seen
      · simp only [findingsLoop, h, hs, or_true, if_true]
        exact ih seen ds hd
      · simp only [findingsLoop, h, hs, or_false, if_false]
        have h5 : 5 - ds.length = (5 - (ds.length + 1)) + 1 := by omega
        by_cases hl : (ds ++ [truncateLine (extractMeaningfulLine e.Content) 100]).length ≥ 5
        · have h4 : 5 - ds.length = 1 := by
            rw [List.length_append] at hl
            simp only [List.length_cons, List.length_nil] at hl
            omega
          simp only [hl, if_true, h4, List.take_succ_cons, List.take_zero, List.map_cons,
            List.map_nil]
        · simp only [hl, if_false]
          have hlt : (ds ++ [truncateLine (extractMeaningfulLine e.Content) 100]).length < 5 := by
            omega
          rw [ih _ _ hlt, h5, List.take_succ_cons, List.map_cons]
          simp only [List.length_append, List.length_cons, List.length_nil, List.append_assoc,
            List.singleton_append, zero_add]

theorem truncateLine_of_short (l : Str) (n : Nat) (h : l.length ≤ n) : truncateLine l n = l := by
  unfold truncateLine
  rw [if_pos h]

/-- C24 as stated fails: two decisions whose meaningful lines differ only
after the first 100 bytes are both kept, and after truncation to 100 bytes the
two emitted items are equal. -/
theorem compressed_findings_repeat :
    extractMeaningfulLine (List.replicate 100 97 ++ lit "b") ≠
      extractMeaningfulLine (List.replicate 100 97 ++ lit "c") ∧
    findingsLoop twinDecisions [] [] =
      [List.replicate 100 97 ++ lit "...", List.replicate 100 97 ++ lit "..."] ∧
    buildCompressed twinDecisions =
      lit "**Key Findings:** " ++ List.replicate 100 97 ++ lit "...; " ++
        List.replicate 100 97 ++ lit "...\n\n" := by
  decide!

/-- C24 (amended): the key findings are the first five distinct meaningful
lines of the decision entries, in the order of first occurrence, each
truncated to 100 bytes: the lines are pairwise distinct before truncation, and
the emitted items are pairwise distinct when no line is longer than 100
bytes. -/
theorem compressed_findings_distinct_lines (entries : List Entry) :
    compressedFindings (groupByType entries) =
      (if entriesOfType entries .decision = [] then []
       else lit "**Key Findings:** " ++
         Join (((firstOccurrences (decisionLines (entriesOfType entries .decision))).take 5).map
           (fun l => truncateLine l 100)) (lit "; ") ++ lit "\n\n") ∧
    findingsLoop (entriesOfType entries .decision) [] [] =
      ((firstOccurrences (decisionLines (entriesOfType entries .decision))).take 5).map
        (fun l => truncateLine l 100) ∧
    ((firstOccurrences (decisionLines (entriesOfType entries .decision))).take 5).Nodup ∧
    ((∀ l ∈ decisionLines (entriesOfType entries .decision), l.length ≤ 100) →
      (findingsLoop (entriesOfType entries .decision) [] []).Nodup) := by
  have hloop : findingsLoop (entriesOfType entries .decision) [] [] =
      ((firstOccurrences (decisionLines (entriesOfType entries .decision))).take 5).map
        (fun l => truncateLine l 100) := by
    rw [findingsLoop_eq _ [] [] (by decide)]
    simp
  have hnd : ((firstOccurrences (decisionLines (entriesOfType entries .decision))).take 5).Nodup :=
    (nodup_firstOccurrences _).sublist (List.take_sublist _ _)
  refine ⟨?_, hloop, hnd, ?_⟩
  · unfold compressedFindings
    rw [groupByType_get]
    by_cases h : entriesOfType entries .decision = []
    · simp only [h, if_true]
    · simp only [h, if_false, hloop]
  · intro hshort
    rw [hloop]
    have hid : ((firstOccurrences (decisionLines (entriesOfType entries .decision))).take 5).map
        (fun l => truncateLine l 100) =
        (firstOccurrences (decisionLines (entriesOfType entries .decision))).take 5 := by
      conv_rhs => rw [← List.map_id
        ((firstOccurrences (decisionLines (entriesOfType entries .decision))).take 5)]
      apply List.map_congr_left
      intro l hl
      have hm : l ∈ decisionLines (entriesOfType entries .decision) :=
        (mem_firstOccurrences _ _).mp ((List.take_sublist _ _).subset hl)
      exact truncateLine_of_short l 100 (hshort l hm)
    rw [hid]
    exact hnd

theorem compressed_findings_distinct_lines_witness :
    (∀ l ∈ decisionLines (entriesOfType
        [entryOf .decision (lit "We decided to add an index"),
         entryOf .decision (lit "We decided to add an index"),
         entryOf .decision (lit "The root cause is a missing index")] .decision),
      l.length ≤ 100) ∧
    (findingsLoop (entriesOfType
        [entryOf .decision (lit "We decided to add an index"),
         entryOf .decision (lit "We decided to add an index"),
         entryOf .decision (lit "The root cause is a missing index")] .decision) [] []).Nodup :=
  ⟨by decide!, (compressed_findings_distinct_lines
        [entryOf .decision (lit "We decided to add an index"),
         entryOf .decision (lit "We decided to add an index"),
         entryOf .decision (lit "The root cause is a missing index")]).2.2.2 (by decide!)⟩

set_option maxRecDepth 100000

/-! ## ToLower: decoding, and lower-casing a text cut at a byte offset -/

theorem infix_of_infix_concat (p y : Str) (c : Nat) (hp : p ≠ [])
    (hl : p.getLast? ≠ some c) (h : p <:+: y ++ [c]) : p <:+: y := by
  obtain ⟨s, t, e⟩ := h
  rcases List.eq_nil_or_concat t with ht | ⟨t1, c1, ht⟩
  · subst ht
    rw [List.append_nil] at e
    have h1 : (s ++ p).getLast? = (y ++ [c]).getLast? := by rw [e]
    rw [List.getLast?_append_of_ne_nil _ hp, List.getLast?_append_of_ne_nil _ (by simp)] at h1
    exact absurd h1 hl
  · subst ht
    rw [List.concat_eq_append] at e
    have e2 : (s ++ p ++ t1) ++ [c1] = y ++ [c] := by
      rw [← e]; simp only [List.append_assoc]
    have := List.append_inj_left' e2 rfl
    exact ⟨s, t1, this⟩

theorem infix_of_infix_dots (p x : Str) (hp : p ≠ []) (hl : p.getLast? ≠ some 46)
    (h : p <:+: x ++ lit "...") : p <:+: x := by
  have hd : lit "..." = [46] ++ [46] ++ [46] := by decide
  rw [hd, ← List.append_assoc, ← List.append_assoc] at h
  exact infix_of_infix_concat p _ 46 hp hl
    (infix_of_infix_concat p _ 46 hp hl (infix_of_infix_concat p _ 46 hp hl h))

/-- An ASCII phrase that lies in `y ++ junk`, where `junk` has no ASCII byte,
lies in `y`. -/
theorem infix_of_infix_high (p : Str) (hp : p ≠ []) (ha : ∀ b ∈ p, b < 128) :
    ∀ (junk y : Str), (∀ b ∈ junk, 128 ≤ b) → p <:+: y ++ junk → p <:+: y := by
  intro junk
  induction junk using List.reverseRecOn with
  | nil => intro y _ h; simpa using h
  | append_singleton junk c ih =>
    intro y hj h
    have hc : 128 ≤ c := hj c (by simp)
    have hl : p.getLast? ≠ some c := by
      intro e
      have hm : c ∈ p := List.mem_of_getLast?_eq_some e
      have := ha c hm
      omega
    rw [← List.append_assoc] at h
    exact ih y (fun b hb => hj b (by simp [hb])) (infix_of_infix_concat p _ c hp hl h)

theorem lowerFrom_drop (s : Str) : ∀ k, lowerFrom k s = lowerFrom 0 (s.drop k) := by
  induction s with
  | nil => intro k; cases k <;> simp [lowerFrom]
  | cons c s ih =>
    intro k
    cases k with
    | zero => rfl
    | succ k =>
      simp only [lowerFrom, List.drop_succ_cons]
      exact ih k

theorem decodeRune_ascii (c : Nat) (t : Str) (h : c < 128) : decodeRune (c :: t) = (c, 1) := by
  simp only [decodeRune, h, if_true]

theorem decodeRune_nolead (c : Nat) (t : Str) (h : ¬ c < 128) (hl : leadInfo c = none) :
    decodeRune (c :: t) = (RuneError, 1) := by
  simp only [decodeRune, h, if_false, hl]

theorem decodeRune_lead (c : Nat) (t : Str) (sz lo hi : Nat) (h : ¬ c < 128)
    (hl : leadInfo c = some (sz, lo, hi)) :
    decodeRune (c :: t) =
      if (t.take (sz - 1)).length = sz - 1 ∧ validTail lo hi (t.take (sz - 1)) = true then
        (runeValue c sz (t.take (sz - 1)), sz)
      else (RuneError, 1) := by
  simp only [decodeRune, h, if_false, hl]

theorem leadInfo_bounds (c sz lo hi : Nat) (h : leadInfo c = some (sz, lo, hi)) :
    2 ≤ sz ∧ sz ≤ 4 ∧ 128 ≤ lo ∧ hi ≤ 191 := by
  unfold leadInfo at h
  split_ifs at h <;>
    (have e := Option.some.inj h
     simp only [Prod.mk.injEq] at e
     obtain ⟨e1, e2, e3⟩ := e
     subst e1 e2 e3
     exact ⟨by norm_num, by norm_num, by norm_num, by norm_num⟩)

theorem leadInfo_none_of_cont (b : Nat) (h : b ≤ 191) : leadInfo b = none := by
  unfold leadInfo
  have h1 : ¬ (194 ≤ b ∧ b ≤ 223) := by omega
  have h2 : ¬ b = 224 := by omega
  have h3 : ¬ (225 ≤ b ∧ b ≤ 236) := by omega
  have h4 : ¬ b = 237 := by omega
  have h5 : ¬ (238 ≤ b ∧ b ≤ 239) := by omega
  have h6 : ¬ b = 240 := by omega
  have h7 : ¬ (241 ≤ b ∧ b ≤ 243) := by omega
  have h8 : ¬ b = 244 := by omega
  simp only [h1, h2, h3, h4, h5, h6, h7, h8, if_false]

theorem validTail_bytes (lo hi : Nat) (tail : Str) (hlo : 128 ≤ lo) (hhi : hi ≤ 191)
    (h : validTail lo hi tail = true) : ∀ b ∈ tail, 128 ≤ b ∧ b ≤ 191 := by
  cases tail with
  | nil => intro b hb; exact absurd hb (List.not_mem_nil _)
  | cons s1 rest =>
    simp only [validTail, Bool.and_eq_true, decide_eq_true_eq, List.all_eq_true] at h
    intro b hb
    rcases List.mem_cons.mp hb with e | e
    · subst e; omega
    · exact h.2 b e

theorem decodeRune_width (c : Nat) (t : Str) :
    1 ≤ (decodeRune (c :: t)).2 ∧ (decodeRune (c :: t)).2 ≤ 4 ∧
      (decodeRune (c :: t)).2 ≤ t.length + 1 := by
  by_cases h : c < 128
  · rw [decodeRune_ascii c t h]; simp
  · cases hl : leadInfo c with
    | none => rw [decodeRune_nolead c t h hl]; simp
    | some v =>
      obtain ⟨sz, lo, hi⟩ := v
      have hb := leadInfo_bounds c sz lo hi hl
      rw [decodeRune_lead c t sz lo hi h hl]
      split_ifs with hv
      · have hlen := hv.1
        rw [List.length_take] at hlen
        simp only []
        omega
      · simp

theorem ToLower_cons (c : Nat) (t : Str) :
    lowerFrom 0 (c :: t) =
      lowerRuneAt (c :: t) ++ lowerFrom 0 (t.drop ((decodeRune (c :: t)).2 - 1)) := by
  simp only [lowerFrom]
  rw [lowerFrom_drop]

theorem encodeRune_ne_nil (r : Nat) : encodeRune r ≠ [] := by
  unfold encodeRune
  split_ifs <;> simp

theorem lowerRuneAt_length_pos (s : Str) : 1 ≤ (lowerRuneAt s).length := by
  have h : lowerRuneAt s ≠ [] := by
    unfold lowerRuneAt writeRune
    split_ifs <;> exact encodeRune_ne_nil _
  exact List.length_pos.mpr h

theorem lowerRuneAt_of_error (s : Str) (h : decodeRune s = (RuneError, 1)) :
    lowerRuneAt s = [239, 191, 189] := by
  unfold lowerRuneAt
  rw [h]
  decide

/-- A run of bytes that all lie above 127, taken from the start of `A ++ d`
where `d` is ASCII, lies within `A`. -/
theorem take_append_high (A d : Str) (k : Nat) (hd : ∀ b ∈ d, b < 128)
    (hlen : ((A ++ d).take k).length = k) (hh : ∀ b ∈ (A ++ d).take k, 128 ≤ b) :
    k ≤ A.length := by
  by_contra hc
  have hk : A.length < k := by omega
  rw [List.take_append_eq_append_take] at hlen hh
  rw [List.length_append, List.length_take, List.length_take] at hlen
  have hne : d.take (k - A.length) ≠ [] := by
    intro e
    have : (d.take (k - A.length)).length = 0 := by rw [e]; rfl
    rw [List.length_take] at this
    omega
  obtain ⟨b, rest, e⟩ := List.exists_cons_of_ne_nil hne
  have hb1 : b ∈ d.take (k - A.length) := by rw [e]; exact List.mem_cons_self _ _
  have hb2 : b < 128 := hd b (List.mem_of_mem_take hb1)
  have hb3 : 128 ≤ b := hh b (List.mem_append_right _ hb1)
  omega

theorem tail_cut (t d : Str) (n k : Nat) (h : k ≤ (t.take n).length) :
    (t.take n ++ d).take k = t.take k := by
  rw [List.take_append_of_le_length h, List.take_take]
  rw [List.length_take] at h
  congr 1
  omega

theorem decodeRune_cut (c : Nat) (t d : Str) (n : Nat) (hd : ∀ b ∈ d, b < 128)
    (hw : (decodeRune (c :: t)).2 ≤ n + 1) :
    decodeRune (c :: (t.take n ++ d)) = decodeRune (c :: t) := by
  by_cases h : c < 128
  · rw [decodeRune_ascii c _ h, decodeRune_ascii c _ h]
  · cases hl : leadInfo c with
    | none => rw [decodeRune_nolead c _ h hl, decodeRune_nolead c _ h hl]
    | some v =>
      obtain ⟨sz, lo, hi⟩ := v
      have hb := leadInfo_bounds c sz lo hi hl
      rw [decodeRune_lead c t sz lo hi h hl] at hw
      rw [decodeRune_lead c _ sz lo hi h hl, decodeRune_lead c t sz lo hi h hl]
      by_cases hv : (t.take (sz - 1)).length = sz - 1 ∧ validTail lo hi (t.take (sz - 1)) = true
      · rw [if_pos hv] at hw
        simp only [] at hw
        have hlen := hv.1
        rw [List.length_take] at hlen
        have hk : sz - 1 ≤ (t.take n).length := by rw [List.length_take]; omega
        rw [tail_cut t d n (sz - 1) hk]
      · have hv2 : ¬ (((t.take n ++ d).take (sz - 1)).length = sz - 1 ∧
            validTail lo hi ((t.take n ++ d).take (sz - 1)) = true) := by
          intro hv2
          have hbytes := validTail_bytes lo hi _ hb.2.2.1 hb.2.2.2 hv2.2
          have hk := take_append_high (t.take n) d (sz - 1) hd hv2.1 (fun b hb => (hbytes b hb).1)
          rw [tail_cut t d n (sz - 1) hk] at hv2
          exact hv hv2
        rw [if_neg hv, if_neg hv2]

theorem decodeRune_partial (c : Nat) (t d : Str) (n : Nat) (hd : ∀ b ∈ d, b < 128)
    (hw : n + 1 < (decodeRune (c :: t)).2) :
    decodeRune (c :: (t.take n ++ d)) = (RuneError, 1) ∧ ∀ b ∈ t.take n, 128 ≤ b ∧ b ≤ 191 := by
  by_cases h : c < 128
  · rw [decodeRune_ascii c _ h] at hw; simp only [] at hw; omega
  · cases hl : leadInfo c with
    | none => rw [decodeRune_nolead c _ h hl] at hw; simp only [] at hw; omega
    | some v =>
      obtain ⟨sz, lo, hi⟩ := v
      have hb := leadInfo_bounds c sz lo hi hl
      rw [decodeRune_lead c t sz lo hi h hl] at hw
      by_cases hv : (t.take (sz - 1)).length = sz - 1 ∧ validTail lo hi (t.take (sz - 1)) = true
      · rw [if_pos hv] at hw
        simp only [] at hw
        constructor
        · rw [decodeRune_lead c _ sz lo hi h hl]
          have hv2 : ¬ (((t.take n ++ d).take (sz - 1)).length = sz - 1 ∧
              validTail lo hi ((t.take n ++ d).take (sz - 1)) = true) := by
            intro hv2
            have hbytes := validTail_bytes lo hi _ hb.2.2.1 hb.2.2.2 hv2.2
            have hk := take_append_high (t.take n) d (sz - 1) hd hv2.1
              (fun b hb => (hbytes b hb).1)
            rw [List.length_take] at hk
            omega
          rw [if_neg hv2]
        · intro b hb1
          have hbytes := validTail_bytes lo hi _ hb.2.2.1 hb.2.2.2 hv.2
          have e : t.take n = (t.take (sz - 1)).take n := by
            rw [List.take_take]; congr 1; omega
          rw [e] at hb1
          exact hbytes b (List.mem_of_mem_take hb1)
      · rw [if_neg hv] at hw; simp only [] at hw; omega

theorem lowerFrom_conts (rest : Str) :
    ∀ conts : Str, (∀ b ∈ conts, 128 ≤ b ∧ b ≤ 191) →
      ∃ junk, lowerFrom 0 (conts ++ rest) = junk ++ lowerFrom 0 rest ∧ ∀ b ∈ junk, 128 ≤ b := by
  intro conts
  induction conts with
  | nil => intro _; exact ⟨[], rfl, fun _ h => absurd h (List.not_mem_nil _)⟩
  | cons b conts ih =>
    intro hc
    have hb := hc b (List.mem_cons_self _ _)
    obtain ⟨junk, e, hj⟩ := ih (fun x hx => hc x (List.mem_cons_of_mem _ hx))
    have hdec : decodeRune (b :: (conts ++ rest)) = (RuneError, 1) :=
      decodeRune_nolead b _ (by omega) (leadInfo_none_of_cont b hb.2)
    refine ⟨[239, 191, 189] ++ junk, ?_, ?_⟩
    · rw [List.cons_append, ToLower_cons, lowerRuneAt_of_error _ hdec, hdec]
      simp only [Nat.sub_self, List.drop_zero, e, List.append_assoc]
    · intro x hx
      rcases List.mem_append.mp hx with h1 | h1
      · simp only [List.mem_cons, List.mem_singleton, List.not_mem_nil, or_false] at h1
        omega
      · exact hj x h1

/-- Lower-casing a text cut after `n` bytes and followed by an ASCII text `d`:
the result starts like the lower-cased whole text, on the runes that lie
within the first `n` bytes, continues with bytes above 127 for a rune that the
cut splits, and ends with the lower-cased `d`. -/
theorem lower_cut (d : Str) (hd : ∀ b ∈ d, b < 128) :
    ∀ (m : Nat) (s : Str), s.length ≤ m → ∀ n : Nat,
      ∃ pre junk post, lowerFrom 0 s = pre ++ post ∧
        lowerFrom 0 (s.take n ++ d) = pre ++ junk ++ lowerFrom 0 d ∧
        (∀ b ∈ junk, 128 ≤ b) ∧ (n ≤ s.length → n < 4 * pre.length + 4) := by
  intro m
  induction m with
  | zero =>
    intro s hs n
    have : s = [] := List.length_eq_zero.mp (by omega)
    subst this
    exact ⟨[], [], [], rfl, by simp, fun _ h => absurd h (List.not_mem_nil _), by
      intro h; simp only [List.length_nil] at h ⊢; omega⟩
  | succ m ih =>
    intro s hs n
    cases s with
    | nil =>
      exact ⟨[], [], [], rfl, by simp, fun _ h => absurd h (List.not_mem_nil _), by
        intro h; simp only [List.length_nil] at h ⊢; omega⟩
    | cons c t =>
      cases n with
      | zero =>
        exact ⟨[], [], lowerFrom 0 (c :: t), rfl, by simp,
          fun _ h => absurd h (List.not_mem_nil _), by intro _; simp⟩
      | succ n =>
        have hwd := decodeRune_width c t
        have htl : t.length ≤ m := by simp only [List.length_cons] at hs; omega
        rw [List.take_succ_cons, List.cons_append]
        by_cases hw : (decodeRune (c :: t)).2 ≤ n + 1
        · have e1 := decodeRune_cut c t d n hd hw
          have hk : (decodeRune (c :: t)).2 - 1 ≤ (t.take n).length := by
            rw [List.length_take]; omega
          obtain ⟨pre, junk, post, h1, h2, h3, h4⟩ :=
            ih (t.drop ((decodeRune (c :: t)).2 - 1)) (by rw [List.length_drop]; omega)
              (n - ((decodeRune (c :: t)).2 - 1))
          refine ⟨lowerRuneAt (c :: t) ++ pre, junk, post, ?_, ?_, h3, ?_⟩
          · rw [ToLower_cons, h1, List.append_assoc]
          · rw [ToLower_cons, e1]
            have e2 : lowerRuneAt (c :: (t.take n ++ d)) = lowerRuneAt (c :: t) := by
              unfold lowerRuneAt; rw [e1]
            rw [e2, List.drop_append_of_le_length hk, List.drop_take, h2]
            simp only [List.append_assoc]
          · intro hn
            have hpos := lowerRuneAt_length_pos (c :: t)
            have h5 := h4 (by
              rw [List.length_drop]
              simp only [List.length_cons] at hn
              omega)
            rw [List.length_append]
            omega
        · obtain ⟨hdec, hconts⟩ := decodeRune_partial c t d n hd (by omega)
          obtain ⟨junk, e, hj⟩ := lowerFrom_conts d (t.take n) hconts
          refine ⟨[], [239, 191, 189] ++ junk, lowerFrom 0 (c :: t), rfl, ?_, ?_, ?_⟩
          · rw [ToLower_cons, lowerRuneAt_of_error _ hdec, hdec]
            simp only [Nat.sub_self, List.drop_zero, e, List.append_assoc, List.nil_append]
          · intro x hx
            rcases List.mem_append.mp hx with h1 | h1
            · simp only [List.mem_cons, List.mem_singleton, List.not_mem_nil, or_false] at h1
              omega
            · exact hj x h1
          · intro _
            simp only [List.length_nil]
            omega

theorem ToLower_dots : lowerFrom 0 (lit "...") = lit "..." := by decide

theorem dots_ascii : ∀ b ∈ lit "...", b < 128 := by decide

/-- An ASCII phrase that does not end in a full stop and lies in the
lower-cased cut text with its `...` lies in the lower-cased whole text. -/
theorem Contains_ToLower_cut (s p : Str) (n : Nat) (hp : p ≠ []) (ha : ∀ b ∈ p, b < 128)
    (hl : p.getLast? ≠ some 46)
    (h : Contains (ToLower (s.take n ++ lit "...")) p = true) :
    Contains (ToLower s) p = true := by
  rw [Contains_iff] at h ⊢
  obtain ⟨pre, junk, post, h1, h2, h3, _⟩ :=
    lower_cut (lit "...") dots_ascii s.length s (le_refl _) n
  unfold ToLower at h ⊢
  rw [h2, ToLower_dots] at h
  rw [h1]
  exact (infix_of_infix_high p hp ha junk pre h3 (infix_of_infix_dots p _ hp hl h)).trans
    (List.prefix_append pre post).isInfix

theorem prefix_append_iff (p pre x : Str) (h : p.length ≤ pre.length) :
    p <+: pre ++ x ↔ p <+: pre :=
  ⟨fun hp => List.prefix_of_prefix_length_le hp (List.prefix_append _ _) h,
   fun hp => hp.trans (List.prefix_append _ _)⟩

/-- A short prefix of the lower-cased text is not changed by cutting the text
after `n` bytes and appending `...`. -/
theorem HasPrefix_ToLower_cut (s p : Str) (n : Nat) (hn : n ≤ s.length)
    (hp : 4 * p.length ≤ n) :
    HasPrefix (ToLower (s.take n ++ lit "...")) p = HasPrefix (ToLower s) p := by
  obtain ⟨pre, junk, post, h1, h2, _, h4⟩ :=
    lower_cut (lit "...") dots_ascii s.length s (le_refl _) n
  have hlen : p.length ≤ pre.length := by
    have := h4 hn
    omega
  rw [Bool.eq_iff_iff, HasPrefix_iff, HasPrefix_iff]
  unfold ToLower
  rw [h1, h2, List.append_assoc, prefix_append_iff _ _ _ hlen, prefix_append_iff _ _ _ hlen]

/-! ## extractMeaningfulLine -/

theorem meaningfulLoop_eq (lines : List Str) :
    meaningfulLoop lines =
      (lines.find? isMeaningful).map (fun l => truncateLine (TrimSpace l) 200) := by
  induction lines with
  | nil => rfl
  | cons l ls ih =>
    simp only [meaningfulLoop, List.find?_cons]
    by_cases h1 : TrimSpace l = []
    · have hm : isMeaningful l = false := by simp [isMeaningful, h1]
      simp only [h1, if_true, hm, ih]
    · by_cases h2 : (TrimSpace l).length < 20
      · have hm : isMeaningful l = false := by
          simp only [isMeaningful, Bool.and_eq_false_iff, decide_eq_false_iff_not]
          left; omega
        simp only [h1, h2, if_true, if_false, hm, ih]
      · by_cases h3 : isFiller (ToLower (TrimSpace l)) = true
        · have hm : isMeaningful l = false := by simp [isMeaningful, h3]
          simp only [h1, h2, h3, if_true, if_false, hm, ih]
        · have hm : isMeaningful l = true := by
            simp only [isMeaningful, Bool.and_eq_true, decide_eq_true_eq, Bool.not_eq_true']
            exact ⟨by omega, by simpa using h3⟩
          simp only [h1, h2, h3, if_false, hm, Option.map_some', Bool.false_eq_true]

theorem extractMeaningfulLine_eq (s : Str) :
    extractMeaningfulLine s =
      match (Split 10 s).find? isMeaningful with
      | some l => truncateLine (TrimSpace l) 200
      | none => if (firstLine s).length > 20 then truncateLine (firstLine s) 200 else [] := by
  unfold extractMeaningfulLine
  rw [meaningfulLoop_eq]
  cases (Split 10 s).find? isMeaningful <;> rfl

theorem truncateLine_length_ge (l : Str) (n k : Nat) (hk : k ≤ l.length) (hn : k ≤ n + 3) :
    k ≤ (truncateLine l n).length := by
  have hl : (lit "...").length = 3 := by decide
  unfold truncateLine
  split_ifs with h
  · exact hk
  · rw [List.length_append, List.length_take, hl]; omega

theorem HasPrefix_truncateLine (l p : Str) (hp : 4 * p.length ≤ 200) :
    HasPrefix (ToLower (truncateLine l 200)) p = HasPrefix (ToLower l) p := by
  unfold truncateLine
  split_ifs with h
  · rfl
  · exact HasPrefix_ToLower_cut l p 200 (by omega) hp

theorem isFiller_truncateLine (l : Str) :
    isFiller (ToLower (truncateLine l 200)) = isFiller (ToLower l) := by
  unfold isFiller
  rw [HasPrefix_truncateLine l _ (by decide), HasPrefix_truncateLine l _ (by decide),
    HasPrefix_truncateLine l _ (by decide), HasPrefix_truncateLine l _ (by decide),
    HasPrefix_truncateLine l _ (by decide)]

/-- C30 as stated fails: a content that is one filler line of more than 20
bytes is returned whole by the fallback to the first line, so the non-empty
result starts with the filler opener `now `. -/
theorem extractMeaningfulLine_filler_fallback :
    extractMeaningfulLine fillerLine = fillerLine ∧
    extractMeaningfulLine fillerLine ≠ [] ∧
    HasPrefix (ToLower (extractMeaningfulLine fillerLine)) (lit "now ") = true ∧
    isFiller (ToLower (extractMeaningfulLine fillerLine)) = true := by
  decide

/-- C30 (amended): `extractMeaningfulLine` returns the first line that, after
trimming, has at least 20 bytes and no filler opener, trimmed and truncated to
200 bytes; without such a line it falls back to the first line of the content
when that is longer than 20 bytes, filler or not, and is empty otherwise.  A
non-empty result has at least 20 bytes, and it starts with no filler opener
whenever the content has a meaningful line.  The openers are tested on the
line lower-cased as Go does, on runes: a first line that starts with
`O\u212AAY` is a filler line. -/
theorem extractMeaningfulLine_spec (s : Str) :
    extractMeaningfulLine s =
      (match (Split 10 s).find? isMeaningful with
       | some l => truncateLine (TrimSpace l) 200
       | none => if (firstLine s).length > 20 then truncateLine (firstLine s) 200 else []) ∧
    (extractMeaningfulLine s ≠ [] → 20 ≤ (extractMeaningfulLine s).length) ∧
    ((∃ l ∈ Split 10 s, isMeaningful l = true) →
      isFiller (ToLower (extractMeaningfulLine s)) = false) ∧
    extractMeaningfulLine
        (lit "O\u212AAY, here is the plan for today\nWe decided to keep the index") =
      lit "We decided to keep the index" := by
  refine ⟨extractMeaningfulLine_eq s, ?_, ?_, by decide!⟩
  · rw [extractMeaningfulLine_eq]
    cases hf : (Split 10 s).find? isMeaningful with
    | some l =>
      intro _
      have hm := List.find?_some hf
      simp only [isMeaningful, Bool.and_eq_true, decide_eq_true_eq] at hm
      exact truncateLine_length_ge _ _ _ hm.1 (by norm_num)
    | none =>
      simp only []
      split_ifs with h
      · intro _
        exact truncateLine_length_ge _ _ _ (by omega) (by norm_num)
      · intro hc; exact absurd rfl hc
  · rintro ⟨l, hl, hm⟩
    rw [extractMeaningfulLine_eq]
    cases hf : (Split 10 s).find? isMeaningful with
    | none =>
      rw [List.find?_eq_none] at hf
      exact absurd hm (hf l hl)
    | some l1 =>
      have hm1 := List.find?_some hf
      simp only [isMeaningful, Bool.and_eq_true, decide_eq_true_eq, Bool.not_eq_true'] at hm1
      simp only []
      rw [isFiller_truncateLine]
      exact hm1.2

theorem extractMeaningfulLine_spec_witness :
    (∃ l ∈ Split 10 (lit "Okay, on it\n  We decided to keep the index  \nbye"),
      isMeaningful l = true) ∧
    isFiller (ToLower (extractMeaningfulLine
      (lit "Okay, on it\n  We decided to keep the index  \nbye"))) = false :=
  ⟨⟨lit "  We decided to keep the index  ", by decide, by decide⟩,
   (extractMeaningfulLine_spec (lit "Okay, on it\n  We decided to keep the index  \nbye")).2.2.1
     ⟨lit "  We decided to keep the index  ", by decide, by decide⟩⟩

theorem extractMeaningfulLine_examples :
    extractMeaningfulLine (lit "Okay, on it\n  We decided to keep the index  \nbye") =
      lit "We decided to keep the index" ∧
    extractMeaningfulLine (lit "short") = [] ∧
    extractMeaningfulLine (lit "  Let me take a look at the parser\nok") =
      lit "  Let me take a look at the parser" := by
  decide

set_option maxRecDepth 100000

/-! ## shortenPath is idempotent -/

theorem shortenPath_of_tail (pre a b c : Str) (ha : 47 ∉ a) (hb : 47 ∉ b) (hc : 47 ∉ c) :
    shortenPath (pre ++ 47 :: (a ++ 47 :: (b ++ 47 :: c))) =
      lit ".../" ++ Join [a, b, c] (lit "/") := by
  have hsplit : Split 47 (pre ++ 47 :: (a ++ 47 :: (b ++ 47 :: c))) =
      Split 47 pre ++ [a, b, c] := by
    rw [Split_append, Split_append, Split_append, Split_of_no_sep 47 a ha,
      Split_of_no_sep 47 b hb, Split_of_no_sep 47 c hc]
    rfl
  have hpos : 0 < (Split 47 pre).length := List.length_pos.mpr (Split_ne_nil 47 pre)
  have hlen : ¬ (Split 47 pre ++ [a, b, c]).length ≤ 3 := by
    rw [List.length_append]; simp only [List.length_cons, List.length_nil]; omega
  have hdrop : (Split 47 pre ++ [a, b, c]).drop ((Split 47 pre ++ [a, b, c]).length - 3) =
      [a, b, c] := by
    have : (Split 47 pre ++ [a, b, c]).length - 3 = (Split 47 pre).length := by
      rw [List.length_append]; simp
    rw [this, List.drop_left]
  simp only [shortenPath, hsplit, hlen, if_false, hdrop]

theorem Join_three (a b c : Str) :
    lit ".../" ++ Join [a, b, c] (lit "/") = lit "..." ++ 47 :: (a ++ 47 :: (b ++ 47 :: c)) := by
  have hs : lit "/" = [47] := by decide
  have hd : lit ".../" = lit "..." ++ [47] := by decide
  rw [Join_cons_cons, Join_cons_cons, Join_single, hs, hd]
  simp only [List.append_assoc, List.singleton_append, List.cons_append, List.nil_append]

theorem last_three_segments (p : Str) (h : ¬ (Split 47 p).length ≤ 3) :
    ∃ a b c : Str, 47 ∉ a ∧ 47 ∉ b ∧ 47 ∉ c ∧
      (Split 47 p).drop ((Split 47 p).length - 3) = [a, b, c] := by
  have hl : ((Split 47 p).drop ((Split 47 p).length - 3)).length = 3 := by
    rw [List.length_drop]; omega
  have hsub : ∀ seg ∈ (Split 47 p).drop ((Split 47 p).length - 3), 47 ∉ seg :=
    fun seg hseg => Split_no_sep 47 p seg (List.mem_of_mem_drop hseg)
  match hd : (Split 47 p).drop ((Split 47 p).length - 3), hl, hsub with
  | [a, b, c], _, hsub =>
    exact ⟨a, b, c, hsub a (by simp), hsub b (by simp), hsub c (by simp), rfl⟩

/-- C35: shortening a shortened path changes nothing.  A path of at most three
segments is its own shortening; a longer one is shortened to `...` and its last
three segments, which has four segments and the same last three. -/
theorem shortenPath_idempotent (p : Str) :
    shortenPath (shortenPath p) = shortenPath p := by
  by_cases h : (Split 47 p).length ≤ 3
  · have e : shortenPath p = p := by simp only [shortenPath, h, if_true]
    rw [e, e]
  · obtain ⟨a, b, c, ha, hb, hc, hd⟩ := last_three_segments p h
    have e : shortenPath p = lit "..." ++ 47 :: (a ++ 47 :: (b ++ 47 :: c)) := by
      simp only [shortenPath, h, if_false, hd]
      exact Join_three a b c
    rw [e, shortenPath_of_tail (lit "...") a b c ha hb hc, Join_three]

theorem shortenPath_idempotent_examples :
    shortenPath (lit "/home/u/proj/internal/store/sqlite.go") = lit ".../internal/store/sqlite.go" ∧
    shortenPath (lit ".../internal/store/sqlite.go") = lit ".../internal/store/sqlite.go" ∧
    shortenPath (lit "a//b/") = lit ".../" ++ lit "/b/" ∧
    shortenPath (shortenPath (lit "a//b/")) = shortenPath (lit "a//b/") := by
  decide

/-! ## ReadLints and the Read rule -/

theorem summarizeToolCall_ReadLints_eq (text : Str)
    (h : firstNonEmpty (toolLines text) = lit "ReadLints") :
    summarizeToolCall text =
      if (lastField (lit "path:") (toolLines text)).getD [] ≠ [] then
        lit "Read " ++ shortenPath ((lastField (lit "path:") (toolLines text)).getD [])
      else lit "Checked for lint errors" := by
  have h1 : Contains (lit "ReadLints") (lit "StrReplace") = false := by decide
  have h2 : Contains (lit "ReadLints") (lit "Write") = false := by decide
  have h3 : Contains (lit "ReadLints") (lit "Read") = true := by decide
  have h4 : Contains (lit "ReadLints") (lit "Grep") = false := by decide
  have h5 : Contains (lit "ReadLints") (lit "Glob") = false := by decide
  have h6 : Contains (lit "ReadLints") (lit "ReadLints") = true := by decide
  rw [summarizeToolCall_eq]
  simp only [h, h1, h2, h3, h4, h5, h6, Bool.false_eq_true, false_and, true_and, if_false,
    if_true]

/-- C34 as stated fails on a section with two `path:` lines: the tool name is
`ReadLints`, a non-empty `path:` field is present, and the last `path:` line is
empty, so the summary is `Checked for lint errors`. -/
theorem summarizeToolCall_lint_overridden_path :
    firstNonEmpty (toolLines (lit "ReadLints\npath: a/b\npath:")) = lit "ReadLints" ∧
    hasNonEmptyField (lit "path:") (toolLines (lit "ReadLints\npath: a/b\npath:")) = true ∧
    summarizeToolCall (lit "ReadLints\npath: a/b\npath:") = lit "Checked for lint errors" := by
  decide

/-- C34 (amended): for a tool-call section whose tool name, the first
non-empty trimmed line, is exactly `ReadLints`, the Read rule comes first: the
summary is `Read ` and the shortened value of the last `path:` line when that
value is not empty, and `Checked for lint errors` exactly when it is empty or
there is no `path:` line. -/
theorem summarizeToolCall_ReadLints (text : Str)
    (h : firstNonEmpty (toolLines text) = lit "ReadLints") :
    ((lastField (lit "path:") (toolLines text)).getD [] ≠ [] →
      summarizeToolCall text =
        lit "Read " ++ shortenPath ((lastField (lit "path:") (toolLines text)).getD [])) ∧
    ((lastField (lit "path:") (toolLines text)).getD [] = [] →
      summarizeToolCall text = lit "Checked for lint errors") ∧
    (summarizeToolCall text = lit "Checked for lint errors" ↔
      (lastField (lit "path:") (toolLines text)).getD [] = []) := by
  have e := summarizeToolCall_ReadLints_eq text h
  have hne : ∀ x : Str, lit "Read " ++ x ≠ lit "Checked for lint errors" := by
    intro x hx
    have := congrArg (fun l => l.take 5) hx
    have h5 : (lit "Read " ++ x).take 5 = lit "Read " := by
      have : (lit "Read ").length = 5 := by decide
      rw [← this, List.take_left]
    simp only [h5] at this
    exact absurd this (by decide)
  refine ⟨?_, ?_, ?_⟩
  · intro hp; rw [e, if_pos hp]
  · intro hp; rw [e]; simp [hp]
  · constructor
    · intro hs
      by_contra hp
      rw [e, if_pos hp] at hs
      exact hne _ hs
    · intro hp; rw [e]; simp [hp]

theorem summarizeToolCall_ReadLints_witness :
    firstNonEmpty (toolLines (lit "ReadLints\n  path: /w/src/pkg/store/sqlite.go")) =
      lit "ReadLints" ∧
    summarizeToolCall (lit "ReadLints\n  path: /w/src/pkg/store/sqlite.go") =
      lit "Read " ++ shortenPath ((lastField (lit "path:")
        (toolLines (lit "ReadLints\n  path: /w/src/pkg/store/sqlite.go"))).getD []) :=
  ⟨by decide, (summarizeToolCall_ReadLints (lit "ReadLints\n  path: /w/src/pkg/store/sqlite.go")
    (by decide)).1 (by decide)⟩

theorem summarizeToolCall_ReadLints_examples :
    summarizeToolCall (lit "ReadLints\n  path: /w/src/pkg/store/sqlite.go") =
      lit "Read .../pkg/store/sqlite.go" ∧
    summarizeToolCall (lit "ReadLints") = lit "Checked for lint errors" ∧
    summarizeToolCall (lit "ReadLints\n  path:") = lit "Checked for lint errors" := by
  decide

set_option maxRecDepth 100000

/-! ## Truncation adds no noise phrase -/

theorem noisePatterns_ascii :
    ∀ p ∈ noisePatterns, p ≠ [] ∧ p.getLast? ≠ some 46 ∧ ∀ b ∈ p, b < 128 := by
  decide

/-- Cutting a text and appending `...` completes no noise phrase: the phrases
are ASCII and none ends in a full stop, while a rune that the cut splits is
lower-cased to bytes above 127. -/
theorem isMetaNoise_truncate (s : Str) (n : Nat) (h : isMetaNoise s = false) :
    isMetaNoise (truncate s n) = false := by
  by_contra hc
  have hc2 : isMetaNoise (truncate s n) = true := by simpa using hc
  simp only [isMetaNoise, List.any_eq_true] at hc2
  obtain ⟨p, hp, hcp⟩ := hc2
  have hin : Contains (ToLower s) p = true := by
    unfold truncate at hcp
    split_ifs at hcp
    · exact hcp
    · exact Contains_ToLower_cut s p n (noisePatterns_ascii p hp).1
        (noisePatterns_ascii p hp).2.2 (noisePatterns_ascii p hp).2.1 hcp
  have : isMetaNoise s = true := by
    simp only [isMetaNoise, List.any_eq_true]
    exact ⟨p, hp, hin⟩
  rw [h] at this
  exact Bool.noConfusion this

theorem truncate_ne_nil (s : Str) (n : Nat) (h : s ≠ []) : truncate s n ≠ [] := by
  unfold truncate
  split_ifs
  · exact h
  · intro hc
    have := (List.append_eq_nil.mp hc).2
    exact absurd this (by decide)

/-- What `sectionEntry` returns, branch by branch. -/
theorem sectionEntry_cases (sec : Section) (pe : parsedEntry) (h : sectionEntry sec = some pe) :
    (sec.role = lit "user" ∧
      extractUserQuery (cleanContent (TrimSpace sec.content)) ≠ [] ∧
      pe = parsedEntry.mk EntryType.conversation
        (truncate (extractUserQuery (cleanContent (TrimSpace sec.content))) 2000)
        (lit "\x7b\"role\":\"user\"\x7d")) ∨
    (sec.role = lit "assistant" ∧
      cleanContent (TrimSpace sec.content) ≠ [] ∧
      isMetaNoise (cleanContent (TrimSpace sec.content)) = false ∧
      pe = parsedEntry.mk (classifyAssistantText (cleanContent (TrimSpace sec.content)))
        (truncate (cleanContent (TrimSpace sec.content)) 3000)
        (lit "\x7b\"role\":\"assistant\"\x7d")) ∨
    (sec.role = lit "tool_call" ∧
      summarizeToolCall (TrimSpace sec.content) ≠ [] ∧
      pe = parsedEntry.mk EntryType.code_change (summarizeToolCall (TrimSpace sec.content))
        (lit "\x7b\"source\":\"tool_call\"\x7d")) ∨
    (sec.role = lit "tool_result" ∧
      pe = parsedEntry.mk EntryType.error (cleanContent (truncate (TrimSpace sec.content) 500))
        (lit "\x7b\"source\":\"tool_result\"\x7d")) := by
  simp only [sectionEntry] at h
  split_ifs at h with h0 h1 h2 h3 h4 h5 h6 h7 h8
  · exact Or.inl ⟨h1, h2, (Option.some.inj h).symm⟩
  · simp only [not_or, Bool.not_eq_true] at h4
    exact Or.inr (Or.inl ⟨h3, h4.1, h4.2, (Option.some.inj h).symm⟩)
  · exact Or.inr (Or.inr (Or.inl ⟨h5, h6, (Option.some.inj h).symm⟩))
  · exact Or.inr (Or.inr (Or.inr ⟨h7, (Option.some.inj h).symm⟩))

/-- What `extractEntries` returns, branch by branch. -/
theorem extractEntries_cases (tl : transcriptLine) (pe : parsedEntry)
    (h : pe ∈ extractEntries tl) :
    (tl.Role = lit "user" ∧
      extractUserQuery (cleanContent (extractText tl)) ≠ [] ∧
      pe = parsedEntry.mk EntryType.conversation
        (truncate (extractUserQuery (cleanContent (extractText tl))) 2000)
        (lit "\x7b\"role\":\"user\"\x7d")) ∨
    (tl.Role = lit "assistant" ∧
      cleanContent (extractText tl) ≠ [] ∧
      isMetaNoise (cleanContent (extractText tl)) = false ∧
      pe = parsedEntry.mk (classifyAssistantText (cleanContent (extractText tl)))
        (truncate (cleanContent (extractText tl)) 3000)
        (lit "\x7b\"role\":\"assistant\"\x7d")) ∨
    (tl.Role = lit "tool" ∧
      pe = parsedEntry.mk EntryType.error (truncate (cleanContent (extractText tl)) 500)
        (lit "\x7b\"source\":\"tool_result\"\x7d")) := by
  simp only [extractEntries] at h
  split_ifs at h with h0 h1 h2 h3 h4 h5 h6
  · exact absurd h (List.not_mem_nil _)
  · exact absurd h (List.not_mem_nil _)
  · exact Or.inl ⟨h1, h2, List.mem_singleton.mp h⟩
  · exact absurd h (List.not_mem_nil _)
  · simp only [not_or, Bool.not_eq_true] at h4
    exact Or.inr (Or.inl ⟨h3, h4.1, h4.2, List.mem_singleton.mp h⟩)
  · exact Or.inr (Or.inr ⟨h5, List.mem_singleton.mp h⟩)
  · exact absurd h (List.not_mem_nil _)
  · exact absurd h (List.not_mem_nil _)

/-! ## No stored assistant entry is meta-noise -/

/-- C32: an entry with the metadata of the assistant role, whether it comes
from a section of the free-form transcript or from a structured record, has a
content for which `isMetaNoise` is false, and so has every such entry that
`parseTextTranscript` adds to the store.  The content is the cleaned text
truncated to 3000 bytes; the cleaned text is no noise, the noise phrases are
ASCII and none ends in a full stop, and a rune that the cut splits is
lower-cased to U+FFFD, so cutting the text and appending `...` completes no
phrase.  The assistant answer of the example transcript is such an entry. -/
theorem assistant_entries_not_noise :
    (∀ (s : Str) (n : Nat), isMetaNoise s = false → isMetaNoise (truncate s n) = false) ∧
    (∀ (sec : Section) (pe : parsedEntry), sectionEntry sec = some pe →
      pe.Meta = lit "\x7b\"role\":\"assistant\"\x7d" → isMetaNoise pe.Content = false) ∧
    (∀ (tl : transcriptLine) (pe : parsedEntry), pe ∈ extractEntries tl →
      pe.Meta = lit "\x7b\"role\":\"assistant\"\x7d" → isMetaNoise pe.Content = false) ∧
    (∀ (st : Store) (sessionID data : Str),
      ∃ new, (parseTextTranscript st sessionID data).1.entries = st.entries ++ new ∧
        ∀ e ∈ new, e.Metadata = lit "\x7b\"role\":\"assistant\"\x7d" →
          isMetaNoise e.Content = false) ∧
    (((parseTextTranscript emptyStore (lit "s1") exampleTranscript).1.entries.filter
        (fun e => e.Metadata = lit "\x7b\"role\":\"assistant\"\x7d")).map
        (fun e => (e.Content, isMetaNoise e.Content))) = [(exampleAnswer, false)] := by
  have hu : lit "\x7b\"role\":\"user\"\x7d" ≠ lit "\x7b\"role\":\"assistant\"\x7d" := by decide
  have hc : lit "\x7b\"source\":\"tool_call\"\x7d" ≠ lit "\x7b\"role\":\"assistant\"\x7d" := by
    decide
  have hr : lit "\x7b\"source\":\"tool_result\"\x7d" ≠ lit "\x7b\"role\":\"assistant\"\x7d" := by
    decide
  have hsec : ∀ (sec : Section) (pe : parsedEntry), sectionEntry sec = some pe →
      pe.Meta = lit "\x7b\"role\":\"assistant\"\x7d" → isMetaNoise pe.Content = false := by
    intro sec pe h hm
    rcases sectionEntry_cases sec pe h with ⟨_, _, e⟩ | ⟨_, _, hn, e⟩ | ⟨_, _, e⟩ | ⟨_, e⟩
    · subst e; dsimp only at hm; exact absurd hm hu
    · subst e; dsimp only; exact isMetaNoise_truncate _ _ hn
    · subst e; dsimp only at hm; exact absurd hm hc
    · subst e; dsimp only at hm; exact absurd hm hr
  refine ⟨isMetaNoise_truncate, hsec, ?_, ?_, by decide!⟩
  · intro tl pe h hm
    rcases extractEntries_cases tl pe h with ⟨_, _, e⟩ | ⟨_, _, hn, e⟩ | ⟨_, e⟩
    · subst e; dsimp only at hm; exact absurd hm hu
    · subst e; dsimp only; exact isMetaNoise_truncate _ _ hn
    · subst e; dsimp only at hm; exact absurd hm hr
  · intro st sessionID data
    obtain ⟨new, h1, h2⟩ := addSections_entries sessionID (scanSections data) st 0
    refine ⟨new, h1, ?_⟩
    intro e he hm
    obtain ⟨sec, _, hs⟩ := h2 e he
    exact hsec sec e.parsed hs hm

/-- The assistant answer of the example is stored and is no noise; an answer
about `ctxsave init` is dropped, and so is one about the `TO\u212AEN BUDGET`.
A text cut inside the Kelvin sign of `to\u212Aen budget` is no noise. -/
theorem assistant_entries_not_noise_examples :
    (((parseTextTranscript emptyStore (lit "s1") exampleTranscript).1.entries.filter
        (fun e => e.Metadata = lit "\x7b\"role\":\"assistant\"\x7d")).map
        (fun e => isMetaNoise e.Content)) = [false] ∧
    (parseTextTranscript emptyStore (lit "s1")
        (lit "assistant:\nRun ctxsave init first.")).1.entries = [] ∧
    (parseTextTranscript emptyStore (lit "s1")
        (lit "assistant:\nThe TO\u212AEN BUDGET is fine.")).1.entries = [] ∧
    truncate (lit "to\u212Aen budget") 3 = [116, 111, 226] ++ lit "..." ∧
    ToLower (truncate (lit "to\u212Aen budget") 3) = lit "to\uFFFD..." ∧
    isMetaNoise (truncate (lit "to\u212Aen budget") 3) = false := by
  decide!

/-! ## Which emitted entries have non-empty content -/

/-- C33 fails for tool results.  The user, assistant and tool_call branches
drop an empty content; the tool-result branches test the uncleaned text for
the keywords only.  A tool result that is one markup tag containing `error`,
such as a code selection of the file `src/errors.go`, is kept, cleaning
deletes the tag, and the error entry has empty content, in the free-form
parser and in `extractEntries`. -/
theorem tool_result_empty_content :
    ((parseTextTranscript emptyStore (lit "s1")
        (lit "[Tool result]\n<code_selection path=\"src/errors.go\"></code_selection>")).1.entries.map
        (fun e => (e.Type_, e.Content))) = [(EntryType.error, [])] ∧
    ((extractEntries (transcriptLine.mk (lit "tool")
        [(lit "text", lit "<code_selection path=\"src/errors.go\"></code_selection>")])).map
        (fun pe => (pe.Type_, pe.Content))) = [(EntryType.error, [])] ∧
    ((parseTextTranscript emptyStore (lit "s1")
        (lit "[Tool result]\n<user_query error>")).1.entries.map
        (fun e => (e.Type_, e.Content))) = [(EntryType.error, [])] ∧
    ((extractEntries (transcriptLine.mk (lit "tool")
        [(lit "text", lit "<user_query error>")])).map
        (fun pe => (pe.Type_, pe.Content))) = [(EntryType.error, [])] ∧
    sectionEntry (Section.mk (lit "assistant") (lit "<user_query error>")) = none ∧
    sectionEntry (Section.mk (lit "user") (lit "<user_query error>")) = none := by
  decide!

/-- Where the content is not empty: every entry emitted from a user, assistant
or tool_call section of a free-form transcript, and every entry that
`extractEntries` returns for a user or assistant record, has non-empty
content; so has every entry that `parseTextTranscript` adds to the store, the
error entries apart.  The error entry of a tool result has the cleaned text as
content, without a test for emptiness. -/
theorem parsed_content_nonempty :
    (∀ (sec : Section) (pe : parsedEntry), sectionEntry sec = some pe →
      (sec.role ≠ lit "tool_result" → pe.Content ≠ []) ∧
      (sec.role = lit "tool_result" →
        pe.Type_ = EntryType.error ∧
        pe.Content = cleanContent (truncate (TrimSpace sec.content) 500))) ∧
    (∀ (tl : transcriptLine) (pe : parsedEntry), pe ∈ extractEntries tl →
      (tl.Role ≠ lit "tool" → pe.Content ≠ []) ∧
      (tl.Role = lit "tool" →
        pe.Type_ = EntryType.error ∧
        pe.Content = truncate (cleanContent (extractText tl)) 500)) ∧
    (∀ (st : Store) (sessionID data : Str),
      ∃ new, (parseTextTranscript st sessionID data).1.entries = st.entries ++ new ∧
        ∀ e ∈ new, e.Type_ ≠ EntryType.error → e.Content ≠ []) := by
  have h1 : lit "user" ≠ lit "tool_result" := by decide
  have h2 : lit "assistant" ≠ lit "tool_result" := by decide
  have h3 : lit "tool_call" ≠ lit "tool_result" := by decide
  have h4 : lit "user" ≠ lit "tool" := by decide
  have h5 : lit "assistant" ≠ lit "tool" := by decide
  have hsec : ∀ (sec : Section) (pe : parsedEntry), sectionEntry sec = some pe →
      (sec.role ≠ lit "tool_result" → pe.Content ≠ []) ∧
      (sec.role = lit "tool_result" →
        pe.Type_ = EntryType.error ∧
        pe.Content = cleanContent (truncate (TrimSpace sec.content) 500)) := by
    intro sec pe h
    rcases sectionEntry_cases sec pe h with ⟨r, hq, e⟩ | ⟨r, hq, _, e⟩ | ⟨r, hq, e⟩ | ⟨r, e⟩
    · subst e
      dsimp only
      exact ⟨fun _ => truncate_ne_nil _ _ hq, fun hr => absurd (r.symm.trans hr) h1⟩
    · subst e
      dsimp only
      exact ⟨fun _ => truncate_ne_nil _ _ hq, fun hr => absurd (r.symm.trans hr) h2⟩
    · subst e
      dsimp only
      exact ⟨fun _ => hq, fun hr => absurd (r.symm.trans hr) h3⟩
    · subst e
      dsimp only
      exact ⟨fun hr => absurd r hr, fun _ => ⟨rfl, rfl⟩⟩
  refine ⟨hsec, ?_, ?_⟩
  · intro tl pe h
    rcases extractEntries_cases tl pe h with ⟨r, hq, e⟩ | ⟨r, hq, _, e⟩ | ⟨r, e⟩
    · subst e
      dsimp only
      exact ⟨fun _ => truncate_ne_nil _ _ hq, fun hr => absurd (r.symm.trans hr) h4⟩
    · subst e
      dsimp only
      exact ⟨fun _ => truncate_ne_nil _ _ hq, fun hr => absurd (r.symm.trans hr) h5⟩
    · subst e
      dsimp only
      exact ⟨fun hr => absurd r hr, fun _ => ⟨rfl, rfl⟩⟩
  · intro st sessionID data
    obtain ⟨new, hn1, hn2⟩ := addSections_entries sessionID (scanSections data) st 0
    refine ⟨new, hn1, ?_⟩
    intro e he ht
    obtain ⟨sec, _, hs⟩ := hn2 e he
    refine (hsec sec e.parsed hs).1 ?_
    intro hr
    exact ht ((hsec sec e.parsed hs).2 hr).1

set_option maxRecDepth 100000

/-! ## cleanQuestionLine -/

/-- C31 as stated fails for a line that starts with a mention: the line as a
whole has 15 bytes or more and does not look like code, but what is returned
is the rest after the first space, which can look like code (it starts with
`//`) and can be shorter than 15 bytes. -/
theorem cleanQuestionLine_after_mention :
    cleanQuestionLine (lit "@reviewer // see this please ok") = lit "// see this please ok" ∧
    looksLikeCode (cleanQuestionLine (lit "@reviewer // see this please ok")) = true ∧
    cleanQuestionLine (lit "@abcdefghijklmnop hi") = lit "hi" ∧
    (cleanQuestionLine (lit "@abcdefghijklmnop hi")).length < 15 := by
  decide

theorem questionLoop_eq (lines : List Str) :
    questionLoop lines =
      (lines.find? isQuestionLine).map (fun l => stripMention (TrimSpace l)) := by
  induction lines with
  | nil => rfl
  | cons l ls ih =>
    simp only [questionLoop, List.find?_cons]
    by_cases h1 : TrimSpace l = [] ∨ (TrimSpace l).length < 15
    · have hq : isQuestionLine l = false := by
        have : ¬ 15 ≤ (TrimSpace l).length := by
          rcases h1 with h | h
          · rw [h]; decide
          · omega
        simp [isQuestionLine, this]
      rw [if_pos h1, hq, ih]
    · rw [if_neg h1]
      simp only [not_or, not_lt] at h1
      by_cases h2 : looksLikeCode (TrimSpace l) = true
      · have hq : isQuestionLine l = false := by simp [isQuestionLine, h2]
        rw [if_pos h2, hq, ih]
      · rw [if_neg h2]
        have e : (if HasPrefix (TrimSpace l) (lit "@") = true then
              TrimSpace ((TrimSpace l).drop (Index (TrimSpace l) (lit " ") + 1).toNat)
            else TrimSpace l) = stripMention (TrimSpace l) := rfl
        rw [e]
        by_cases h3 : HasPrefix (stripMention (TrimSpace l)) (lit "#") = true
        · have hq : isQuestionLine l = false := by simp [isQuestionLine, h3]
          rw [if_pos h3, hq, ih]
        · have hq : isQuestionLine l = true := by
            simp only [isQuestionLine, Bool.and_eq_true, decide_eq_true_eq, Bool.not_eq_true']
            exact ⟨⟨h1.2, by simpa using h2⟩, by simpa using h3⟩
          rw [if_neg h3, hq]
          rfl

/-- C31 (amended): `cleanQuestionLine` returns from the first line of the
content that, trimmed, has at least 15 bytes, does not look like code and,
without a leading mention, does not start with `#`; the result is that trimmed
line, or, when the line starts with `@`, the trimmed rest after its first
space; it is empty when there is no such line.  The lines before that line do
not qualify.  When no line of the content starts with `@`, a non-empty clean
question line has at least 15 bytes and does not look like code. -/
theorem cleanQuestionLine_spec (s : Str) :
    cleanQuestionLine s =
      (match (Split 10 s).find? isQuestionLine with
       | some l => stripMention (TrimSpace l)
       | none => []) ∧
    (∀ (pre post : List Str) (line : Str), Split 10 s = pre ++ line :: post →
      (∀ l ∈ pre, isQuestionLine l = false) → isQuestionLine line = true →
        cleanQuestionLine s = stripMention (TrimSpace line) ∧
        15 ≤ (TrimSpace line).length ∧ looksLikeCode (TrimSpace line) = false ∧
        HasPrefix (cleanQuestionLine s) (lit "#") = false) ∧
    ((∀ l ∈ Split 10 s, isQuestionLine l = false) → cleanQuestionLine s = []) ∧
    ((∀ line ∈ Split 10 s, HasPrefix (TrimSpace line) (lit "@") = false) →
      cleanQuestionLine s ≠ [] →
        15 ≤ (cleanQuestionLine s).length ∧ looksLikeCode (cleanQuestionLine s) = false) := by
  have hmain : cleanQuestionLine s =
      (match (Split 10 s).find? isQuestionLine with
       | some l => stripMention (TrimSpace l)
       | none => []) := by
    unfold cleanQuestionLine
    rw [questionLoop_eq]
    cases (Split 10 s).find? isQuestionLine <;> rfl
  refine ⟨hmain, ?_, ?_, ?_⟩
  · intro pre post line hsplit hpre hline
    have hfind : (Split 10 s).find? isQuestionLine = some line := by
      rw [hsplit, List.find?_append, List.find?_eq_none.mpr (fun l hl => by simp [hpre l hl])]
      simp [List.find?_cons, hline]
    have hres : cleanQuestionLine s = stripMention (TrimSpace line) := by
      rw [hmain, hfind]
    simp only [isQuestionLine, Bool.and_eq_true, decide_eq_true_eq, Bool.not_eq_true'] at hline
    refine ⟨hres, hline.1.1, hline.1.2, ?_⟩
    rw [hres]
    exact hline.2
  · intro hnone
    have hfind : (Split 10 s).find? isQuestionLine = none :=
      List.find?_eq_none.mpr (fun l hl => by simp [hnone l hl])
    rw [hmain, hfind]
  · intro hat hne
    rw [hmain] at hne ⊢
    cases hf : (Split 10 s).find? isQuestionLine with
    | none => rw [hf] at hne; exact absurd rfl hne
    | some l =>
      have hq := List.find?_some hf
      have hm := List.mem_of_find?_eq_some hf
      simp only [isQuestionLine, Bool.and_eq_true, decide_eq_true_eq, Bool.not_eq_true'] at hq
      have hno := hat l hm
      have e : stripMention (TrimSpace l) = TrimSpace l := by
        unfold stripMention
        rw [hno]
        simp
      simp only [e]
      exact ⟨hq.1.1, hq.1.2⟩

theorem cleanQuestionLine_spec_witness :
    (∀ line ∈ Split 10 (lit "const x = 1;\n  How do I add an index to the table?\nthanks"),
      HasPrefix (TrimSpace line) (lit "@") = false) ∧
    cleanQuestionLine (lit "const x = 1;\n  How do I add an index to the table?\nthanks")
      ≠ [] ∧
    15 ≤ (cleanQuestionLine
      (lit "const x = 1;\n  How do I add an index to the table?\nthanks")).length ∧
    looksLikeCode (cleanQuestionLine
      (lit "const x = 1;\n  How do I add an index to the table?\nthanks")) = false :=
  ⟨by decide, by decide,
   (cleanQuestionLine_spec
      (lit "const x = 1;\n  How do I add an index to the table?\nthanks")).2.2.2
      (by decide) (by decide)⟩

theorem cleanQuestionLine_examples :
    cleanQuestionLine (lit "const x = 1;\n  How do I add an index to the table?\nthanks") =
      lit "How do I add an index to the table?" ∧
    cleanQuestionLine (lit "@src/main.go please explain this file") =
      lit "please explain this file" ∧
    cleanQuestionLine (lit "too short") = [] ∧
    cleanQuestionLine (lit "Why is the first query slow?\nAnd why is the second one fast?") =
      lit "Why is the first query slow?" := by
  decide

end Ctxsave
